import Mathlib

set_option autoImplicit false
set_option maxHeartbeats 1000000
set_option maxRecDepth 4000

/-!
Verification development for the patch-application, text-parsing, consent-ledger
and backlog subsystem of the repository (src/core/patching.py,
src/core/orchestrator.py, src/crew_config.py,
src/modules/autonomous_agent/consent.py, src/tools/backlog_lib.py).

Python functions are shallowly embedded as executable Lean definitions.
Filesystem effects are modelled as a finite map from absolute path strings to
file contents plus an explicit trace of filesystem operations.  Machine-level
details that no claim depends on (directory entries as opposed to plain files,
OS errors during writes, the sha1 compression function itself) are modelled by
faithful structural stand-ins, each documented at its definition.
-/

/-! ## Character and string utilities mirroring Python semantics -/

/-- ASCII whitespace as matched by the Python regular-expression class `\s`
and by `str.strip()` / `str.isspace()`. -/
def reWs (c : Char) : Bool :=
  c == ' ' || c == '\t' || c == '\n' || c == '\r' || c == '\x0b' || c == '\x0c'

/-- Whitespace accepted between tokens by Python `json.loads`. -/
def jWs (c : Char) : Bool :=
  c == ' ' || c == '\t' || c == '\n' || c == '\r'

/-- ASCII lower-casing, the fragment of Python `str.lower()` the sources rely on. -/
def lowerC (c : Char) : Char :=
  if 'A' ≤ c && c ≤ 'Z' then Char.ofNat (c.toNat + 32) else c

/-- Lower-case a character list. -/
def lowerL (cs : List Char) : List Char := cs.map lowerC

/-- Python `str.strip()` on a character list. -/
def stripL (cs : List Char) : List Char :=
  ((cs.dropWhile reWs).reverse.dropWhile reWs).reverse

/-- Python `str.strip()` on a string. -/
def pyStrip (s : String) : String := String.mk (stripL s.toList)

/-- Python `str.lower()` on a string (ASCII fragment). -/
def pyLower (s : String) : String := String.mk (lowerL s.toList)

/-- Python `str.lstrip("\n\r")` on a character list. -/
def lstripNlCr (cs : List Char) : List Char :=
  cs.dropWhile (fun c => c == '\n' || c == '\r')

/-- Decimal digit character. -/
def digitC (d : Nat) : Char := Char.ofNat (48 + d)

/-- Decimal digits of a natural number, most significant first (fuel variant). -/
def natDecAux : Nat → Nat → List Char
  | 0, _ => []
  | fuel + 1, n => if n < 10 then [digitC n] else natDecAux fuel (n / 10) ++ [digitC (n % 10)]

/-- Decimal rendering of a natural number, as Python `str(n)` for `n ≥ 0`. -/
def natDec (n : Nat) : List Char := natDecAux (n + 1) n

/-- Zero-padded decimal rendering of width 2 (Python `%02d` for `n ≤ 99`). -/
def pad2 (n : Nat) : List Char := if n < 10 then '0' :: natDec n else natDec n

/-- Zero-padded decimal rendering of width 4 (Python `%04d` for `n ≤ 9999`). -/
def pad4 (n : Nat) : List Char :=
  List.replicate (4 - (natDec n).length) '0' ++ natDec n

/-- Python `str(i)` for an integer. -/
def intDec (i : Int) : List Char :=
  if i < 0 then '-' :: natDec i.natAbs else natDec i.toNat

/-- Split a character list on a separator character (Python `str.split(sep)`). -/
def splitOnC (sep : Char) (cs : List Char) : List (List Char) :=
  cs.foldr
    (fun c acc =>
      match acc with
      | h :: t => if c == sep then [] :: h :: t else (c :: h) :: t
      | [] => [[c]])
    [[]]

/-- Is `pat` an infix of `cs` (Python `pat in cs`)? -/
def containsSub : List Char → List Char → Bool
  | [], pat => pat.isEmpty
  | c :: t, pat => pat.isPrefixOf (c :: t) || containsSub t pat

/-- Split a string on the path separator. -/
def strSplitSlash (s : String) : List String := (splitOnC '/' s.toList).map String.mk

/-- Python `s.startswith(pre)`. -/
def strStartsWith (s pre : String) : Bool := pre.toList.isPrefixOf s.toList

/-- Join path segments with separators. -/
def joinSegs : List String → List Char
  | [] => []
  | [s] => s.toList
  | s :: r :: rest => s.toList ++ '/' :: joinSegs (r :: rest)

/-- Python `needle in haystack` on strings. -/
def pyContains (haystack needle : String) : Bool := containsSub haystack.toList needle.toList

/-! ## Path model

Absolute filesystem paths are modelled as lists of path segments below the
filesystem root; `pathStr` renders the `/`-joined absolute string Python code
compares with `str(...)`.  `pyResolve` models `(base / rel).resolve()` for the
symlink-free filesystems the claims quantify over. -/

/-- Segment list of a relative path as produced by `pathlib.PurePosixPath(v).parts`,
restricted to the named segments (empty and `.` segments are dropped, `..` kept). -/
def pyPathParts (rel : String) : List String :=
  (strSplitSlash rel).filter (fun s => decide (s ≠ "") && decide (s ≠ "."))

/-- Python `os.path.isabs` on POSIX. -/
def pyIsAbs (p : String) : Bool := strStartsWith p "/"

/-- Resolve a list of raw segments against an initial absolute path:
empty and `.` segments are dropped, `..` pops one segment (saturating at the
filesystem root), everything else is pushed. -/
def resolveSegs (init : List String) (segs : List String) : List String :=
  segs.foldl
    (fun acc s =>
      if s = "" || s = "." then acc
      else if s = ".." then acc.dropLast
      else acc ++ [s])
    init

/-- Model of `(base / rel).resolve()` from `pathlib` on a symlink-free tree. -/
def pyResolve (base : List String) (rel : String) : List String :=
  resolveSegs (if pyIsAbs rel then [] else base) (strSplitSlash rel)

/-- Render an absolute path (`str(path)` in Python). -/
def pathStr (segs : List String) : String := String.mk ('/' :: joinSegs segs)

/-- Parent directory (`path.parent`). -/
def parentDir (segs : List String) : List String := segs.dropLast

/-! ## src/core/patching.py -/

/-- A single change of a patch set (`PatchChange`). -/
structure PChange where
  path : String
  op : String
  language : Option String := none
  content : Option String := none
  diff : Option String := none
  note : Option String := none
deriving DecidableEq

/-- A patch set (`PatchSet`). -/
structure PatchSet where
  plan : Option String := none
  changes : List PChange
deriving DecidableEq

/-- `SAFE_OPS` from patching.py. -/
def SAFE_OPS : List String := ["upsert", "update", "delete"]

/-- The pydantic validator `_path_secure` of `PatchChange.path`. -/
def validate_path (v : String) : Except String Unit :=
  if pyIsAbs v then .error "Absolute paths are not allowed"
  else if (pyPathParts v).contains ".." then .error "Path traversal .. is not allowed"
  else if pyStrip v = "" then .error "Empty path"
  else .ok ()

/-- The pydantic validator `_op_valid` of `PatchChange.op`. -/
def validate_op (v : String) : Except String Unit :=
  if SAFE_OPS.contains v then .ok () else .error ("Invalid op " ++ v)

/-- Field validation of one `PatchChange` (pydantic validates fields in
declaration order: `path` before `op`). -/
def validate_change (c : PChange) : Except String Unit :=
  match validate_path c.path with
  | .error e => .error e
  | .ok _ => validate_op c.op

/-- Validation of a change list: the first failing change aborts construction.
In the source, a validation failure inside `apply_patch_set` reaches the
fallback re-construction at patching.py:170-173, whose `PatchChange(**c)`
re-raises the same validator error uncaught, so the whole call raises. -/
def validate_changes : List PChange → Except String Unit
  | [] => .ok ()
  | c :: rest =>
    match validate_change c with
    | .error e => .error e
    | .ok _ => validate_changes rest

/-- The detail carried by one entry of an `ApplyResult` list (which keys of the
per-file result dict are set, beyond `path` and `op`). -/
inductive EDetail where
  | dryRun (mode : Option String)
  | deleted
  | written
  | protectedReason
  | permError (msg : String)
  | errMsg (msg : String) (note : Option String)
deriving DecidableEq

/-- One entry of an `ApplyResult` list. -/
structure REntry where
  path : String
  op : String
  detail : EDetail
deriving DecidableEq

/-- `ApplyResult` from patching.py. -/
structure ApplyResult where
  applied : List REntry
  skipped : List REntry
  errors : List REntry
deriving DecidableEq

/-- The filesystem, as a finite map from rendered absolute paths to file
contents (association list; first binding of a key is authoritative). -/
abbrev Fs := List (String × String)

/-- Lookup of a file. -/
def fsGet (fs : Fs) (k : String) : Option String :=
  (fs.find? (fun kv => kv.1 == k)).map (fun kv => kv.2)

/-- Create or overwrite a file (dictionary assignment: replace the binding in
place when the key is present, append otherwise). -/
def fsSet : Fs → String → String → Fs
  | [], k, v => [(k, v)]
  | kv :: t, k, v => if kv.1 == k then (k, v) :: t else kv :: fsSet t k v

/-- Remove a file. -/
def fsDel (fs : Fs) (k : String) : Fs := fs.filter (fun kv => kv.1 != k)

/-- Trace of filesystem-mutating operations, in program order. -/
inductive FsOp where
  | mkdirp (dir : String)
  | writeF (path : String) (content : String)
  | removeF (path : String)
  | copyF (src : String) (dst : String)
  | tmpWriteF (dir : String) (content : String)
  | fsyncF
  | renameF (dir : String) (target : String)
deriving DecidableEq

/-- `_safe_target` from patching.py: resolve below the repo root, reject a
result whose rendered path does not start with the rendered root. -/
def safe_target (root : List String) (rel : String) : Except String (List String) :=
  let tgt := pyResolve root rel
  if strStartsWith (pathStr tgt) (pathStr root) then .ok tgt
  else .error ("Illegal target outside repo: " ++ rel)

/-- Outcome of the protected-paths scan at patching.py:194-202. -/
inductive ProtOut where
  | clear
  | hit
  | errOut (msg : String)
deriving DecidableEq

/-- The protected-paths loop of `apply_patch_set`: resolve each protected entry
(`_safe_target` failure raises `PermissionError`), stop at the first protected
entry that equals the target or is an ancestor directory of it. -/
def prot_scan (root : List String) (tgtS : String) : List String → ProtOut
  | [] => .clear
  | p :: rest =>
    match safe_target root p with
    | .error m => .errOut m
    | .ok pp =>
      if tgtS = pathStr pp || strStartsWith tgtS (pathStr pp ++ "/") then .hit
      else prot_scan root tgtS rest

/-- `_write_text` from patching.py:100-102: create parent directories, then a
single plain `Path.write_text` call — the trace it produces. -/
def write_text_ops (tgt : List String) (c : String) : List FsOp :=
  [.mkdirp (pathStr (parentDir tgt)), .writeF (pathStr tgt) c]

/-- `_write_text`: effect on the filesystem map. -/
def write_text_fs (fs : Fs) (tgt : List String) (c : String) : Fs :=
  fsSet fs (pathStr tgt) c

/-- Processing of one change by the loop body of `apply_patch_set`
(patching.py:179-243): returns the entries appended to applied / skipped /
errors, the new filesystem and the operation trace.  A protected hit appends a
reason entry and then raises `PermissionError`, whose handler appends a second
skipped entry.  Directory targets of `delete` are modelled as plain files
(no claim exercises `shutil.rmtree`). -/
def process_change (root : List String) (dry : Bool) (prot : List String) (fs : Fs)
    (ch : PChange) : (List REntry × List REntry × List REntry × Fs × List FsOp) :=
  match safe_target root ch.path with
  | .error m => ([], [⟨ch.path, ch.op, .permError m⟩], [], fs, [])
  | .ok tgt =>
    let tgtS := pathStr tgt
    match prot_scan root tgtS prot with
    | .errOut m => ([], [⟨ch.path, ch.op, .permError m⟩], [], fs, [])
    | .hit =>
      ([], [⟨ch.path, ch.op, .protectedReason⟩,
            ⟨ch.path, ch.op, .permError ("Attempted to modify protected path: " ++ ch.path)⟩],
       [], fs, [])
    | .clear =>
      if ch.op = "delete" then
        if dry then ([⟨ch.path, ch.op, .dryRun none⟩], [], [], fs, [])
        else if (fsGet fs tgtS).isSome then
          ([⟨ch.path, ch.op, .deleted⟩], [], [], fsDel fs tgtS, [.removeF tgtS])
        else ([⟨ch.path, ch.op, .deleted⟩], [], [], fs, [])
      else if ch.op = "upsert" || ch.op = "update" then
        match ch.content with
        | some c =>
          if dry then ([⟨ch.path, ch.op, .dryRun (some "content")⟩], [], [], fs, [])
          else ([⟨ch.path, ch.op, .written⟩], [], [], write_text_fs fs tgt c, write_text_ops tgt c)
        | none =>
          match ch.diff with
          | some _ =>
            ([], [], [⟨ch.path, ch.op,
              .errMsg "diff-based updates are not supported yet. Provide full content." ch.note⟩],
             fs, [])
          | none =>
            ([], [], [⟨ch.path, ch.op,
              .errMsg "update/upsert requires content or diff" ch.note⟩], fs, [])
      else ([], [], [⟨ch.path, ch.op, .errMsg ("Unsupported op: " ++ ch.op) ch.note⟩], fs, [])

/-- The per-change loop of `apply_patch_set`, accumulating the three result
lists in change order. -/
def apply_loop (root : List String) (dry : Bool) (prot : List String) :
    List PChange → Fs → (ApplyResult × Fs × List FsOp)
  | [], fs => (⟨[], [], []⟩, fs, [])
  | ch :: rest, fs =>
    let step := process_change root dry prot fs ch
    let next := apply_loop root dry prot rest step.2.2.2.1
    (⟨step.1 ++ next.1.applied, step.2.1 ++ next.1.skipped, step.2.2.1 ++ next.1.errors⟩,
     next.2.1, step.2.2.2.2 ++ next.2.2)

/-- `apply_patch_set` from patching.py (pydantic available; the repo root is
assumed to exist, `_ensure_repo_root` success).  A validation failure of any
change raises out of the call before the loop runs — see `validate_changes`. -/
def apply_patch_set (d : PatchSet) (fs : Fs) (root : List String) (dry : Bool)
    (prot : List String) : Except String (ApplyResult × Fs × List FsOp) :=
  if d.changes.isEmpty then .error "changes must not be empty"
  else
    match validate_changes d.changes with
    | .error e => .error e
    | .ok _ => .ok (apply_loop root dry prot d.changes fs)

/-- Applied-list entries one change contributes (independent of the filesystem
state; the equality with the loop output is proved below). -/
def ch_applied (root : List String) (dry : Bool) (prot : List String) (ch : PChange) :
    List REntry :=
  (process_change root dry prot [] ch).1

/-- Skipped-list entries one change contributes. -/
def ch_skipped (root : List String) (dry : Bool) (prot : List String) (ch : PChange) :
    List REntry :=
  (process_change root dry prot [] ch).2.1

/-- Errors-list entries one change contributes. -/
def ch_errors (root : List String) (dry : Bool) (prot : List String) (ch : PChange) :
    List REntry :=
  (process_change root dry prot [] ch).2.2.1

/-- Does a change hit the protected-path skip branch? -/
def prot_hit (root : List String) (prot : List String) (ch : PChange) : Bool :=
  match safe_target root ch.path with
  | .error _ => false
  | .ok tgt => prot_scan root (pathStr tgt) prot == .hit

/-- Counters of an apply result, for stating concrete evaluations. -/
def resCounts : Except String (ApplyResult × Fs × List FsOp) → Option (Nat × Nat × Nat)
  | .ok (r, _, _) => some (r.applied.length, r.skipped.length, r.errors.length)
  | .error _ => none

/-- Final filesystem of an apply result. -/
def resFs : Except String (ApplyResult × Fs × List FsOp) → Option Fs
  | .ok (_, fs, _) => some fs
  | .error _ => none

/-- Trace of an apply result. -/
def resTrace : Except String (ApplyResult × Fs × List FsOp) → Option (List FsOp)
  | .ok (_, _, tr) => some tr
  | .error _ => none

/-- Error message of an apply result. -/
def resErrMsg : Except String (ApplyResult × Fs × List FsOp) → Option String
  | .ok _ => none
  | .error m => some m

/-! ## src/core/orchestrator.py — file writing -/

/-- `ParsedFile` from orchestrator.py. -/
structure ParsedFile where
  path : String
  content : String
  language : String := "python"
deriving DecidableEq

/-- `_safe_resolve` from orchestrator.py:55-67: resolve below the base
directory and require the rendered result to start with the rendered base
followed by a separator, or equal it. -/
def safe_resolve (base : List String) (rel : String) : Except String (List String) :=
  let tgt := pyResolve base rel
  if strStartsWith (pathStr tgt) (pathStr base ++ "/") || pathStr tgt = pathStr base then .ok tgt
  else .error ("Ruta fuera del repositorio: " ++ pathStr tgt)

/-- Backup sibling of a target: `target.with_suffix(target.suffix + ".bak-" + ts)`,
which renames the final segment to `<name>.bak-<ts>`. -/
def backupSegs (tgt : List String) (ts : String) : List String :=
  parentDir tgt ++ [(tgt.getLastD "") ++ ".bak-" ++ ts]

/-- EOL normalisation of write_files_bundle:
`content.replace("\r\n", "\n").replace("\r", "\n")`. -/
def normEolL : List Char → List Char
  | [] => []
  | '\r' :: '\n' :: t => '\n' :: normEolL t
  | '\r' :: t => '\n' :: normEolL t
  | c :: t => c :: normEolL t

/-- EOL normalisation on strings. -/
def normEol (s : String) : String := String.mk (normEolL s.toList)

/-- `write_files` from orchestrator.py:218-251: per parsed file, resolve
(unsafe paths are skipped), create parents, back up an existing target by a
plain sibling write, then overwrite the target with one plain `write_text`.
`ts` is the single UTC timestamp taken at entry.  Returns written paths, the
new filesystem and the trace. -/
def write_files (base : List String) (ts : String) :
    List ParsedFile → Fs → (List String × Fs × List FsOp)
  | [], fs => ([], fs, [])
  | pf :: rest, fs =>
    match safe_resolve base pf.path with
    | .error _ => write_files base ts rest fs
    | .ok tgt =>
      let tgtS := pathStr tgt
      let step :=
        match fsGet fs tgtS with
        | some c0 =>
          let bakS := pathStr (backupSegs tgt ts)
          (fsSet (fsSet fs bakS c0) tgtS pf.content,
           [FsOp.mkdirp (pathStr (parentDir tgt)), FsOp.writeF bakS c0, FsOp.writeF tgtS pf.content])
        | none =>
          (fsSet fs tgtS pf.content,
           [FsOp.mkdirp (pathStr (parentDir tgt)), FsOp.writeF tgtS pf.content])
      let next := write_files base ts rest step.1
      (tgtS :: next.1, next.2.1, step.2 ++ next.2.2)

/-- `write_files_bundle` from orchestrator.py:254-316: per (relative path,
content) pair, reject an empty path, resolve against the base with no
containment check, create parents, back up an existing target by a plain
sibling write, then write atomically: temporary file in the target directory,
flush, fsync, `os.replace` over the target.  Content is EOL-normalised. -/
def write_files_bundle (base : List String) (ts : String) :
    List (String × String) → Fs → Except String (List String × Fs × List FsOp)
  | [], fs => .ok ([], fs, [])
  | (rel, content) :: rest, fs =>
    if rel = "" then .error ("Ruta invalida en bundle: " ++ rel)
    else
      let tgt := pyResolve base rel
      let tgtS := pathStr tgt
      let dirS := pathStr (parentDir tgt)
      let normed := normEol content
      let step :=
        match fsGet fs tgtS with
        | some c0 =>
          let bakS := pathStr (backupSegs tgt ts)
          (fsSet (fsSet fs bakS c0) tgtS normed,
           [FsOp.mkdirp dirS, FsOp.writeF bakS c0,
            FsOp.tmpWriteF dirS normed, FsOp.fsyncF, FsOp.renameF dirS tgtS])
        | none =>
          (fsSet fs tgtS normed,
           [FsOp.mkdirp dirS, FsOp.tmpWriteF dirS normed, FsOp.fsyncF, FsOp.renameF dirS tgtS])
      match write_files_bundle base ts rest step.1 with
      | .error e => .error e
      | .ok next => .ok (tgtS :: next.1, next.2.1, step.2 ++ next.2.2)

/-! ## Atomic-write predicate over traces -/

/-- Does the trace contain a plain direct write to `target`? -/
def hasDirectWrite (target : String) : List FsOp → Bool
  | [] => false
  | .writeF p _ :: t => p == target || hasDirectWrite target t
  | _ :: t => hasDirectWrite target t

/-- After a temporary write in directory `d`: is there later a rename of the
temporary file over `target` in the same directory? -/
def seqRename (d target : String) : List FsOp → Bool
  | [] => false
  | .renameF d2 t2 :: t => (d2 == d && t2 == target) || seqRename d target t
  | _ :: t => seqRename d target t

/-- After a temporary write in directory `d`: is there later an fsync followed
by such a rename? -/
def seqFsync (d target : String) : List FsOp → Bool
  | [] => false
  | .fsyncF :: t => seqRename d target t || seqFsync d target t
  | _ :: t => seqFsync d target t

/-- Does the trace contain, in order: a temporary-file write in the directory
of `target`, an fsync, and a rename of the temporary over `target`? -/
def seqTmp (dirS target : String) : List FsOp → Bool
  | [] => false
  | .tmpWriteF d _ :: t => (d == dirS && seqFsync d target t) || seqTmp dirS target t
  | _ :: t => seqTmp dirS target t

/-- The atomic write pattern of the specification, as a trace predicate:
the content reaches `target` only through temp-write / fsync / rename, with
no direct write to `target` anywhere in the trace. -/
def atomic_write_for (dirS target : String) (tr : List FsOp) : Bool :=
  seqTmp dirS target tr && !hasDirectWrite target tr

/-! ## JSON model (Python `json.loads` / `json.dumps`)

`Jv` is the value domain; number lexemes are kept verbatim (no claim depends
on numeric normalisation).  The scanner follows the strict-mode behaviour of
`json.loads`: raw control characters below 0x20 are rejected inside string
literals, standard escapes and `\uXXXX` are decoded (astral surrogate pairing
is not modelled — no source value needs it), objects and arrays forbid
trailing commas, and the constants `NaN`, `Infinity`, `-Infinity` are accepted. -/

/-- JSON values. -/
inductive Jv where
  | jnull
  | jbool (b : Bool)
  | jnum (raw : String)
  | jstr (s : String)
  | jarr (xs : List Jv)
  | jobj (fields : List (String × Jv))

/-- Hexadecimal digit value. -/
def hexVal (c : Char) : Option Nat :=
  if '0' ≤ c && c ≤ '9' then some (c.toNat - 48)
  else if 'a' ≤ c && c ≤ 'f' then some (c.toNat - 87)
  else if 'A' ≤ c && c ≤ 'F' then some (c.toNat - 55)
  else none

/-- Decimal digit test. -/
def isDigitC (c : Char) : Bool := '0' ≤ c && c ≤ '9'

/-- String-literal scanner of `json.loads`, positioned after the opening
quote: returns the decoded content and the input after the closing quote. -/
def scanJStr : List Char → Option (List Char × List Char)
  | [] => none
  | c :: t =>
    if c = '"' then some ([], t)
    else if c = '\\' then
      match t with
      | [] => none
      | e :: t2 =>
        if e = '"' then (scanJStr t2).map (fun p => ('"' :: p.1, p.2))
        else if e = '\\' then (scanJStr t2).map (fun p => ('\\' :: p.1, p.2))
        else if e = '/' then (scanJStr t2).map (fun p => ('/' :: p.1, p.2))
        else if e = 'b' then (scanJStr t2).map (fun p => ('\x08' :: p.1, p.2))
        else if e = 'f' then (scanJStr t2).map (fun p => ('\x0c' :: p.1, p.2))
        else if e = 'n' then (scanJStr t2).map (fun p => ('\n' :: p.1, p.2))
        else if e = 'r' then (scanJStr t2).map (fun p => ('\r' :: p.1, p.2))
        else if e = 't' then (scanJStr t2).map (fun p => ('\t' :: p.1, p.2))
        else if e = 'u' then
          match t2 with
          | h1 :: h2 :: h3 :: h4 :: t3 =>
            match hexVal h1, hexVal h2, hexVal h3, hexVal h4 with
            | some a, some b, some cc, some dd =>
              (scanJStr t3).map (fun p =>
                (Char.ofNat (((a * 16 + b) * 16 + cc) * 16 + dd) :: p.1, p.2))
            | _, _, _, _ => none
          | _ => none
        else none
    else if c.toNat < 0x20 then none
    else (scanJStr t).map (fun p => (c :: p.1, p.2))

/-- Number lexeme scanner of `json.loads` (the `NUMBER_RE` grammar):
optional sign, integer part, optional fraction, optional exponent.  Returns
the lexeme and the rest; fraction and exponent are only consumed when
well-formed, as the regular expression does. -/
def scanJNum (cs : List Char) : Option (List Char × List Char) :=
  let core := fun (body : List Char) =>
    match body with
    | [] => none
    | c :: t =>
      if c = '0' then some ([c], t)
      else if isDigitC c then some (c :: t.takeWhile isDigitC, t.dropWhile isDigitC)
      else none
  let withSign :=
    match cs with
    | '-' :: t => (core t).map (fun p => ('-' :: p.1, p.2))
    | _ => core cs
  match withSign with
  | none => none
  | some (intPart, r1) =>
    let afterFrac :=
      match r1 with
      | '.' :: d :: t =>
        if isDigitC d then
          (intPart ++ '.' :: d :: t.takeWhile isDigitC, t.dropWhile isDigitC)
        else (intPart, r1)
      | _ => (intPart, r1)
    let lex1 := afterFrac.1
    let r2 := afterFrac.2
    match r2 with
    | e :: rest =>
      if e = 'e' || e = 'E' then
        match rest with
        | s :: d :: t =>
          if (s = '+' || s = '-') && isDigitC d then
            some (lex1 ++ e :: s :: d :: t.takeWhile isDigitC, t.dropWhile isDigitC)
          else if isDigitC s && isDigitC d then
            some (lex1 ++ e :: s :: d :: t.takeWhile isDigitC, t.dropWhile isDigitC)
          else if isDigitC s then some (lex1 ++ [e, s], d :: t)
          else some (lex1, r2)
        | [s] =>
          if isDigitC s then some (lex1 ++ [e, s], [])
          else some (lex1, r2)
        | [] => some (lex1, r2)
      else some (lex1, r2)
    | [] => some (lex1, [])

/-- Scanner for literal constants and numbers at a value position. -/
def scanJConst (cs : List Char) : Option (Jv × List Char) :=
  if ("true".toList).isPrefixOf cs then some (.jbool true, cs.drop 4)
  else if ("false".toList).isPrefixOf cs then some (.jbool false, cs.drop 5)
  else if ("null".toList).isPrefixOf cs then some (.jnull, cs.drop 4)
  else if ("NaN".toList).isPrefixOf cs then some (.jnum "NaN", cs.drop 3)
  else if ("Infinity".toList).isPrefixOf cs then some (.jnum "Infinity", cs.drop 8)
  else if ("-Infinity".toList).isPrefixOf cs then some (.jnum "-Infinity", cs.drop 9)
  else (scanJNum cs).map (fun p => (.jnum (String.mk p.1), p.2))

mutual

/-- Value parser of `json.loads` (fuel-indexed). -/
def parseJVal : Nat → List Char → Option (Jv × List Char)
  | 0, _ => none
  | fuel + 1, cs =>
    match cs.dropWhile jWs with
    | [] => none
    | c :: t =>
      if c = '"' then
        match scanJStr t with
        | some (s, r) => some (.jstr (String.mk s), r)
        | none => none
      else if c = '{' then
        match t.dropWhile jWs with
        | '}' :: r => some (.jobj [], r)
        | u => parseJMembers fuel u []
      else if c = '[' then
        match t.dropWhile jWs with
        | ']' :: r => some (.jarr [], r)
        | u => parseJItems fuel u []
      else scanJConst (c :: t)

/-- Object-member loop: positioned at a key. -/
def parseJMembers : Nat → List Char → List (String × Jv) → Option (Jv × List Char)
  | 0, _, _ => none
  | fuel + 1, cs, acc =>
    match cs with
    | '"' :: t =>
      match scanJStr t with
      | none => none
      | some (k, r1) =>
        match r1.dropWhile jWs with
        | ':' :: r2 =>
          match parseJVal fuel r2 with
          | none => none
          | some (v, r3) =>
            match r3.dropWhile jWs with
            | ',' :: r4 => parseJMembers fuel (r4.dropWhile jWs) (acc ++ [(String.mk k, v)])
            | '}' :: r4 => some (.jobj (acc ++ [(String.mk k, v)]), r4)
            | _ => none
        | _ => none
    | _ => none

/-- Array-item loop: positioned at a value. -/
def parseJItems : Nat → List Char → List Jv → Option (Jv × List Char)
  | 0, _, _ => none
  | fuel + 1, cs, acc =>
    match parseJVal fuel cs with
    | none => none
    | some (v, r1) =>
      match r1.dropWhile jWs with
      | ',' :: r2 => parseJItems fuel r2 (acc ++ [v])
      | ']' :: r2 => some (.jarr (acc ++ [v]), r2)
      | _ => none

end

/-- `json.loads`: parse one document, allow trailing whitespace only. -/
def json_loads (s : String) : Option Jv :=
  match parseJVal (s.toList.length + 2) s.toList with
  | some (v, rest) => if rest.dropWhile jWs = [] then some v else none
  | none => none

/-- Dictionary lookup on parsed object fields (`dict.get`): duplicate keys
follow Python semantics, the last occurrence wins. -/
def jGet (fields : List (String × Jv)) (k : String) : Option Jv :=
  ((fields.filter (fun kv => kv.1 == k)).getLast?).map (fun kv => kv.2)

/-- `obj.get(k)` when the value is an object, else none. -/
def jvGet (v : Jv) (k : String) : Option Jv :=
  match v with
  | .jobj fs => jGet fs k
  | _ => none

/-- Is the parsed value a JSON object? -/
def jvIsObj : Jv → Bool
  | .jobj _ => true
  | _ => false

/-- All-zero test on a number lexeme (Python numeric falsiness). -/
def jnumIsZero (raw : String) : Bool :=
  raw.toList.all (fun c => c == '0' || c == '.' || c == '-' || c == '+' || c == 'e' || c == 'E')

/-- Python truthiness of a JSON-decoded value. -/
def jvTruthy : Jv → Bool
  | .jnull => false
  | .jbool b => b
  | .jnum raw => !jnumIsZero raw
  | .jstr s => s ≠ ""
  | .jarr xs => !xs.isEmpty
  | .jobj fs => !fs.isEmpty

/-- Lower-case hexadecimal digit, as emitted by `json.dumps`. -/
def hexDigitC (d : Nat) : Char :=
  if d < 10 then Char.ofNat (48 + d) else Char.ofNat (87 + d)

/-- Escaping of one character by `json.dumps` with `ensure_ascii=False`. -/
def escJChar (c : Char) : List Char :=
  if c = '"' then ['\\', '"']
  else if c = '\\' then ['\\', '\\']
  else if c = '\x08' then ['\\', 'b']
  else if c = '\t' then ['\\', 't']
  else if c = '\n' then ['\\', 'n']
  else if c = '\x0c' then ['\\', 'f']
  else if c = '\r' then ['\\', 'r']
  else if c.toNat < 0x20 then
    ['\\', 'u', '0', '0', hexDigitC (c.toNat / 16), hexDigitC (c.toNat % 16)]
  else [c]

/-- `json.dumps` of a string value (ensure_ascii=False). -/
def dumpJStrL (s : String) : List Char :=
  '"' :: (s.toList.map escJChar).flatten ++ ['"']

/-! ## Fenced-block and header scanning

These definitions implement, character by character, the behaviour of the
regular expressions of orchestrator.py and crew_config.py on the inputs they
are applied to: leftmost match, greedy character classes, lazy bodies, and the
`^`-anchored multiline header pattern. -/

/-- The backtick character. -/
def btick : Char := Char.ofNat 96

/-- A fence delimiter: three backticks. -/
def fenceOpen : List Char := [btick, btick, btick]

/-- Split at the first occurrence of three backticks: returns the part before,
and the input after the delimiter. -/
def splitAtTriple : List Char → Option (List Char × List Char)
  | [] => none
  | c :: t =>
    if fenceOpen.isPrefixOf (c :: t) then some ([], t.drop 2)
    else (splitAtTriple t).map (fun p => (c :: p.1, p.2))

/-- `FENCE_BLOCK_RE.finditer` / `_FENCE_RE.finditer`: all fenced blocks as
(lang, body) pairs.  At each position: a fence delimiter, a lang run of
characters that are neither newline nor backtick, a newline, then a lazy body
up to the next delimiter; on failure the scan advances one character. -/
def scanFencesAux : Nat → List Char → List (List Char × List Char)
  | 0, _ => []
  | _, [] => []
  | fuel + 1, c :: t =>
    if fenceOpen.isPrefixOf (c :: t) then
      let afterOpen := t.drop 2
      let lang := afterOpen.takeWhile (fun x => decide (x ≠ '\n') && decide (x ≠ btick))
      let afterLang := afterOpen.drop lang.length
      match afterLang with
      | '\n' :: bodyStart =>
        match splitAtTriple bodyStart with
        | some (body, rest) => (lang, body) :: scanFencesAux fuel rest
        | none => scanFencesAux fuel t
      | _ => scanFencesAux fuel t
    else scanFencesAux fuel t

/-- All fenced blocks of a text. -/
def scanFences (cs : List Char) : List (List Char × List Char) :=
  scanFencesAux (cs.length + 1) cs

/-- Case-insensitive ASCII prefix test. -/
def ciPrefix (kw : List Char) (cs : List Char) : Bool := kw.isPrefixOf (lowerL cs)

/-- `PY_FENCE_RE.search`: first position with three backticks followed by
`python` (case-insensitive); group is the text between the maximal whitespace
run after the tag and the next fence delimiter. -/
def pySearchPyFence : List Char → Option (List Char)
  | [] => none
  | c :: t =>
    if fenceOpen.isPrefixOf (c :: t) && ciPrefix "python".toList ((c :: t).drop 3) then
      match splitAtTriple (((c :: t).drop 9).dropWhile reWs) with
      | some (grp, _) => some grp
      | none => pySearchPyFence t
    else pySearchPyFence t

/-- `GENERIC_FENCE_RE.search`: as above without the language tag. -/
def pySearchGenFence : List Char → Option (List Char)
  | [] => none
  | c :: t =>
    if fenceOpen.isPrefixOf (c :: t) then
      match splitAtTriple (((c :: t).drop 3).dropWhile reWs) with
      | some (grp, _) => some grp
      | none => pySearchGenFence t
    else pySearchGenFence t

/-- Lazy group of `JSON_FENCE_RE`: content is accumulated (reversed) after the
opening brace; at each closing brace the lazy group tries to finish, which
succeeds when whitespace and a fence delimiter follow. -/
def scanJsonGroup : List Char → List Char → Option (List Char)
  | _, [] => none
  | accRev, c :: t =>
    if c = '}' then
      if fenceOpen.isPrefixOf (t.dropWhile reWs) then some ((c :: accRev).reverse)
      else scanJsonGroup (c :: accRev) t
    else scanJsonGroup (c :: accRev) t

/-- `JSON_FENCE_RE.search`: fence delimiter, `json` tag (case-insensitive),
whitespace, then the lazy brace group closed by whitespace and a delimiter. -/
def searchJsonFence : List Char → Option (List Char)
  | [] => none
  | c :: t =>
    if fenceOpen.isPrefixOf (c :: t) && ciPrefix "json".toList ((c :: t).drop 3) then
      match ((c :: t).drop 7).dropWhile reWs with
      | '{' :: u =>
        match scanJsonGroup ['{'] u with
        | some grp => some grp
        | none => searchJsonFence t
      | _ => searchJsonFence t
    else searchJsonFence t

/-- Characters admitted by the header path group `[^\s*<>]+`. -/
def pathChar (c : Char) : Bool :=
  !(reWs c) && decide (c ≠ '*') && decide (c ≠ '<') && decide (c ≠ '>')

/-- Comment markers of the header pattern `(?:[#;]|//|/\*+|<!--)`;
returns the rest after the marker. -/
def matchMarker : List Char → Option (List Char)
  | '#' :: t => some t
  | ';' :: t => some t
  | '/' :: '/' :: t => some t
  | '/' :: '*' :: t => some (t.dropWhile (fun c => c == '*'))
  | '<' :: '!' :: '-' :: '-' :: t => some t
  | _ => none

/-- One keyword alternative with its full continuation
`kw \s* : \s* ([^\s*<>]+)` and, for the crew pattern, a trailing `\s*`.
Returns the path group and the rest after the match. -/
def matchKw1 (kw : List Char) (trailWs : Bool) (cs : List Char) : Option (List Char × List Char) :=
  if ciPrefix kw cs then
    let r1 := (cs.drop kw.length).dropWhile reWs
    match r1 with
    | ':' :: r3 =>
      let r4 := r3.dropWhile reWs
      let path := r4.takeWhile pathChar
      if path.isEmpty then none
      else
        let r5 := r4.drop path.length
        some (path, if trailWs then r5.dropWhile reWs else r5)
    | _ => none
  else none

/-- Keyword alternation, first alternative whose full continuation matches. -/
def matchKws (kws : List (List Char)) (trailWs : Bool) (cs : List Char) :
    Option (List Char × List Char) :=
  match kws with
  | [] => none
  | kw :: rest =>
    match matchKw1 kw trailWs cs with
    | some r => some r
    | none => matchKws rest trailWs cs

/-- Attempt of the header pattern at an anchored position: leading whitespace
(which `\s*` may extend across line breaks), a comment marker, whitespace, a
keyword alternative.  Returns (consumed span, path group, rest). -/
def tryHeaderAt (kws : List (List Char)) (trailWs : Bool) (cs : List Char) :
    Option (List Char × List Char × List Char) :=
  match matchMarker (cs.dropWhile reWs) with
  | none => none
  | some r2 =>
    match matchKws kws trailWs (r2.dropWhile reWs) with
    | none => none
    | some (path, rest) => some (cs.take (cs.length - rest.length), path, rest)

/-- Multiline scan of the `^`-anchored header pattern: try the pattern at the
text start and after every newline, leftmost position first.  Returns
(text before the match, matched span, path group, rest after the match). -/
def headerScan (kws : List (List Char)) (trailWs : Bool) :
    List Char → List Char → Bool → Option (List Char × List Char × List Char × List Char)
  | _, [], _ => none
  | pre, c :: t, atLS =>
    if atLS then
      match tryHeaderAt kws trailWs (c :: t) with
      | some (con, path, rest) => some (pre, con, path, rest)
      | none => headerScan kws trailWs (pre ++ [c]) t (c == '\n')
    else headerScan kws trailWs (pre ++ [c]) t (c == '\n')

/-- `FILE_HEADER_RE.search` of orchestrator.py (keywords file / filepath /
path, no trailing whitespace in the match). -/
def file_header_search (body : List Char) :
    Option (List Char × List Char × List Char × List Char) :=
  headerScan ["file".toList, "filepath".toList, "path".toList] false [] body true

/-- `_FILE_HEADER_RE.search` of crew_config.py (keyword file, trailing
whitespace consumed by the match). -/
def crew_header_search (body : List Char) :
    Option (List Char × List Char × List Char × List Char) :=
  headerScan ["file".toList] true [] body true

/-! ## src/core/orchestrator.py — parsing -/

/-- `_extract_single_fence`. -/
def extract_single_fence (raw : String) : Option String :=
  if raw = "" then none
  else
    match pySearchPyFence raw.toList with
    | some g => some (String.mk g)
    | none => (pySearchGenFence raw.toList).map String.mk

/-- `_parse_per_file_fences`: every fenced block whose body contains a header
match contributes one ParsedFile; blocks without a header are skipped.  The
content is the body with the first header match removed and leading
newline/carriage-return characters stripped. -/
def parse_per_file_fences (raw : String) : List ParsedFile :=
  (scanFences raw.toList).filterMap (fun lb =>
    match file_header_search lb.2 with
    | none => none
    | some (pre, _, path, rest) =>
      let l := pyLower (pyStrip (String.mk lb.1))
      let langNorm := if l = "" then "text" else l
      let language := if langNorm = "" || langNorm = "python" || langNorm = "py" then "python" else langNorm
      some ⟨String.mk (stripL path), String.mk (lstripNlCr (pre ++ rest)), language⟩)

/-- `str()` of a decoded JSON value, for `str(f.get("path", ""))`.
Containers are rendered by a fixed placeholder: no claim, theorem or witness
evaluates this branch, and the Python `repr` text plays no further role. -/
def pyStrJv : Jv → String
  | .jnull => "None"
  | .jbool true => "True"
  | .jbool false => "False"
  | .jnum raw => raw
  | .jstr s => s
  | .jarr _ => "[container]"
  | .jobj _ => "[container]"

/-- The files loop of `_parse_json_manifest`: `f.get` on a non-dict element
raises (modelled as `.error`), `(f.get("language") or "python").lower()`
raises on a truthy non-string language. -/
def manifestFilesLoop : List Jv → Except Unit (List ParsedFile)
  | [] => .ok []
  | f :: rest =>
    match f with
    | .jobj ff =>
      let path := pyStrip (pyStrJv ((jGet ff "path").getD (.jstr "")))
      let contentV := (jGet ff "content").getD (.jstr "")
      let langV := (jGet ff "language").getD .jnull
      match (if jvTruthy langV then langV else .jstr "python") with
      | .jstr langS =>
        let lang := pyLower langS
        match manifestFilesLoop rest with
        | .error e => .error e
        | .ok tail =>
          match contentV with
          | .jstr c => if path ≠ "" then .ok (⟨path, c, lang⟩ :: tail) else .ok tail
          | _ => .ok tail
      | _ => .error ()
    | _ => .error ()

/-- `_parse_json_manifest` from orchestrator.py:111-136. -/
def parse_json_manifest (raw : String) : Except Unit (List ParsedFile) :=
  if raw = "" then .ok []
  else
    match searchJsonFence raw.toList with
    | none => .ok []
    | some grp =>
      match json_loads (String.mk grp) with
      | none => .ok []
      | some data =>
        match data with
        | .jobj fields =>
          let filesV :=
            match jGet fields "files" with
            | some v => if jvTruthy v then v else Jv.jarr []
            | none => Jv.jarr []
          match filesV with
          | .jarr files => manifestFilesLoop files
          | _ => .error ()
        | _ => .error ()

/-- `parse_creator_outputs` from orchestrator.py:174-211. -/
def parse_creator_outputs (raw : String) (defaultTarget : String) :
    Except Unit (List ParsedFile) :=
  if raw = "" || pyStrip raw = "" then .ok []
  else
    match parse_json_manifest raw with
    | .error e => .error e
    | .ok (p :: ps) => .ok (p :: ps)
    | .ok [] =>
      match parse_per_file_fences raw with
      | q :: qs => .ok (q :: qs)
      | [] =>
        match extract_single_fence raw with
        | some single => .ok [⟨defaultTarget, single, "python"⟩]
        | none => .ok []

/-- The specification reading of MultiFormatParser (spec section 4.3): run the
three extractors in the fixed priority manifest, multi-file, single-legacy and
return the first non-empty result, with the single-legacy body assigned the
default target path. -/
def parse_creator_outputs_spec (raw : String) (defaultTarget : String) :
    Except Unit (List ParsedFile) :=
  match parse_json_manifest raw with
  | .error e => .error e
  | .ok (p :: ps) => .ok (p :: ps)
  | .ok [] =>
    match parse_per_file_fences raw with
    | q :: qs => .ok (q :: qs)
    | [] =>
      match extract_single_fence raw with
      | some single => .ok [⟨defaultTarget, single, "python"⟩]
      | none => .ok []

/-! ## src/crew_config.py — format detection -/

/-- `_looks_like_single_file` from crew_config.py:233-247. -/
def looks_like_single_file (raw : String) : Bool :=
  if raw = "" then false
  else
    match scanFences raw.toList with
    | [f] =>
      let lang := pyLower (pyStrip (String.mk f.1))
      let body := stripL f.2
      if lang ≠ "" && !(pyContains lang "python") then false
      else decide (body.length > 50)
    | _ => false

/-- The per-fence loop of `_looks_like_multi_file`, with the set of paths
seen so far. -/
def multiBlocksOk : List (List Char × List Char) → List String → Bool
  | [], _ => true
  | lb :: rest, seen =>
    match crew_header_search lb.2 with
    | none => false
    | some (pre, _, path, prest) =>
      let pathS := String.mk (stripL path)
      if pathS = "" then false
      else if strStartsWith pathS "/" || strStartsWith pathS "\\" then false
      else if seen.contains pathS then false
      else if (stripL (pre ++ prest)).length < 5 then false
      else multiBlocksOk rest (pathS :: seen)

/-- `_looks_like_multi_file` from crew_config.py:249-272. -/
def looks_like_multi_file (raw : String) : Bool :=
  match scanFences raw.toList with
  | [] => false
  | f :: fs => multiBlocksOk (f :: fs) []

/-- The files loop of `_looks_like_json_manifest`: a non-dict element returns
False; `f.get("path", "").strip()` raises on a non-string path value. -/
def manifestFilesOk : List Jv → List String → Except Unit Bool
  | [], _ => .ok true
  | f :: rest, seen =>
    match f with
    | .jobj ff =>
      match (jGet ff "path").getD (.jstr "") with
      | .jstr p =>
        let path := pyStrip p
        if path = "" || strStartsWith path "/" || strStartsWith path "\\" then .ok false
        else if seen.contains path then .ok false
        else
          match (jGet ff "content").getD (.jstr "") with
          | .jstr c => if c.length < 1 then .ok false else manifestFilesOk rest (path :: seen)
          | _ => .ok false
      | _ => .error ()
    | _ => .ok false

/-- `_looks_like_json_manifest` from crew_config.py:274-304. -/
def looks_like_json_manifest (raw : String) : Except Unit Bool :=
  match scanFences raw.toList with
  | [f] =>
    match json_loads (String.mk f.2) with
    | none => .ok false
    | some (.jobj fields) =>
      match jGet fields "files" with
      | some (.jarr files) =>
        if files.isEmpty then .ok false else manifestFilesOk files []
      | _ => .ok false
    | some _ => .ok false
  | _ => .ok false

/-- `_detect_creator_format` from crew_config.py:306-313, in its source
order: multi-file first, then manifest, then single. -/
def detect_creator_format (raw : String) : Except Unit (Option String) :=
  if looks_like_multi_file raw then .ok (some "multi")
  else
    match looks_like_json_manifest raw with
    | .error e => .error e
    | .ok true => .ok (some "manifest")
    | .ok false =>
      if looks_like_single_file raw then .ok (some "single") else .ok none

/-- The specification reading of FormatDetector (spec section 4.2): the three
shapes evaluated in the fixed priority manifest, multi-file, single-legacy,
first shape that applies. -/
def detect_creator_format_spec (raw : String) : Except Unit (Option String) :=
  match looks_like_json_manifest raw with
  | .error e => .error e
  | .ok true => .ok (some "manifest")
  | .ok false =>
    if looks_like_multi_file raw then .ok (some "multi")
    else if looks_like_single_file raw then .ok (some "single")
    else .ok none

/-! ## Datetime model (datetime.fromisoformat, isoformat, comparison) -/

/-- Gregorian leap year. -/
def isLeap (y : Nat) : Bool := (y % 4 == 0 && y % 100 != 0) || y % 400 == 0

/-- Days in a month. -/
def daysInMonth (y mo : Nat) : Nat :=
  if mo = 2 then (if isLeap y then 29 else 28)
  else if mo = 4 || mo = 6 || mo = 9 || mo = 11 then 30
  else 31

/-- A wall-clock timestamp as produced by `datetime.utcnow()` (microseconds
already zeroed by `replace(microsecond=0)` in `_utc_iso_now`). -/
structure Dt where
  y : Nat
  mo : Nat
  d : Nat
  h : Nat
  mi : Nat
  s : Nat
deriving DecidableEq

/-- Validity of a `Dt` (the invariant `datetime` maintains). -/
def dtValid (t : Dt) : Bool :=
  1 ≤ t.y && t.y ≤ 9999 && 1 ≤ t.mo && t.mo ≤ 12 && 1 ≤ t.d &&
  t.d ≤ daysInMonth t.y t.mo && t.h ≤ 23 && t.mi ≤ 59 && t.s ≤ 59

/-- `_utc_iso_now` from consent.py:52-54: second-resolution isoformat plus a
trailing Z. -/
def utc_iso_now (t : Dt) : String :=
  String.mk (pad4 t.y ++ '-' :: pad2 t.mo ++ '-' :: pad2 t.d ++ 'T' :: pad2 t.h ++
    ':' :: pad2 t.mi ++ ':' :: pad2 t.s ++ ['Z'])

/-- A value parsed by `datetime.fromisoformat`: fields plus an optional UTC
offset in seconds. -/
structure PyDt where
  y : Nat
  mo : Nat
  d : Nat
  h : Nat
  mi : Nat
  s : Nat
  us : Nat
  off : Option Int
deriving DecidableEq

/-- Two decimal digits. -/
def parse2 : List Char → Option (Nat × List Char)
  | a :: b :: t =>
    if isDigitC a && isDigitC b then some ((a.toNat - 48) * 10 + (b.toNat - 48), t) else none
  | _ => none

/-- Four decimal digits. -/
def parse4 : List Char → Option (Nat × List Char)
  | a :: b :: c :: d :: t =>
    if isDigitC a && isDigitC b && isDigitC c && isDigitC d then
      some ((((a.toNat - 48) * 10 + (b.toNat - 48)) * 10 + (c.toNat - 48)) * 10 + (d.toNat - 48), t)
    else none
  | _ => none

/-- `YYYY-MM-DD`, full consumption, with calendar validation. -/
def parseIsoDate (cs : List Char) : Option (Nat × Nat × Nat) :=
  match parse4 cs with
  | some (y, '-' :: r1) =>
    match parse2 r1 with
    | some (mo, '-' :: r2) =>
      match parse2 r2 with
      | some (d, []) =>
        if 1 ≤ y && 1 ≤ mo && mo ≤ 12 && 1 ≤ d && d ≤ daysInMonth y mo then some (y, mo, d)
        else none
      | _ => none
    | _ => none
  | _ => none

/-- `HH[:MM[:SS[.fff or .ffffff]]]`, full consumption, range-checked. -/
def parseIsoTimeCore (cs : List Char) : Option (Nat × Nat × Nat × Nat) :=
  match parse2 cs with
  | none => none
  | some (h, r1) =>
    if h > 23 then none
    else
      match r1 with
      | [] => some (h, 0, 0, 0)
      | ':' :: r2 =>
        match parse2 r2 with
        | none => none
        | some (mi, r3) =>
          if mi > 59 then none
          else
            match r3 with
            | [] => some (h, mi, 0, 0)
            | ':' :: r4 =>
              match parse2 r4 with
              | none => none
              | some (s, r5) =>
                if s > 59 then none
                else
                  match r5 with
                  | [] => some (h, mi, s, 0)
                  | '.' :: ds =>
                    if ds.length = 3 && ds.all isDigitC then
                      some (h, mi, s, (ds.foldl (fun a c => a * 10 + (c.toNat - 48)) 0) * 1000)
                    else if ds.length = 6 && ds.all isDigitC then
                      some (h, mi, s, ds.foldl (fun a c => a * 10 + (c.toNat - 48)) 0)
                    else none
                  | _ => none
            | _ => none
      | _ => none

/-- Split a time string at the first `+` or `-` (the offset separator search
of `_parse_isoformat_time`). -/
def splitTz : List Char → (List Char × Option (Char × List Char))
  | [] => ([], none)
  | c :: t =>
    if c = '+' || c = '-' then ([], some (c, t))
    else
      let p := splitTz t
      (c :: p.1, p.2)

/-- Model of `datetime.fromisoformat` (the CPython 3.10 grammar: the isoformat
output format, arbitrary one-character separator at position 10, optional
`±HH:MM[:SS[.ffffff]]` offset). -/
def pyFromIso (str : String) : Option PyDt :=
  let cs := str.toList
  match parseIsoDate (cs.take 10) with
  | none => none
  | some (y, mo, d) =>
    match cs.drop 10 with
    | [] => some ⟨y, mo, d, 0, 0, 0, 0, none⟩
    | _ :: tpart =>
      match splitTz tpart with
      | (timestr, none) =>
        (parseIsoTimeCore timestr).map (fun q => ⟨y, mo, d, q.1, q.2.1, q.2.2.1, q.2.2.2, none⟩)
      | (timestr, some (sign, tzstr)) =>
        match parseIsoTimeCore timestr with
        | none => none
        | some q =>
          match parseIsoTimeCore tzstr with
          | none => none
          | some z =>
            if tzstr.length = 5 || tzstr.length = 8 || tzstr.length = 15 then
              let secs : Int := (z.1 * 3600 + z.2.1 * 60 + z.2.2.1 : Nat)
              some ⟨y, mo, d, q.1, q.2.1, q.2.2.1, q.2.2.2,
                some (if sign = '-' then -secs else secs)⟩
            else none

/-- Day count from a fixed epoch (civil-from-days inverse), for timestamp
comparison; valid for years ≥ 1. -/
def daysFromCivil (y mo d : Nat) : Nat :=
  let yy := if mo ≤ 2 then y - 1 else y
  let era := yy / 400
  let yoe := yy % 400
  let doy := (153 * (if mo > 2 then mo - 3 else mo + 9) + 2) / 5 + (d - 1)
  let doe := yoe * 365 + yoe / 4 - yoe / 100 + doy
  era * 146097 + doe

/-- Microsecond-resolution instant key of a parsed timestamp with an applied
offset. -/
def pyDtKey (t : PyDt) (off : Int) : Int :=
  ((daysFromCivil t.y t.mo t.d : Int) * 86400 + (t.h * 3600 + t.mi * 60 + t.s : Nat) - off)
    * 1000000 + (t.us : Nat)

/-- Python `>=` on two parsed datetimes: field comparison for two naive
values, instant comparison for two aware values, `TypeError` when the
awareness differs. -/
def pyDtGe (a b : PyDt) : Except Unit Bool :=
  match a.off, b.off with
  | none, none => .ok (pyDtKey a 0 ≥ pyDtKey b 0)
  | some x, some y => .ok (pyDtKey a x ≥ pyDtKey b y)
  | _, _ => .error ()

/-- Python `s.replace("Z", "+00:00")` (every occurrence). -/
def replaceZL : List Char → List Char
  | [] => []
  | 'Z' :: t => '+' :: '0' :: '0' :: ':' :: '0' :: '0' :: replaceZL t
  | c :: t => c :: replaceZL t

/-- `replace("Z", "+00:00")` on strings. -/
def replaceZ (s : String) : String := String.mk (replaceZL s.toList)

/-! ## src/modules/autonomous_agent/consent.py -/

/-- `_sanitize` from consent.py:57-63 (strip, truncate at 2000 with marker). -/
def sanitize (s : String) : String :=
  if s = "" then ""
  else
    let t := pyStrip s
    if t.length > 2000 then String.mk (t.toList.take 2000) ++ " â€¦[truncated]"
    else t

/-- Decimal string of a natural number. -/
def natDecS (n : Nat) : String := String.mk (natDec n)

/-- The opening brace character (JSON object delimiter). -/
def lbrace : Char := Char.ofNat 123

/-- The closing brace character. -/
def rbrace : Char := Char.ofNat 125

/-- The data of one `record_consent` call (uuid, clock, inputs, pid, thread
name are all parameters of the model). -/
structure ConsentEntry where
  id : String
  t : Dt
  actor : String
  mode : String
  rationale : String
  pid : Nat
  thread : String
deriving DecidableEq

/-- One serialised dumped field `"key":<string value>` with the compact
separators of consent.py:138. -/
def dumpStrField (key value : String) : List Char :=
  dumpJStrL key ++ ':' :: dumpJStrL value

/-- The JSONL line appended by `record_consent` (consent.py:128-138):
`json.dumps(entry, separators=(",", ":"), ensure_ascii=False)`. -/
def record_consent_line (e : ConsentEntry) : String :=
  String.mk
    (lbrace ::
      dumpStrField "id" e.id ++ ',' ::
      dumpStrField "ts" (utc_iso_now e.t) ++ ',' ::
      dumpStrField "actor" e.actor ++ ',' ::
      dumpStrField "mode" e.mode ++ ',' ::
      dumpStrField "rationale" (sanitize e.rationale) ++ ',' ::
      dumpJStrL "pid" ++ ':' :: natDec e.pid ++ ',' ::
      dumpStrField "thread" e.thread ++ ',' ::
      dumpJStrL "schema_version" ++ ':' :: natDec 1 ++ [rbrace])

/-- `_ts_ok` from consent.py:259-264 on a string. -/
def ts_ok (ts : String) : Bool := (pyFromIso (replaceZ ts)).isSome

/-- `_ts_ok` applied to a decoded JSON value: `ts.replace` on a non-string
raises inside the `try`, so the function returns False. -/
def ts_ok_jv : Jv → Bool
  | .jstr s => ts_ok s
  | _ => false

/-- The required fields of verify_ledger (consent.py:279). -/
def req_keys : List String := ["id", "ts", "actor", "mode", "rationale", "schema_version"]

/-- Errors contributed by one ledger line in `verify_ledger` (message text
abbreviated; only presence and count are asserted). -/
def line_errors (i : Nat) (line : String) : List String :=
  if pyStrip line = "" then []
  else
    match json_loads line with
    | none => ["line " ++ natDecS i ++ ": invalid JSON"]
    | some (.jobj fields) =>
      (req_keys.filterMap (fun k =>
        if (jGet fields k).isNone then some ("line " ++ natDecS i ++ ": missing field " ++ k)
        else none)) ++
      (match jGet fields "ts" with
       | some tsv => if ts_ok_jv tsv then [] else ["line " ++ natDecS i ++ ": invalid timestamp"]
       | none => [])
    | some _ => ["line " ++ natDecS i ++ ": not a JSON object"]

/-- The line loop of `verify_ledger`, 1-based. -/
def verify_ledger_aux : Nat → List String → List String
  | _, [] => []
  | i, l :: rest => line_errors i l ++ verify_ledger_aux (i + 1) rest

/-- `verify_ledger` from consent.py:246-285 on the ledger lines. -/
def verify_ledger (lines : List String) : Bool × List String :=
  let errs := verify_ledger_aux 1 lines
  (errs.isEmpty, errs)

/-- Is one ledger line syntactically corrupt in the sense of `verify_ledger`
(non-blank and: invalid JSON, or not an object, or a required field missing,
or an unparseable timestamp)? -/
def line_corrupt (line : String) : Bool :=
  if pyStrip line = "" then false
  else
    match json_loads line with
    | none => true
    | some (.jobj fields) =>
      req_keys.any (fun k => (jGet fields k).isNone) ||
      (match jGet fields "ts" with
       | some tsv => !ts_ok_jv tsv
       | none => false)
    | some _ => true

/-- Outcome of one line of the `is_consent_given` scan. -/
inductive LineOut where
  | retTrue
  | retFalse
  | next
deriving DecidableEq

/-- Does a decoded value equal a given Python string? -/
def jvEqStr (v : Option Jv) (s : String) : Bool :=
  match v with
  | some (.jstr a) => a == s
  | _ => false

/-- One line of the `is_consent_given` loop (consent.py:172-197).  A line that
raises outside the inner `try` (non-dict object, truthy non-string ts with a
`since` bound) aborts the whole scan through the outer handler: `retFalse`. -/
def icg_line (actor mode : String) (since : Option String) (line : String) : LineOut :=
  if pyStrip line = "" then .next
  else
    match json_loads (pyStrip line) with
    | none => .next
    | some (.jobj fields) =>
      if !(jvEqStr (jGet fields "actor") actor && jvEqStr (jGet fields "mode") mode) then .next
      else
        match since with
        | none => .retTrue
        | some sinceS =>
          match jGet fields "ts" with
          | none => .next
          | some tsv =>
            if !(jvTruthy tsv) then .next
            else
              match tsv with
              | .jstr ts =>
                match pyFromIso (replaceZ ts), pyFromIso (replaceZ sinceS) with
                | some a, some b =>
                  match pyDtGe a b with
                  | .ok true => .retTrue
                  | .ok false => .next
                  | .error _ => .retTrue
                | _, _ => .retTrue
              | _ => .retFalse
    | some _ => .retFalse

/-- The scan loop of `is_consent_given`. -/
def icg_loop (actor mode : String) (since : Option String) : List String → Bool
  | [] => false
  | l :: rest =>
    match icg_line actor mode since l with
    | .retTrue => true
    | .retFalse => false
    | .next => icg_loop actor mode since rest

/-- `is_consent_given` from consent.py:154-200 on the ledger lines. -/
def is_consent_given (actor mode : String) (since : Option String) (lines : List String) : Bool :=
  if actor = "" || mode = "" then false
  else icg_loop actor mode since lines

/-! ## src/tools/backlog_lib.py

The JSONL layer of the backlog is modelled structurally: the log is the list
of appended `BacklogItem` records (every line the library writes is
`json.dumps(asdict(item))` of such a record, and every read parses it back).
`meta` is an embedded dictionary with string values plus the `changes` list. -/

/-- Values stored in an item `meta` dictionary. -/
inductive MetaV where
  | mstr (s : String)
  | mchanges (xs : List (List (String × String)))
deriving DecidableEq

/-- `BacklogItem` from backlog_lib.py. -/
structure BItem where
  id : String
  kind : String
  title : String
  status : String
  owner : Option String := none
  file : Option String := none
  line : Option Int := none
  rule : Option String := none
  source : Option String := none
  note : Option String := none
  created_at : Option String := none
  updated_at : Option String := none
  meta : List (String × MetaV) := []
deriving DecidableEq

/-- Python `{**a, **b}` on the meta dictionary. -/
def pyDictMerge (a b : List (String × MetaV)) : List (String × MetaV) :=
  a.map (fun kv =>
    match b.find? (fun kv2 => kv2.1 == kv.1) with
    | some kv2 => (kv.1, kv2.2)
    | none => kv) ++
  b.filter (fun kv2 => !(a.any (fun kv => kv.1 == kv2.1)))

/-- `meta.get(k)`. -/
def metaGet (m : List (String × MetaV)) (k : String) : Option MetaV :=
  ((m.filter (fun kv => kv.1 == k)).getLast?).map (fun kv => kv.2)

/-- `BacklogItem.to_jsonl` side effect (backlog_lib.py:60-65): stamp
`created_at` when falsy, always stamp `updated_at`. -/
def finalizeItem (now : String) (it : BItem) : BItem :=
  let ca := match it.created_at with
    | none => now
    | some "" => now
    | some s => s
  { it with created_at := some ca, updated_at := some now }

/-- `append_item`: one appended line. -/
def append_item (now : String) (it : BItem) (log : List BItem) : List BItem :=
  log ++ [finalizeItem now it]

/-- `latest_by_id` (backlog_lib.py:90-97): a Python dict keyed by id —
first-appearance order, value replaced in place; falsy ids are skipped. -/
def latestByIdAux : List BItem → List (String × BItem) → List (String × BItem)
  | [], acc => acc
  | it :: rest, acc =>
    if it.id = "" then latestByIdAux rest acc
    else if acc.any (fun kv => kv.1 == it.id) then
      latestByIdAux rest (acc.map (fun kv => if kv.1 == it.id then (kv.1, it) else kv))
    else latestByIdAux rest (acc ++ [(it.id, it)])

/-- `latest_by_id` on the whole log. -/
def latest_by_id (log : List BItem) : List (String × BItem) := latestByIdAux log []

/-- `stable_digest` (backlog_lib.py:37-42).  The sha1-based 12-hex digest is
modelled by the NUL-separated concatenation of the parts — exactly the byte
string the source feeds to sha1 — which is deterministic in the tuple, the
only property any claim relies on. -/
def stable_digest (parts : List String) : String :=
  parts.foldl (fun a p => a ++ p ++ "\x00") ""

/-- The digest of `create_or_reopen` / `find_open_by_digest`:
`stable_digest(kind, file or "", str(line or 0), rule or "", title or "")`. -/
def digest_of (kind : String) (file : Option String) (line : Option Int)
    (rule : Option String) (title : String) : String :=
  stable_digest [kind, file.getD "", String.mk (intDec (line.getD 0)), rule.getD "", title]

/-- `find_open_by_digest` (backlog_lib.py:99-107). -/
def find_open_by_digest (log : List BItem) (digest : String) : Option BItem :=
  ((latest_by_id log).map (fun kv => kv.2)).find? (fun o =>
    metaGet o.meta "digest" == some (.mstr digest) &&
    decide (o.status ≠ "done") && decide (o.status ≠ "blocked"))

/-- `create_or_reopen` (backlog_lib.py:109-130): reuse the id of an open item
with the same digest, else a fresh digest-derived id; always append one new
todo line. -/
def create_or_reopen (log : List BItem) (now kind title owner : String)
    (file : Option String) (line : Option Int) (rule : Option String) (source : String)
    (note : Option String := none) : String × List BItem :=
  let digest := digest_of kind file line rule title
  let theId :=
    match find_open_by_digest log digest with
    | some e => e.id
    | none => "T-" ++ digest
  (theId, append_item now
    ⟨theId, kind, title, "todo", some owner, file, line, rule, some source, note,
     none, none, [("digest", .mstr digest)]⟩ log)

/-- `update_status` (backlog_lib.py:132-156). -/
def update_status (log : List BItem) (now task_id status : String) (note : Option String)
    (changes : Option (List (List (String × String)))) : List BItem :=
  let changesOverride : List (String × MetaV) :=
    match changes with
    | some cs => if cs.isEmpty then [] else [("changes", .mchanges cs)]
    | none => []
  match (latest_by_id log).find? (fun kv => kv.1 == task_id) with
  | none =>
    append_item now
      ⟨task_id, "misc", "update " ++ task_id, status, none, none, none, none, none, note,
       none, none, [("changes", .mchanges (changes.getD []))]⟩ log
  | some kv =>
    let last := kv.2
    append_item now
      ⟨task_id, last.kind, last.title, status, last.owner, last.file, last.line, last.rule,
       last.source, note, none, none, pyDictMerge last.meta changesOverride⟩ log

/-! ## Auxiliary definitions for the claims -/

/-- First characters of the comment markers of the header pattern. -/
def badMark (c : Char) : Bool :=
  c == '#' || c == ';' || c == '/' || c == '<'

/-- No stray marker: every occurrence of a marker-start character is preceded,
at a bounded distance, by a non-whitespace character with only printable
characters (codepoint at least 0x20) in between.  Text accepted by the JSON
scanner satisfies this; a multiline header match is incompatible with it. -/
def NS (s : List Char) : Prop :=
  ∀ a c b, s = a ++ c :: b → badMark c = true →
    ∃ a1 q a2, a = a1 ++ q :: a2 ∧ reWs q = false ∧ ∀ x ∈ a2, 32 ≤ x.toNat

/-- A one-change upsert patch set with full content. -/
def upsertSet (p c : String) : PatchSet :=
  ⟨none, [⟨p, "upsert", none, some c, none, none⟩]⟩

/-- Number of backup files in a filesystem (paths containing `.bak-`). -/
def bak_count (fs : Fs) : Nat :=
  (fs.filter (fun kv => pyContains kv.1 ".bak-")).length

/-- Counterexample patch set for claim C1: one upsert on a protected path. -/
def c1_set : PatchSet := upsertSet "a" "x"

/-- Counterexample patch set for claim C2: a parent-traversal path. -/
def c2_set : PatchSet := upsertSet "../etc/passwd" "x"

/-- Counterexample patch set for claim C3. -/
def c3_set : PatchSet := upsertSet "f.txt" "hello"

/-- Counterexample text for claim C6: a headerless fenced block followed by a
well-headed one. -/
def c6_text : String :=
  "```\nhello\n```\n```python\n# file: a.py\nprint(1)\n```"

/-- Counterexample backlog for claim C9: one item with a stamped creation
time. -/
def c9_log : List BItem :=
  [⟨"T-1", "lint", "fix import", "todo", some "dev", some "m.py", some 3, some "F401",
    some "flake8", none, some "2025-01-01T00:00:00Z", some "2025-01-01T00:00:00Z",
    [("digest", .mstr "d")]⟩]

/-- Counterexample ledger line for claim C10: a matching entry whose truthy
`ts` is not a string (the scan aborts on it). -/
def c10_line1 : String :=
  "\x7b\"actor\":\"a\",\"mode\":\"m\",\"ts\":7\x7d"

/-- Counterexample ledger line for claim C10: a matching entry whose string
`ts` fails ISO-8601 parsing. -/
def c10_line2 : String :=
  "\x7b\"actor\":\"a\",\"mode\":\"m\",\"ts\":\"garbage\"\x7d"

/-- The `since` bound used in the claim C10 theorems. -/
def c10_since : String := "2020-01-01T00:00:00Z"

/-- Witness patch set for claim C2: a valid change followed by a
parent-traversal change. -/
def c2w_set : PatchSet :=
  ⟨none, [⟨"ok.txt", "upsert", none, some "x", none, none⟩,
          ⟨"../secret", "upsert", none, some "y", none, none⟩]⟩


/-- The effect of one Python dict assignment `last[_id] = obj` on the entry
list of latest_by_id: replace in place when the key exists, else append. -/
def updEntry (l : List (String × BItem)) (it : BItem) : List (String × BItem) :=
  if l.any (fun kv => kv.1 == it.id) then
    l.map (fun kv => if kv.1 == it.id then (kv.1, it) else kv)
  else l ++ [(it.id, it)]


/-- The language normalization applied per block in `_parse_per_file_fences`
(orchestrator.py:97,106). -/
def fenceLanguage (lang : List Char) : String :=
  let l := pyLower (pyStrip (String.mk lang))
  let langNorm := if l = "" then "text" else l
  if langNorm = "" || langNorm = "python" || langNorm = "py" then "python" else langNorm

/-- The decoded JSON object of one record_consent line. -/
def consentFields (e : ConsentEntry) : List (String × Jv) :=
  [("id", .jstr e.id), ("ts", .jstr (utc_iso_now e.t)), ("actor", .jstr e.actor),
   ("mode", .jstr e.mode), ("rationale", .jstr (sanitize e.rationale)),
   ("pid", .jnum (natDecS e.pid)), ("thread", .jstr e.thread),
   ("schema_version", .jnum "1")]

/-- Witness entry for claim C7. -/
def c7_entry : ConsentEntry :=
  ⟨"u1", ⟨2025, 1, 2, 3, 4, 5⟩, "alice", "load", "why", 42, "MainThread"⟩

/-- Witness corrupt ledger for claim C7. -/
def c7_lines : List String := ["oops"]

/-! ## Theorems -/

/-- Lookup in the empty filesystem. -/
theorem fsGet_nil (k : String) : fsGet [] k = none := rfl

/-- The three entry lists a change contributes do not depend on the
filesystem state the loop has reached. -/
theorem process_change_entries (root : List String) (dry : Bool) (prot : List String)
    (fs : Fs) (ch : PChange) :
    (process_change root dry prot fs ch).1 = ch_applied root dry prot ch ∧
    (process_change root dry prot fs ch).2.1 = ch_skipped root dry prot ch ∧
    (process_change root dry prot fs ch).2.2.1 = ch_errors root dry prot ch := by
  unfold ch_applied ch_skipped ch_errors process_change
  rcases hst : safe_target root ch.path with m | tgt <;> simp only [hst]
  · exact ⟨by trivial, by trivial, by trivial⟩
  · rcases hps : prot_scan root (pathStr tgt) prot with _ | _ | m <;> simp only [hps]
    · by_cases hd : ch.op = "delete" <;>
      by_cases hu : (ch.op = "upsert" ∨ ch.op = "update") <;>
      by_cases hdry : dry = true <;>
      rcases hc : ch.content with _ | c <;>
      rcases hdf : ch.diff with _ | dd <;>
      by_cases hfs : (fsGet fs (pathStr tgt)).isSome = true <;>
      simp [hd, hu, hdry, hc, hdf, hfs, fsGet_nil]
    · exact ⟨by trivial, by trivial, by trivial⟩
    · exact ⟨by trivial, by trivial, by trivial⟩

/-- A protected hit pins down the target resolution and the scan outcome. -/
theorem prot_hit_true_elim (root : List String) (prot : List String) (ch : PChange)
    (h : prot_hit root prot ch = true) :
    ∃ tgt, safe_target root ch.path = .ok tgt ∧
      prot_scan root (pathStr tgt) prot = .hit := by
  unfold prot_hit at h
  rcases hst : safe_target root ch.path with m | tgt <;> rw [hst] at h
  · cases h
  · rw [beq_iff_eq] at h
    exact ⟨tgt, rfl, h⟩

/-- A change on a protected path contributes no applied and no error entry,
and exactly the two skipped entries of patching.py:197-202 and 235-236. -/
theorem ch_entries_prot (root : List String) (dry : Bool) (prot : List String) (ch : PChange)
    (h : prot_hit root prot ch = true) :
    ch_applied root dry prot ch = [] ∧ ch_errors root dry prot ch = [] ∧
    ch_skipped root dry prot ch =
      [⟨ch.path, ch.op, .protectedReason⟩,
       ⟨ch.path, ch.op, .permError ("Attempted to modify protected path: " ++ ch.path)⟩] := by
  obtain ⟨tgt, hst, hps⟩ := prot_hit_true_elim root prot ch h
  unfold ch_applied ch_skipped ch_errors process_change
  rw [hst]
  simp only [hps]
  exact ⟨by trivial, by trivial, by trivial⟩

/-- A non-protected change contributes exactly one entry, carrying its path. -/
theorem ch_entries_nonprot (root : List String) (dry : Bool) (prot : List String) (ch : PChange)
    (h : prot_hit root prot ch = false) :
    (ch_applied root dry prot ch ++ ch_skipped root dry prot ch ++
      ch_errors root dry prot ch).map REntry.path = [ch.path] := by
  unfold prot_hit at h
  unfold ch_applied ch_skipped ch_errors process_change
  rcases hst : safe_target root ch.path with m | tgt
  · rfl
  · rcases hps : prot_scan root (pathStr tgt) prot with _ | _ | m <;> simp only [hps]
    · by_cases hd : ch.op = "delete" <;>
      by_cases hu : (ch.op = "upsert" ∨ ch.op = "update") <;>
      by_cases hdry : dry = true <;>
      rcases hc : ch.content with _ | c <;>
      rcases hdf : ch.diff with _ | dd <;>
      by_cases hfs : (fsGet [] (pathStr tgt)).isSome = true <;>
      simp [hd, hu, hdry, hc, hdf, hfs, fsGet_nil]
    · rw [hst] at h
      simp [hps] at h
    · rfl

/-- The loop of apply_patch_set concatenates per-change entry lists in change
order, independently for the three lists. -/
theorem apply_loop_parts (root : List String) (dry : Bool) (prot : List String) :
    ∀ (chs : List PChange) (fs : Fs),
      ((apply_loop root dry prot chs fs).1).applied = chs.flatMap (ch_applied root dry prot) ∧
      ((apply_loop root dry prot chs fs).1).skipped = chs.flatMap (ch_skipped root dry prot) ∧
      ((apply_loop root dry prot chs fs).1).errors = chs.flatMap (ch_errors root dry prot) := by
  intro chs
  induction chs with
  | nil => intro fs; exact ⟨rfl, rfl, rfl⟩
  | cons ch rest ih =>
    intro fs
    obtain ⟨h1, h2, h3⟩ := process_change_entries root dry prot fs ch
    obtain ⟨i1, i2, i3⟩ := ih (process_change root dry prot fs ch).2.2.2.1
    simp only [apply_loop, List.flatMap_cons]
    exact ⟨by rw [h1, i1], by rw [h2, i2], by rw [h3, i3]⟩

/-- A successful apply_patch_set call returns the loop result. -/
theorem apply_ok_loop (d : PatchSet) (fs : Fs) (root : List String) (dry : Bool)
    (prot : List String) (r : ApplyResult) (fs2 : Fs) (tr : List FsOp)
    (h : apply_patch_set d fs root dry prot = .ok (r, fs2, tr)) :
    r = (apply_loop root dry prot d.changes fs).1 := by
  unfold apply_patch_set at h
  split at h
  · cases h
  · split at h
    · cases h
    · injection h with h2
      rw [h2]

/-- Claim C1 counterexample: a single change targeting a protected path
produces zero applied entries, zero error entries and two skipped entries —
not exactly one result entry as the claim states. -/
theorem c1_counterexample :
    resCounts (apply_patch_set c1_set [] ["r"] false ["a"]) = some (0, 2, 0) := by decide

/-- Claim C1 (amended): for every patch set accepted by apply_patch_set, the
applied, skipped and errors lists decompose change by change in list order;
every change contributes entries carrying its own path — exactly one entry for
a non-protected change, and exactly two entries, both in skipped, for a change
matching a protected path. -/
theorem c1_apply_result_partition (d : PatchSet) (fs : Fs) (root : List String)
    (dry : Bool) (prot : List String) (r : ApplyResult) (fs2 : Fs) (tr : List FsOp)
    (h : apply_patch_set d fs root dry prot = .ok (r, fs2, tr)) :
    r.applied = d.changes.flatMap (ch_applied root dry prot) ∧
    r.skipped = d.changes.flatMap (ch_skipped root dry prot) ∧
    r.errors = d.changes.flatMap (ch_errors root dry prot) ∧
    ∀ ch ∈ d.changes,
      ((ch_applied root dry prot ch ++ ch_skipped root dry prot ch ++
          ch_errors root dry prot ch).map REntry.path =
        if prot_hit root prot ch then [ch.path, ch.path] else [ch.path]) ∧
      (prot_hit root prot ch = true →
        ch_applied root dry prot ch = [] ∧ ch_errors root dry prot ch = [] ∧
        ch_skipped root dry prot ch =
          [⟨ch.path, ch.op, .protectedReason⟩,
           ⟨ch.path, ch.op, .permError ("Attempted to modify protected path: " ++ ch.path)⟩]) := by
  obtain ⟨h1, h2, h3⟩ := apply_loop_parts root dry prot d.changes fs
  have hr := apply_ok_loop d fs root dry prot r fs2 tr h
  refine ⟨by rw [hr, h1], by rw [hr, h2], by rw [hr, h3], ?_⟩
  intro ch _
  by_cases hph : prot_hit root prot ch
  · obtain ⟨e1, e2, e3⟩ := ch_entries_prot root dry prot ch hph
    refine ⟨?_, fun _ => ⟨e1, e2, e3⟩⟩
    rw [hph, if_pos rfl, e1, e2, e3]
    rfl
  · have := ch_entries_nonprot root dry prot ch (by simpa using hph)
    refine ⟨?_, fun hc => absurd hc (by simpa using hph)⟩
    rw [if_neg hph]
    exact this

/-- Witness for c1_apply_result_partition at a concrete input. -/
theorem c1_apply_result_partition_witness :
    apply_patch_set (upsertSet "b" "y") [] ["r"] false ["a"] =
      .ok (⟨[⟨"b", "upsert", .written⟩], [], []⟩, [("/r/b", "y")],
           [.mkdirp "/r", .writeF "/r/b" "y"]) ∧
    ([⟨"b", "upsert", EDetail.written⟩] : List REntry) =
      (upsertSet "b" "y").changes.flatMap (ch_applied ["r"] false ["a"]) := by
  have h : apply_patch_set (upsertSet "b" "y") [] ["r"] false ["a"] =
      .ok (⟨[⟨"b", "upsert", .written⟩], [], []⟩, [("/r/b", "y")],
           [.mkdirp "/r", .writeF "/r/b" "y"]) := by rfl
  have hc := c1_apply_result_partition (upsertSet "b" "y") [] ["r"] false ["a"]
    ⟨[⟨"b", "upsert", .written⟩], [], []⟩ [("/r/b", "y")]
    [.mkdirp "/r", .writeF "/r/b" "y"] h
  exact ⟨h, hc.1⟩

/-- A path with a parent-traversal segment fails the path validator. -/
theorem validate_path_traversal (p : String) (h : (pyPathParts p).contains ".." = true) :
    ∃ m, validate_path p = .error m := by
  unfold validate_path
  by_cases ha : pyIsAbs p = true
  · rw [if_pos ha]
    exact ⟨_, rfl⟩
  · rw [if_neg ha, if_pos h]
    exact ⟨_, rfl⟩

/-- A change list containing a traversal path fails change validation. -/
theorem validate_changes_traversal :
    ∀ chs : List PChange, (∃ ch ∈ chs, (pyPathParts ch.path).contains ".." = true) →
      ∃ m, validate_changes chs = .error m := by
  intro chs
  induction chs with
  | nil => rintro ⟨ch, hm, _⟩; cases hm
  | cons c rest ih =>
    rintro ⟨ch, hm, htr⟩
    rcases hvc : validate_change c with m | u
    · exact ⟨m, by simp [validate_changes, hvc]⟩
    · rcases List.mem_cons.mp hm with rfl | hrest
      · exfalso
        obtain ⟨m2, hm2⟩ := validate_path_traversal ch.path htr
        unfold validate_change at hvc
        rw [hm2] at hvc
        cases hvc
      · obtain ⟨m2, hm2⟩ := ih ⟨ch, hrest, htr⟩
        exact ⟨m2, by simp [validate_changes, hvc, hm2]⟩

/-- Claim C2 (amended): a change whose relative path contains a
parent-traversal segment makes the whole apply_patch_set call fail during
validation: the call raises (returns an error) before the loop runs, no
ApplyResult is produced, no filesystem mutation and no write trace occur, and
the remaining changes are not processed. -/
theorem c2_traversal_aborts (d : PatchSet) (fs : Fs) (root : List String) (dry : Bool)
    (prot : List String)
    (h : ∃ ch ∈ d.changes, (pyPathParts ch.path).contains ".." = true) :
    (∃ m, apply_patch_set d fs root dry prot = .error m) ∧
    resFs (apply_patch_set d fs root dry prot) = none ∧
    resTrace (apply_patch_set d fs root dry prot) = none ∧
    resCounts (apply_patch_set d fs root dry prot) = none := by
  obtain ⟨m, hv⟩ := validate_changes_traversal d.changes h
  have hne : d.changes.isEmpty = false := by
    obtain ⟨ch, hm, _⟩ := h
    have hnil : d.changes ≠ [] := List.ne_nil_of_mem hm
    cases hcc : d.changes with
    | nil => exact absurd hcc hnil
    | cons a t => rfl
  have happ : apply_patch_set d fs root dry prot = .error m := by
    unfold apply_patch_set
    rw [hne]
    simp [hv]
  exact ⟨⟨m, happ⟩, by rw [happ]; rfl, by rw [happ]; rfl, by rw [happ]; rfl⟩

/-- Rendering of a snoc of segment lists. -/
theorem joinSegs_append_last (xs : List String) (s : String) :
    joinSegs (xs ++ [s]) =
      match xs with
      | [] => s.toList
      | _ :: _ => joinSegs xs ++ '/' :: s.toList := by
  induction xs with
  | nil => rfl
  | cons a t ih =>
    cases t with
    | nil => rfl
    | cons b u =>
      show a.toList ++ '/' :: joinSegs ((b :: u) ++ [s]) = _
      rw [ih]
      show _ = joinSegs (a :: b :: u) ++ '/' :: s.toList
      show a.toList ++ '/' :: (joinSegs (b :: u) ++ '/' :: s.toList) =
        (a.toList ++ '/' :: joinSegs (b :: u)) ++ '/' :: s.toList
      simp


/-- Lookup after assignment of the same key. -/
theorem fsGet_fsSet_self (fs : Fs) (k v : String) : fsGet (fsSet fs k v) k = some v := by
  induction fs with
  | nil => simp [fsSet, fsGet, List.find?]
  | cons kv t ih =>
    by_cases hk : kv.1 == k
    · simp [fsSet, hk, fsGet, List.find?]
    · simp only [fsSet, hk]
      simp only [fsGet, List.find?, hk] at ih ⊢
      simp only [Bool.false_eq_true, if_false] at *
      exact ih

/-- Strings with equal character data are equal. -/
theorem str_ext (a b : String) (h : a.data = b.data) : a = b := by
  cases a
  cases b
  cases h
  rfl

/-- Character data of a string concatenation. -/
theorem strDataAppend (a b : String) : (a ++ b).data = a.data ++ b.data := by
  cases a
  cases b
  rfl

/-- The default of getLastD is irrelevant on a non-empty list. -/
theorem getLastD_irrel (l : List String) (h : l ≠ []) (d1 d2 : String) :
    l.getLastD d1 = l.getLastD d2 := by
  induction l generalizing d1 d2 with
  | nil => exact absurd rfl h
  | cons a t ih =>
    cases t with
    | nil => rfl
    | cons b u => simp only [List.getLastD_cons]

/-- Rendering of the empty segment list. -/
theorem joinSegs_nil : joinSegs [] = [] := rfl

/-- Rendering of a single segment. -/
theorem joinSegs_single (s : String) : joinSegs [s] = s.data := rfl

/-- Rendering of a cons with a non-empty tail. -/
theorem joinSegs_cons_ne (a : String) (l : List String) (h : l ≠ []) :
    joinSegs (a :: l) = a.data ++ '/' :: joinSegs l := by
  cases l with
  | nil => exact absurd rfl h
  | cons b u => rfl

/-- Character data of a rendered path. -/
theorem pathStr_data (l : List String) : (pathStr l).data = '/' :: joinSegs l := rfl

/-- A backup path always has at least one segment. -/
theorem backupSegs_ne_nil (tgt : List String) (ts : String) : backupSegs tgt ts ≠ [] := by
  simp [backupSegs]

/-- The backup sibling renders as the target path followed by `.bak-` and the
timestamp — the `<name>.bak-<ts>` shape of the specification. -/
theorem backup_pathStr (tgt : List String) (ts : String) :
    pathStr (backupSegs tgt ts) = pathStr tgt ++ ".bak-" ++ ts := by
  induction tgt with
  | nil =>
    apply str_ext
    simp only [pathStr_data, strDataAppend]
    show '/' :: joinSegs [("" : String) ++ ".bak-" ++ ts] = _
    simp [joinSegs_single, joinSegs_nil, strDataAppend]
  | cons a t ih =>
    cases t with
    | nil =>
      apply str_ext
      simp only [pathStr_data, strDataAppend]
      show '/' :: joinSegs [a ++ ".bak-" ++ ts] = _
      simp [joinSegs_single, strDataAppend, joinSegs_cons_ne]
    | cons b u =>
      have hstep : backupSegs (a :: b :: u) ts = a :: backupSegs (b :: u) ts := by
        simp only [backupSegs, parentDir, List.dropLast_cons₂, List.getLastD_cons,
          List.cons_append]
      rw [hstep]
      apply str_ext
      have hne := backupSegs_ne_nil (b :: u) ts
      have hjoin : joinSegs (backupSegs (b :: u) ts) =
          joinSegs (b :: u) ++ (".bak-".data ++ ts.data) := by
        have hdata := congrArg String.data ih
        simp only [pathStr_data, strDataAppend, List.cons_append, List.append_assoc] at hdata
        rw [List.cons.injEq] at hdata
        exact hdata.2
      simp only [pathStr_data, strDataAppend, joinSegs_cons_ne _ _ hne,
        joinSegs_cons_ne a (b :: u) (by simp), hjoin, List.cons_append, List.append_assoc]

/-- Lookup skips a non-matching head binding. -/
theorem fsGet_cons_ne (kv : String × String) (t : Fs) (k : String)
    (hk : (kv.1 == k) = false) : fsGet (kv :: t) k = fsGet t k := by
  simp [fsGet, List.find?, hk]

/-- Lookup after assignment of a different key. -/
theorem fsGet_fsSet_other (fs : Fs) (k k2 v : String) (h : k2 ≠ k) :
    fsGet (fsSet fs k v) k2 = fsGet fs k2 := by
  have hkk2 : (k == k2) = false := beq_eq_false_iff_ne.mpr (Ne.symm h)
  induction fs with
  | nil => simp [fsSet, fsGet, List.find?, hkk2]
  | cons kv t ih =>
    by_cases hk : (kv.1 == k) = true
    · have hkeq : kv.1 = k := eq_of_beq hk
      have hkv2 : (kv.1 == k2) = false := by rw [hkeq]; exact hkk2
      simp [fsSet, hk, fsGet, List.find?, hkk2, hkv2]
    · simp only [fsSet, hk, Bool.false_eq_true, if_false]
      by_cases h2 : (kv.1 == k2) = true
      · simp [fsGet, List.find?, h2]
      · rw [fsGet_cons_ne kv (fsSet t k v) k2 (by simpa using h2),
            fsGet_cons_ne kv t k2 (by simpa using h2)]
        exact ih

/-- Backup count of a cons. -/
theorem bak_count_cons (kv : String × String) (l : Fs) :
    bak_count (kv :: l) = bak_count l + (if pyContains kv.1 ".bak-" = true then 1 else 0) := by
  by_cases hb : pyContains kv.1 ".bak-" = true <;>
    simp [bak_count, List.filter, hb, Nat.add_comm]

/-- Assigning a non-backup path never changes the backup count. -/
theorem bak_count_fsSet_old (fs : Fs) (k v : String) (h : pyContains k ".bak-" = false) :
    bak_count (fsSet fs k v) = bak_count fs := by
  induction fs with
  | nil => simp [fsSet, bak_count, List.filter, h]
  | cons kv t ih =>
    by_cases hk : (kv.1 == k) = true
    · have hkeq : kv.1 = k := eq_of_beq hk
      simp only [fsSet, hk, if_true]
      rw [bak_count_cons, bak_count_cons, hkeq, h]
    · simp only [fsSet, hk, Bool.false_eq_true, if_false]
      rw [bak_count_cons, bak_count_cons, ih]

/-- Creating a fresh backup file raises the backup count by one. -/
theorem bak_count_fsSet_new (fs : Fs) (k v : String) (hn : fsGet fs k = none)
    (h : pyContains k ".bak-" = true) :
    bak_count (fsSet fs k v) = bak_count fs + 1 := by
  induction fs with
  | nil => simp [fsSet, bak_count, List.filter, h]
  | cons kv t ih =>
    by_cases hk : (kv.1 == k) = true
    · exfalso
      simp [fsGet, List.find?, hk] at hn
    · have hk2 : (kv.1 == k) = false := by simpa using hk
      have hn2 : fsGet t k = none := by rwa [fsGet_cons_ne kv t k hk2] at hn
      simp only [fsSet, hk, Bool.false_eq_true, if_false]
      rw [bak_count_cons, bak_count_cons, ih hn2]
      omega

/-- A prefix is a substring. -/
theorem containsSub_of_prefix (cs pat : List Char) (h : pat.isPrefixOf cs = true) :
    containsSub cs pat = true := by
  cases cs with
  | nil =>
    cases pat with
    | nil => rfl
    | cons p ps => simp [List.isPrefixOf] at h
  | cons c t => simp [containsSub, h]

/-- A pattern occurs in any text that embeds it. -/
theorem containsSub_middle (x pat y : List Char) :
    containsSub (x ++ pat ++ y) pat = true := by
  induction x with
  | nil =>
    apply containsSub_of_prefix
    rw [List.isPrefixOf_iff_prefix]
    show pat <+: [] ++ pat ++ y
    simp
  | cons c t ih =>
    show containsSub (c :: (t ++ pat ++ y)) pat = true
    simp only [containsSub, Bool.or_eq_true]
    exact Or.inr ih

/-- A backup file name contains the `.bak-` infix. -/
theorem pyContains_backup (s ts : String) : pyContains (s ++ ".bak-" ++ ts) ".bak-" = true := by
  unfold pyContains
  show containsSub ((s ++ ".bak-" ++ ts).data) (".bak-" : String).data = true
  rw [strDataAppend, strDataAppend]
  exact containsSub_middle s.data (".bak-" : String).data ts.data

/-- Length of a string concatenation. -/
theorem str_len_append (a b : String) : (a ++ b).length = a.length + b.length := by
  show (a ++ b).data.length = _
  rw [strDataAppend, List.length_append]
  rfl

/-- A backup name never equals the path it backs up. -/
theorem bak_name_ne (s ts : String) : s ++ ".bak-" ++ ts ≠ s := by
  intro h
  have := congrArg String.length h
  rw [str_len_append, str_len_append] at this
  have h5 : (".bak-" : String).length = 5 := rfl
  omega

/-- A validated, non-protected content upsert is applied as one plain write:
mkdir of the parent followed by a single direct write of the full content. -/
theorem apply_upsert_ok (p c : String) (fs : Fs) (root : List String) (prot : List String)
    (tgt : List String) (hv : validate_path p = .ok ())
    (hst : safe_target root p = .ok tgt)
    (hps : prot_scan root (pathStr tgt) prot = .clear) :
    apply_patch_set (upsertSet p c) fs root false prot =
      .ok (⟨[⟨p, "upsert", .written⟩], [], []⟩, fsSet fs (pathStr tgt) c,
           [.mkdirp (pathStr (parentDir tgt)), .writeF (pathStr tgt) c]) := by
  have hvc : validate_changes [⟨p, "upsert", none, some c, none, none⟩] = .ok () := by
    unfold validate_changes validate_change
    rw [hv]
    rfl
  unfold apply_patch_set upsertSet
  simp only [List.isEmpty_cons, Bool.false_eq_true, if_false, hvc]
  unfold apply_loop process_change
  rw [hst]
  simp only [hps]
  norm_num
  unfold apply_loop write_text_fs write_text_ops
  simp

/-- Claim C3 (amended): apply_patch_set writes an upsert or update with
content by a plain non-atomic write — its trace is mkdir-parents followed by a
single direct write to the target, with no temporary file, fsync or rename —
while write_files_bundle is the function that performs the atomic sequence
(temporary file in the target directory, flush+fsync, rename over the target,
and no direct write to the target). -/
theorem c3_write_paths (p c : String) (fs : Fs) (root : List String) (prot : List String)
    (tgt : List String) (hv : validate_path p = .ok ())
    (hst : safe_target root p = .ok tgt)
    (hps : prot_scan root (pathStr tgt) prot = .clear) :
    apply_patch_set (upsertSet p c) fs root false prot =
      .ok (⟨[⟨p, "upsert", .written⟩], [], []⟩, fsSet fs (pathStr tgt) c,
           [.mkdirp (pathStr (parentDir tgt)), .writeF (pathStr tgt) c]) ∧
    atomic_write_for (pathStr (parentDir tgt)) (pathStr tgt)
      [.mkdirp (pathStr (parentDir tgt)), .writeF (pathStr tgt) c] = false ∧
    (∀ (base : List String) (ts rel content : String) (wtgt : List String), rel ≠ "" →
      wtgt = pyResolve base rel →
      ∃ fs2 tr, write_files_bundle base ts [(rel, content)] fs = .ok ([pathStr wtgt], fs2, tr) ∧
        atomic_write_for (pathStr (parentDir wtgt)) (pathStr wtgt) tr = true ∧
        fsGet fs2 (pathStr wtgt) = some (normEol content)) := by
  refine ⟨apply_upsert_ok p c fs root prot tgt hv hst hps, ?_, ?_⟩
  · simp [atomic_write_for, seqTmp, hasDirectWrite, beq_self_eq_true]
  · intro base ts rel content wtgt hrel hw
    subst hw
    unfold write_files_bundle
    rw [if_neg hrel]
    rcases hfs : fsGet fs (pathStr (pyResolve base rel)) with _ | c0 <;> simp only [hfs]
    · refine ⟨_, _, rfl, ?_, ?_⟩
      · simp [atomic_write_for, seqTmp, seqFsync, seqRename, hasDirectWrite]
      · exact fsGet_fsSet_self fs (pathStr (pyResolve base rel)) (normEol content)
    · have hbne : pathStr (backupSegs (pyResolve base rel) ts) ≠ pathStr (pyResolve base rel) := by
        rw [backup_pathStr]
        exact bak_name_ne (pathStr (pyResolve base rel)) ts
      refine ⟨_, _, rfl, ?_, ?_⟩
      · simp [atomic_write_for, seqTmp, seqFsync, seqRename, hasDirectWrite,
          beq_eq_false_iff_ne.mpr hbne]
      · exact fsGet_fsSet_self _ (pathStr (pyResolve base rel)) (normEol content)

/-- Claim C4 (amended): applying the same upsert twice through
apply_patch_set leaves the target equal to the second payload, but creates no
backup at all — the backup count is unchanged, not incremented.  The
timestamped sibling backup `<name>.bak-<ts>` is produced by write_files: from
an absent target, the first application writes without a backup and the second
backs the first content up into exactly one additional backup file before
overwriting, so the final content is the second payload and the backup count
rises by exactly one. -/
theorem c4_upsert_twice (p c1 c2 : String) (fs : Fs) (root : List String)
    (prot : List String) (tgt : List String) (wbase : List String) (wfs : Fs)
    (ts1 ts2 lang : String) (wtgt : List String)
    (hv : validate_path p = .ok ()) (hst : safe_target root p = .ok tgt)
    (hps : prot_scan root (pathStr tgt) prot = .clear)
    (hnb : pyContains (pathStr tgt) ".bak-" = false)
    (hsr : safe_resolve wbase p = .ok wtgt)
    (habs : fsGet wfs (pathStr wtgt) = none)
    (hwnb : pyContains (pathStr wtgt) ".bak-" = false)
    (hbakfresh : fsGet (fsSet wfs (pathStr wtgt) c1) (pathStr (backupSegs wtgt ts2)) = none) :
    resFs (apply_patch_set (upsertSet p c1) fs root false prot) =
      some (fsSet fs (pathStr tgt) c1) ∧
    resFs (apply_patch_set (upsertSet p c2) (fsSet fs (pathStr tgt) c1) root false prot) =
      some (fsSet (fsSet fs (pathStr tgt) c1) (pathStr tgt) c2) ∧
    fsGet (fsSet (fsSet fs (pathStr tgt) c1) (pathStr tgt) c2) (pathStr tgt) = some c2 ∧
    bak_count (fsSet (fsSet fs (pathStr tgt) c1) (pathStr tgt) c2) = bak_count fs ∧
    write_files wbase ts1 [⟨p, c1, lang⟩] wfs =
      ([pathStr wtgt], fsSet wfs (pathStr wtgt) c1,
       [.mkdirp (pathStr (parentDir wtgt)), .writeF (pathStr wtgt) c1]) ∧
    write_files wbase ts2 [⟨p, c2, lang⟩] (fsSet wfs (pathStr wtgt) c1) =
      ([pathStr wtgt],
       fsSet (fsSet (fsSet wfs (pathStr wtgt) c1) (pathStr (backupSegs wtgt ts2)) c1)
         (pathStr wtgt) c2,
       [.mkdirp (pathStr (parentDir wtgt)), .writeF (pathStr (backupSegs wtgt ts2)) c1,
        .writeF (pathStr wtgt) c2]) ∧
    bak_count (fsSet wfs (pathStr wtgt) c1) = bak_count wfs ∧
    bak_count (fsSet (fsSet (fsSet wfs (pathStr wtgt) c1) (pathStr (backupSegs wtgt ts2)) c1)
        (pathStr wtgt) c2) = bak_count wfs + 1 ∧
    fsGet (fsSet (fsSet (fsSet wfs (pathStr wtgt) c1) (pathStr (backupSegs wtgt ts2)) c1)
        (pathStr wtgt) c2) (pathStr wtgt) = some c2 ∧
    fsGet (fsSet (fsSet (fsSet wfs (pathStr wtgt) c1) (pathStr (backupSegs wtgt ts2)) c1)
        (pathStr wtgt) c2) (pathStr (backupSegs wtgt ts2)) = some c1 := by
  have hbak_contains : pyContains (pathStr (backupSegs wtgt ts2)) ".bak-" = true := by
    rw [backup_pathStr]
    exact pyContains_backup (pathStr wtgt) ts2
  have hbne : pathStr (backupSegs wtgt ts2) ≠ pathStr wtgt := by
    rw [backup_pathStr]
    exact bak_name_ne (pathStr wtgt) ts2
  refine ⟨?_, ?_, fsGet_fsSet_self _ _ _, ?_, ?_, ?_, ?_, ?_, fsGet_fsSet_self _ _ _, ?_⟩
  · rw [apply_upsert_ok p c1 fs root prot tgt hv hst hps]
    rfl
  · rw [apply_upsert_ok p c2 (fsSet fs (pathStr tgt) c1) root prot tgt hv hst hps]
    rfl
  · rw [bak_count_fsSet_old _ _ _ hnb, bak_count_fsSet_old _ _ _ hnb]
  · unfold write_files
    rw [hsr]
    simp only [habs]
    unfold write_files
    rfl
  · unfold write_files
    rw [hsr]
    simp only [fsGet_fsSet_self wfs (pathStr wtgt) c1]
    unfold write_files
    rfl
  · rw [bak_count_fsSet_old _ _ _ hwnb]
  · rw [bak_count_fsSet_old _ _ _ hwnb,
      bak_count_fsSet_new _ _ _ hbakfresh hbak_contains,
      bak_count_fsSet_old _ _ _ hwnb]
  · rw [fsGet_fsSet_other _ _ _ _ hbne, fsGet_fsSet_self _ _ _]

/-- Witness for c2_traversal_aborts at a concrete input. -/
theorem c2_traversal_aborts_witness :
    (∃ ch ∈ c2w_set.changes, (pyPathParts ch.path).contains ".." = true) ∧
    ∃ m, apply_patch_set c2w_set [] ["r"] false [] = .error m :=
  ⟨by decide, (c2_traversal_aborts c2w_set [] ["r"] false [] (by decide)).1⟩

/-- Witness for c3_write_paths at a concrete input. -/
theorem c3_write_paths_witness :
    validate_path "f.txt" = .ok () ∧
    apply_patch_set (upsertSet "f.txt" "data") [] ["r"] false [] =
      .ok (⟨[⟨"f.txt", "upsert", .written⟩], [], []⟩,
           fsSet [] (pathStr ["r", "f.txt"]) "data",
           [.mkdirp (pathStr (parentDir ["r", "f.txt"])), .writeF (pathStr ["r", "f.txt"]) "data"]) :=
  ⟨by rfl, (c3_write_paths "f.txt" "data" [] ["r"] [] ["r", "f.txt"] (by rfl) (by rfl) rfl).1⟩

/-- Witness for c4_upsert_twice at a concrete input. -/
theorem c4_upsert_twice_witness :
    fsGet (fsSet (fsSet [] (pathStr ["r", "f.txt"]) "one") (pathStr ["r", "f.txt"]) "two")
      (pathStr ["r", "f.txt"]) = some "two" ∧
    bak_count (fsSet (fsSet [] (pathStr ["r", "f.txt"]) "one") (pathStr ["r", "f.txt"]) "two") =
      bak_count ([] : Fs) ∧
    bak_count (fsSet (fsSet (fsSet [] (pathStr ["w", "f.txt"]) "one")
        (pathStr (backupSegs ["w", "f.txt"] "20250101-000000")) "one") (pathStr ["w", "f.txt"]) "two") =
      bak_count ([] : Fs) + 1 := by
  have h := c4_upsert_twice "f.txt" "one" "two" [] ["r"] [] ["r", "f.txt"] ["w"] []
    "20250102-000000" "20250101-000000" "python" ["w", "f.txt"]
    (by rfl) (by rfl) rfl (by decide) (by rfl) (by rfl) (by decide) (by rfl)
  exact ⟨h.2.2.1, h.2.2.2.1, h.2.2.2.2.2.2.2.1⟩

/-- Claim C2 counterexample: the scenario of the claim — a patch set whose
single change targets `../etc/passwd` — does not return an ApplyResult with
one errors entry; the whole call fails with a validation error. -/
theorem c2_counterexample :
    resErrMsg (apply_patch_set c2_set [] ["r"] false []) =
      some "Path traversal .. is not allowed" := by decide

/-- Claim C3 counterexample: the write trace of a concrete content upsert is a
single direct write with no temporary file, fsync or rename, so the atomic
write pattern of the claim does not hold for apply_patch_set. -/
theorem c3_counterexample :
    resTrace (apply_patch_set c3_set [] ["r"] false []) =
      some [FsOp.mkdirp "/r", FsOp.writeF "/r/f.txt" "hello"] ∧
    atomic_write_for "/r" "/r/f.txt" [FsOp.mkdirp "/r", FsOp.writeF "/r/f.txt" "hello"] = false := by
  constructor <;> decide

/-- Claim C4 counterexample: applying the same upsert twice yields the second
content but zero backup files after both the first and the second application
— not one additional backup. -/
theorem c4_counterexample :
    resFs (apply_patch_set (upsertSet "f.txt" "one") [] ["r"] false []) =
      some [("/r/f.txt", "one")] ∧
    resFs (apply_patch_set (upsertSet "f.txt" "two") [("/r/f.txt", "one")] ["r"] false []) =
      some [("/r/f.txt", "two")] ∧
    bak_count [("/r/f.txt", "one")] = 0 ∧ bak_count [("/r/f.txt", "two")] = 0 := by
  refine ⟨by decide, by decide, by decide, by decide⟩

/-- Claim C9 (amended): when the id already has a line, update_status appends
exactly one new line with that id and the requested status, inheriting kind,
title, owner, file, line, rule, source and the merged meta entries (such as
digest) from the most recently appended prior line with that id; but note is
replaced by the note argument, and created_at — like updated_at — is stamped
with the append time by to_jsonl, not inherited. -/
theorem c9_update_status_inherit (log : List BItem) (now task_id status : String)
    (note : Option String) (changes : Option (List (List (String × String))))
    (kv : String × BItem)
    (hfind : (latest_by_id log).find? (fun kv => kv.1 == task_id) = some kv) :
    update_status log now task_id status note changes =
      log ++ [⟨task_id, kv.2.kind, kv.2.title, status, kv.2.owner, kv.2.file, kv.2.line,
        kv.2.rule, kv.2.source, note, some now, some now,
        pyDictMerge kv.2.meta
          (match changes with
           | some cs => if cs.isEmpty then [] else [("changes", .mchanges cs)]
           | none => [])⟩] := by
  unfold update_status
  rw [hfind]
  rfl

/-- Witness for c9_update_status_inherit at a concrete input. -/
theorem c9_update_status_inherit_witness :
    (latest_by_id c9_log).find? (fun kv => kv.1 == "T-1") =
      some ("T-1", ⟨"T-1", "lint", "fix import", "todo", some "dev", some "m.py", some 3,
        some "F401", some "flake8", none, some "2025-01-01T00:00:00Z",
        some "2025-01-01T00:00:00Z", [("digest", .mstr "d")]⟩) ∧
    update_status c9_log "2025-02-02T00:00:00Z" "T-1" "in_progress" none none =
      c9_log ++ [⟨"T-1", "lint", "fix import", "in_progress", some "dev", some "m.py",
        some 3, some "F401", some "flake8", none, some "2025-02-02T00:00:00Z",
        some "2025-02-02T00:00:00Z", [("digest", .mstr "d")]⟩] := by
  have h := c9_update_status_inherit c9_log "2025-02-02T00:00:00Z" "T-1" "in_progress"
    none none ("T-1", ⟨"T-1", "lint", "fix import", "todo", some "dev", some "m.py", some 3,
      some "F401", some "flake8", none, some "2025-01-01T00:00:00Z",
      some "2025-01-01T00:00:00Z", [("digest", .mstr "d")]⟩) (by decide)
  exact ⟨by decide, h⟩

/-- A ledger line matching the queried actor and mode, carrying a truthy
string ts, returns True from the scan when the ts or the since bound fails
ISO parsing after Z-replacement (the bare except at consent.py:193-195). -/
theorem icg_line_retTrue_of_parse_fail (actor mode sinceS : String) (line : String)
    (fields : List (String × Jv)) (ts : String)
    (hblank : pyStrip line ≠ "")
    (hparse : json_loads (pyStrip line) = some (.jobj fields))
    (hactor : jvEqStr (jGet fields "actor") actor = true)
    (hmode : jvEqStr (jGet fields "mode") mode = true)
    (hts : jGet fields "ts" = some (.jstr ts)) (htruthy : ts ≠ "")
    (hfail : pyFromIso (replaceZ ts) = none ∨ pyFromIso (replaceZ sinceS) = none) :
    icg_line actor mode (some sinceS) line = .retTrue := by
  have htv : jvTruthy (Jv.jstr ts) = true := by simpa [jvTruthy] using htruthy
  unfold icg_line
  rw [if_neg hblank, hparse]
  simp only [hactor, hmode, hts, htv, Bool.and_self, Bool.not_true, Bool.false_eq_true,
    if_false]
  rcases hp1 : pyFromIso (replaceZ ts) with _ | a
  · rfl
  · rcases hfail with hf | hf
    · rw [hp1] at hf
      cases hf
    · rw [hf]

/-- The scan returns True when some line triggers True and no earlier line
aborts the scan. -/
theorem icg_loop_true_of_trigger (actor mode : String) (sinceS : String) :
    ∀ (lines : List String) (i : Nat) (hi : i < lines.length),
      icg_line actor mode (some sinceS) (lines.get ⟨i, hi⟩) = .retTrue →
      (∀ l ∈ lines.take i, icg_line actor mode (some sinceS) l ≠ .retFalse) →
      icg_loop actor mode (some sinceS) lines = true := by
  intro lines
  induction lines with
  | nil => intro i hi; cases hi
  | cons l rest ih =>
    intro i hi htrig hpre
    cases i with
    | zero =>
      unfold icg_loop
      rw [show (l :: rest).get ⟨0, hi⟩ = l from rfl] at htrig
      rw [htrig]
    | succ j =>
      unfold icg_loop
      have hl : icg_line actor mode (some sinceS) l ≠ .retFalse := by
        apply hpre
        simp [List.take]
      rcases hcase : icg_line actor mode (some sinceS) l with _ | _ | _
      · rfl
      · exact absurd hcase hl
      · exact ih j (Nat.lt_of_succ_lt_succ hi) htrig
          (fun x hx => hpre x (by simp [List.take, hx]))

/-- Claim C10 (amended): when the ledger holds a line whose actor and mode
match the query, whose ts is a truthy string, and whose ts — or the since
argument — fails ISO-8601 parsing after replacing Z, is_consent_given with
that since bound returns True (the since filter is silently bypassed),
provided no earlier line aborts the scan (a matching line whose truthy ts is
not a string raises outside the inner try and makes the function return
False instead). -/
theorem c10_since_parse_bypass (actor mode sinceS : String) (lines : List String)
    (i : Nat) (hi : i < lines.length) (fields : List (String × Jv)) (ts : String)
    (ha : actor ≠ "") (hm : mode ≠ "")
    (hblank : pyStrip (lines.get ⟨i, hi⟩) ≠ "")
    (hparse : json_loads (pyStrip (lines.get ⟨i, hi⟩)) = some (.jobj fields))
    (hactor : jvEqStr (jGet fields "actor") actor = true)
    (hmode : jvEqStr (jGet fields "mode") mode = true)
    (hts : jGet fields "ts" = some (.jstr ts)) (htruthy : ts ≠ "")
    (hfail : pyFromIso (replaceZ ts) = none ∨ pyFromIso (replaceZ sinceS) = none)
    (hpre : ∀ l ∈ lines.take i, icg_line actor mode (some sinceS) l ≠ .retFalse) :
    is_consent_given actor mode (some sinceS) lines = true := by
  unfold is_consent_given
  rw [if_neg (by simp [ha, hm])]
  exact icg_loop_true_of_trigger actor mode sinceS lines i hi
    (icg_line_retTrue_of_parse_fail actor mode sinceS _ fields ts hblank hparse
      hactor hmode hts htruthy hfail) hpre

/-- Witness for c10_since_parse_bypass at a concrete input. -/
theorem c10_since_parse_bypass_witness :
    icg_line "a" "m" (some c10_since) c10_line2 = .retTrue ∧
    is_consent_given "a" "m" (some c10_since) [c10_line2] = true := by
  refine ⟨by decide, ?_⟩
  exact c10_since_parse_bypass "a" "m" c10_since [c10_line2] 0 (by decide)
    [("actor", .jstr "a"), ("mode", .jstr "m"), ("ts", .jstr "garbage")] "garbage"
    (by decide) (by decide) (by decide) (by rfl) (by rfl) (by rfl) (by rfl) (by decide)
    (Or.inl (by rfl)) (by simp)

/-- Claim C9 counterexample: the line appended by update_status carries a
fresh created_at (the append time), not the created_at of the most recent
prior line, so created_at is not inherited. -/
theorem c9_counterexample :
    (update_status c9_log "2025-02-02T00:00:00Z" "T-1" "in_progress" none none).map
      (fun b => (b.id, b.status, b.created_at)) =
    [("T-1", "todo", some "2025-01-01T00:00:00Z"),
     ("T-1", "in_progress", some "2025-02-02T00:00:00Z")] := by decide

/-- Claim C10 counterexample: a ledger whose second line matches the claim
(actor and mode match, string ts fails parsing) still makes is_consent_given
return False, because the first matching line carries a truthy non-string ts
and aborts the scan through the outer exception handler. -/
theorem c10_counterexample :
    icg_line "a" "m" (some c10_since) c10_line2 = .retTrue ∧
    is_consent_given "a" "m" (some c10_since) [c10_line1, c10_line2] = false := by
  constructor <;> decide
/-- Appending one item with a truthy id to the log updates latest_by_id by
one dict assignment. -/
theorem latestByIdAux_append (it : BItem) (hid : ¬ it.id = "") :
    ∀ (xs : List BItem) (acc), latestByIdAux (xs ++ [it]) acc
      = updEntry (latestByIdAux xs acc) it := by
  intro xs
  induction xs with
  | nil =>
    intro acc
    simp [latestByIdAux, updEntry, hid]
  | cons x t ih =>
    intro acc
    simp only [List.cons_append, latestByIdAux]
    split_ifs with h1 h2
    · exact ih acc
    · exact ih _
    · exact ih _

/-- find? over an entry list whose values all fail p, after replacing the
values at a key that occurs, finds the replacement when it satisfies p. -/
theorem find_entries_replace (p : BItem → Bool) (key : String) (new : BItem)
    (hp : p new = true) :
    ∀ l : List (String × BItem), (∀ kv ∈ l, p kv.2 = false) →
      l.any (fun kv => kv.1 == key) = true →
      ((l.map (fun kv => if kv.1 == key then (kv.1, new) else kv)).map
        (fun kv => kv.2)).find? p = some new := by
  intro l
  induction l with
  | nil => intro _ h; simp at h
  | cons kv t ih =>
    intro hall hany
    by_cases hk : (kv.1 == key) = true
    · simp only [List.map_cons, if_pos hk]
      rw [List.find?_cons_of_pos _ hp]
    · simp only [List.map_cons, if_neg hk]
      have hpkv : p kv.2 = false := hall kv (List.mem_cons_self _ _)
      rw [List.find?_cons_of_neg _ (by simp [hpkv])]
      have hall2 : ∀ kv2 ∈ t, p kv2.2 = false :=
        fun kv2 hm => hall kv2 (List.mem_cons_of_mem _ hm)
      have hany2 : t.any (fun kv2 => kv2.1 == key) = true := by
        simp only [List.any_cons, hk, Bool.false_or] at hany
        exact hany
      exact ih hall2 hany2

/-- find? over an entry list whose values all fail p, extended with a new
entry satisfying p, finds the new entry. -/
theorem find_entries_appended (p : BItem → Bool) (key : String) (new : BItem)
    (hp : p new = true) :
    ∀ l : List (String × BItem), (∀ kv ∈ l, p kv.2 = false) →
      (((l ++ [(key, new)]).map (fun kv => kv.2)).find? p = some new) := by
  intro l
  induction l with
  | nil =>
    intro _
    simp only [List.nil_append, List.map_cons, List.map_nil]
    rw [List.find?_cons_of_pos _ hp]
  | cons kv t ih =>
    intro hall
    have hpkv : p kv.2 = false := hall kv (List.mem_cons_self _ _)
    simp only [List.cons_append, List.map_cons]
    rw [List.find?_cons_of_neg _ (by simp [hpkv])]
    exact ih (fun kv2 hm => hall kv2 (List.mem_cons_of_mem _ hm))

/-- find? after a dict assignment, when every old value fails p and the new
item satisfies p, returns the new item. -/
theorem find_updEntry (p : BItem → Bool) (new : BItem) (hp : p new = true)
    (l : List (String × BItem)) (hall : ∀ kv ∈ l, p kv.2 = false) :
    ((updEntry l new).map (fun kv => kv.2)).find? p = some new := by
  unfold updEntry
  by_cases hany : l.any (fun kv => kv.1 == new.id) = true
  · rw [if_pos hany]
    exact find_entries_replace p new.id new hp l hall hany
  · rw [if_neg hany]
    exact find_entries_appended p new.id new hp l hall

/-- When no open item with digest d exists, appending an open item carrying
digest d makes find_open_by_digest return exactly that item. -/
theorem find_open_by_digest_append (log : List BItem) (new : BItem) (d : String)
    (hid : ¬ new.id = "")
    (hp : (fun o => metaGet o.meta "digest" == some (.mstr d) &&
      decide (o.status ≠ "done") && decide (o.status ≠ "blocked")) new = true)
    (hnone : find_open_by_digest log d = none) :
    find_open_by_digest (log ++ [new]) d = some new := by
  unfold find_open_by_digest latest_by_id at *
  rw [latestByIdAux_append new hid]
  apply find_updEntry _ new hp
  intro kv hm
  have hmem : kv.2 ∈ (latestByIdAux log []).map (fun kv => kv.2) :=
    List.mem_map_of_mem _ hm
  have := List.find?_eq_none.mp hnone kv.2 hmem
  exact Bool.not_eq_true _ ▸ (by simpa using this)

/-- A digest-derived id is never the empty string. -/
theorem TdId_ne_empty (d : String) : ¬ ("T-" ++ d) = "" := by
  intro h
  have h2 := congrArg String.data h
  rw [strDataAppend] at h2
  simp at h2

/-- Claim C8: calling create_or_reopen twice with an identical
(kind, file, line, rule, title) tuple, starting from a backlog with no open
item for that digest, yields the same deterministic digest-derived id
"T-" ++ digest both times, and the second call appends exactly one new todo
line reusing that id (a reopen), not a duplicate fresh item. -/
theorem c8_create_or_reopen_twice
    (log : List BItem) (now1 now2 kind title owner1 owner2 source1 source2 : String)
    (file : Option String) (line : Option Int) (rule : Option String)
    (note1 note2 : Option String)
    (hfresh : find_open_by_digest log (digest_of kind file line rule title) = none) :
    (create_or_reopen log now1 kind title owner1 file line rule source1 note1).1
      = "T-" ++ digest_of kind file line rule title ∧
    (create_or_reopen
        (create_or_reopen log now1 kind title owner1 file line rule source1 note1).2
        now2 kind title owner2 file line rule source2 note2).1
      = (create_or_reopen log now1 kind title owner1 file line rule source1 note1).1 ∧
    (create_or_reopen
        (create_or_reopen log now1 kind title owner1 file line rule source1 note1).2
        now2 kind title owner2 file line rule source2 note2).2
      = (create_or_reopen log now1 kind title owner1 file line rule source1 note1).2 ++
        [finalizeItem now2
          ⟨(create_or_reopen log now1 kind title owner1 file line rule source1 note1).1,
           kind, title, "todo", some owner2, file, line, rule, some source2, note2,
           none, none, [("digest", MetaV.mstr (digest_of kind file line rule title))]⟩] := by
  have h1 : create_or_reopen log now1 kind title owner1 file line rule source1 note1
      = ("T-" ++ digest_of kind file line rule title,
         log ++ [finalizeItem now1
           ⟨"T-" ++ digest_of kind file line rule title, kind, title, "todo", some owner1,
            file, line, rule, some source1, note1, none, none,
            [("digest", MetaV.mstr (digest_of kind file line rule title))]⟩]) := by
    unfold create_or_reopen append_item
    simp only [hfresh]
  set d := digest_of kind file line rule title with hd
  set new1 : BItem := finalizeItem now1
    ⟨"T-" ++ d, kind, title, "todo", some owner1, file, line, rule, some source1, note1,
     none, none, [("digest", MetaV.mstr d)]⟩ with hnew1
  have hid : ¬ new1.id = "" := by
    rw [hnew1]
    exact TdId_ne_empty d
  have hp : (fun o => metaGet o.meta "digest" == some (.mstr d) &&
      decide (o.status ≠ "done") && decide (o.status ≠ "blocked")) new1 = true := by
    rw [hnew1]
    simp [finalizeItem, metaGet]
  have hfind2 : find_open_by_digest (log ++ [new1]) d = some new1 :=
    find_open_by_digest_append log new1 d hid hp hfresh
  have h2 : create_or_reopen (log ++ [new1]) now2 kind title owner2 file line rule
      source2 note2
      = (new1.id,
         (log ++ [new1]) ++ [finalizeItem now2
           ⟨new1.id, kind, title, "todo", some owner2, file, line, rule, some source2,
            note2, none, none, [("digest", MetaV.mstr d)]⟩]) := by
    unfold create_or_reopen append_item
    simp only [hfind2]
  have hnid : new1.id = "T-" ++ d := by rw [hnew1]; rfl
  refine ⟨by rw [h1], ?_, ?_⟩
  · rw [h1]
    simp only
    rw [h2]
    simp only
    rw [hnid]
  · rw [h1]
    simp only
    rw [h2]
    simp only
    rw [hnid]

/-- Witness for c8_create_or_reopen_twice at a concrete input. -/
theorem c8_create_or_reopen_twice_witness :
    find_open_by_digest [] (digest_of "lint" none none none "fix") = none ∧
    ((create_or_reopen [] "t1" "lint" "fix" "o1" none none none "flake8" none).1
      = "T-" ++ digest_of "lint" none none none "fix" ∧
    (create_or_reopen
        (create_or_reopen [] "t1" "lint" "fix" "o1" none none none "flake8" none).2
        "t2" "lint" "fix" "o2" none none none "flake8" none).1
      = (create_or_reopen [] "t1" "lint" "fix" "o1" none none none "flake8" none).1 ∧
    (create_or_reopen
        (create_or_reopen [] "t1" "lint" "fix" "o1" none none none "flake8" none).2
        "t2" "lint" "fix" "o2" none none none "flake8" none).2
      = (create_or_reopen [] "t1" "lint" "fix" "o1" none none none "flake8" none).2 ++
        [finalizeItem "t2"
          ⟨(create_or_reopen [] "t1" "lint" "fix" "o1" none none none "flake8" none).1,
           "lint", "fix", "todo", some "o2", none, none, none, some "flake8", none,
           none, none, [("digest", MetaV.mstr (digest_of "lint" none none none "fix"))]⟩]) :=
  ⟨by decide, c8_create_or_reopen_twice [] "t1" "t2" "lint" "fix" "o1" "o2" "flake8" "flake8"
    none none none none none (by decide)⟩
/-- The all-or-nothing scan of `_looks_like_multi_file` returns False as soon
as any block's body lacks a header match. -/
theorem multiBlocksOk_false_of_headerless :
    ∀ (blocks : List (List Char × List Char)) (seen : List String)
      (lb : List Char × List Char),
      lb ∈ blocks → crew_header_search lb.2 = none →
      multiBlocksOk blocks seen = false := by
  intro blocks
  induction blocks with
  | nil => intro seen lb h _; cases h
  | cons b rest ih =>
    intro seen lb hmem hnone
    rcases List.mem_cons.mp hmem with heq | hmem2
    · subst heq
      simp only [multiBlocksOk]
      rw [hnone]
    · simp only [multiBlocksOk]
      cases hcs : crew_header_search b.2 with
      | none => rfl
      | some r =>
        obtain ⟨pre, m, path, prest⟩ := r
        simp only
        split_ifs <;> first | rfl | exact ih _ lb hmem2 hnone

/-- A text with a headerless fenced block fails the multi-file detector. -/
theorem looks_like_multi_false_of_headerless (raw : String)
    (lb : List Char × List Char) (h1 : lb ∈ scanFences raw.toList)
    (hnone : crew_header_search lb.2 = none) :
    looks_like_multi_file raw = false := by
  unfold looks_like_multi_file
  cases hsf : scanFences raw.toList with
  | nil => rfl
  | cons f fs =>
    exact multiBlocksOk_false_of_headerless (f :: fs) [] lb (hsf ▸ h1) hnone

/-- Claim C6 (amended): a headerless fenced block does make the whole text
fail the multi-file DETECTOR (_looks_like_multi_file is all-or-nothing), but
the multi-file PARSE (_parse_per_file_fences) accepts blocks independently:
every block whose body has a file-header match still contributes its
ParsedFile entry, so the parse exhibits partial acceptance. -/
theorem c6_headerless_partial
    (raw : String) (lb1 lb2 : List Char × List Char)
    (h1 : lb1 ∈ scanFences raw.toList)
    (hnone : crew_header_search lb1.2 = none)
    (h2 : lb2 ∈ scanFences raw.toList)
    (pre m path rest : List Char)
    (hsome : file_header_search lb2.2 = some (pre, m, path, rest)) :
    looks_like_multi_file raw = false ∧
    (⟨String.mk (stripL path), String.mk (lstripNlCr (pre ++ rest)),
      fenceLanguage lb2.1⟩ : ParsedFile) ∈ parse_per_file_fences raw := by
  refine ⟨looks_like_multi_false_of_headerless raw lb1 h1 hnone, ?_⟩
  unfold parse_per_file_fences
  apply List.mem_filterMap.mpr
  refine ⟨lb2, h2, ?_⟩
  simp only
  rw [hsome]
  rfl

/-- Witness for c6_headerless_partial at a concrete input. -/
theorem c6_headerless_partial_witness :
    (crew_header_search "hello\n".toList = none ∧
     file_header_search "# file: a.py\nprint(1)\n".toList
       = some ("".toList, "# file: a.py".toList, "a.py".toList, "\nprint(1)\n".toList)) ∧
    (looks_like_multi_file c6_text = false ∧
     (⟨"a.py", "print(1)\n", "python"⟩ : ParsedFile) ∈ parse_per_file_fences c6_text) := by
  refine ⟨⟨by decide, by decide⟩, ?_⟩
  have h := c6_headerless_partial c6_text ("".toList, "hello\n".toList)
    ("python".toList, "# file: a.py\nprint(1)\n".toList) (by decide) (by decide) (by decide)
    "".toList "# file: a.py".toList "a.py".toList "\nprint(1)\n".toList (by decide)
  exact ⟨h.1, h.2⟩

/-- Claim C6 counterexample: c6_text holds a headerless block and a headed
block; the multi-file check fails, yet _parse_per_file_fences returns the
headed block's entry and parse_creator_outputs propagates it — the claimed
"no ParsedFile entries from that text" is false. -/
theorem c6_counterexample :
    looks_like_multi_file c6_text = false ∧
    parse_per_file_fences c6_text = [⟨"a.py", "print(1)\n", "python"⟩] ∧
    parse_creator_outputs c6_text "modules/autonomous_agent.py"
      = .ok [⟨"a.py", "print(1)\n", "python"⟩] :=
  ⟨by decide, by decide, by rfl⟩
theorem hexVal_hexDigitC (d : Nat) (h : d < 16) : hexVal (hexDigitC d) = some d := by
  interval_cases d <;> decide

theorem scanJStr_flatten (s : List Char) (rest : List Char) :
    scanJStr ((s.map escJChar).flatten ++ '"' :: rest) = some (s, rest) := by
  induction s with
  | nil =>
    rw [List.map_nil, List.flatten_nil, List.nil_append, scanJStr.eq_def]
    simp
  | cons c t ih =>
    simp only [List.map_cons, List.flatten_cons, List.append_assoc]
    by_cases h1 : c = '"'
    · subst h1
      rw [show escJChar '"' = ['\\', '"'] from rfl, List.cons_append, List.cons_append,
        List.nil_append, scanJStr.eq_def]
      simp +decide [ih]
    · by_cases h2 : c = '\\'
      · subst h2
        rw [show escJChar '\\' = ['\\', '\\'] from rfl, List.cons_append, List.cons_append,
          List.nil_append, scanJStr.eq_def]
        simp +decide [ih]
      · by_cases h3 : c = '\x08'
        · subst h3
          rw [show escJChar '\x08' = ['\\', 'b'] from rfl, List.cons_append, List.cons_append,
            List.nil_append, scanJStr.eq_def]
          simp +decide [ih]
        · by_cases h4 : c = '\t'
          · subst h4
            rw [show escJChar '\t' = ['\\', 't'] from rfl, List.cons_append, List.cons_append,
              List.nil_append, scanJStr.eq_def]
            simp +decide [ih]
          · by_cases h5 : c = '\n'
            · subst h5
              rw [show escJChar '\n' = ['\\', 'n'] from rfl, List.cons_append, List.cons_append,
                List.nil_append, scanJStr.eq_def]
              simp +decide [ih]
            · by_cases h6 : c = '\x0c'
              · subst h6
                rw [show escJChar '\x0c' = ['\\', 'f'] from rfl, List.cons_append,
                  List.cons_append, List.nil_append, scanJStr.eq_def]
                simp +decide [ih]
              · by_cases h7 : c = '\r'
                · subst h7
                  rw [show escJChar '\r' = ['\\', 'r'] from rfl, List.cons_append,
                    List.cons_append, List.nil_append, scanJStr.eq_def]
                  simp +decide [ih]
                · by_cases h8 : c.toNat < 0x20
                  · have e1 : hexVal (hexDigitC (c.toNat / 16)) = some (c.toNat / 16) :=
                      hexVal_hexDigitC _ (by omega)
                    have e2 : hexVal (hexDigitC (c.toNat % 16)) = some (c.toNat % 16) :=
                      hexVal_hexDigitC _ (by omega)
                    have hesc : escJChar c =
                        ['\\', 'u', '0', '0', hexDigitC (c.toNat / 16), hexDigitC (c.toNat % 16)] := by
                      simp only [escJChar, if_neg h1, if_neg h2, if_neg h3, if_neg h4,
                        if_neg h5, if_neg h6, if_neg h7, if_pos h8]
                    rw [hesc]
                    simp only [List.cons_append, List.nil_append]
                    rw [scanJStr.eq_def]
                    simp +decide [e1, e2, ih]
                    rw [(by decide : hexVal '0' = some 0)]
                    simp only
                    rw [show ((0 * 16 + 0) * 16 + c.toNat / 16) * 16 + c.toNat % 16 = c.toNat
                      by omega, Char.ofNat_toNat]
                  · have hesc : escJChar c = [c] := by
                      simp only [escJChar, if_neg h1, if_neg h2, if_neg h3, if_neg h4,
                        if_neg h5, if_neg h6, if_neg h7, if_neg h8]
                    rw [hesc]
                    simp only [List.cons_append, List.nil_append]
                    rw [scanJStr.eq_def]
                    simp only [if_neg h1, if_neg h2, if_neg h8, ih]
                    rfl

theorem digitC_isDigit (d : Nat) (h : d < 10) : isDigitC (digitC d) = true := by
  interval_cases d <;> decide

theorem natDecAux_fuel : ∀ f1 f2 n, n < f1 → n < f2 → natDecAux f1 n = natDecAux f2 n := by
  intro f1
  induction f1 with
  | zero => intro f2 n h; omega
  | succ a ih =>
    intro f2 n h1 h2
    cases f2 with
    | zero => omega
    | succ b =>
      simp only [natDecAux]
      by_cases h10 : n < 10
      · simp [h10]
      · simp only [if_neg h10]
        rw [ih b (n / 10) (by omega) (by omega)]

theorem natDec_lt10 (n : Nat) (h : n < 10) : natDec n = [digitC n] := by
  simp [natDec, natDecAux, h]

theorem natDec_ge10 (n : Nat) (h : 10 ≤ n) : natDec n = natDec (n / 10) ++ [digitC (n % 10)] := by
  unfold natDec
  conv_lhs => rw [natDecAux]
  rw [if_neg (by omega : ¬ n < 10)]
  rw [natDecAux_fuel n (n / 10 + 1) (n / 10) (by omega) (by omega)]

theorem natDec_spec : ∀ n : Nat, ∃ c cs, natDec n = c :: cs ∧ isDigitC c = true ∧
    (∀ x ∈ cs, isDigitC x = true) ∧ (c = '0' → cs = [] ∧ n = 0) := by
  intro n
  induction n using Nat.strong_induction_on with
  | _ n ih =>
    by_cases h10 : n < 10
    · refine ⟨digitC n, [], natDec_lt10 n h10, digitC_isDigit n h10, by simp, ?_⟩
      intro hz
      refine ⟨rfl, ?_⟩
      interval_cases n <;> simp_all <;> revert hz <;> decide
    · obtain ⟨c, cs, heq, hcd, hall, hz⟩ := ih (n / 10) (by omega)
      refine ⟨c, cs ++ [digitC (n % 10)], ?_, hcd, ?_, ?_⟩
      · rw [natDec_ge10 n (by omega), heq]
        rfl
      · intro x hx
        rcases List.mem_append.mp hx with hx1 | hx2
        · exact hall x hx1
        · rw [List.mem_singleton.mp hx2]
          exact digitC_isDigit _ (by omega)
      · intro hc
        have := (hz hc).2
        omega

theorem takeWhile_all_append (p : Char → Bool) (xs : List Char) (y : Char) (r : List Char)
    (hall : ∀ x ∈ xs, p x = true) (hy : p y = false) :
    (xs ++ y :: r).takeWhile p = xs ∧ (xs ++ y :: r).dropWhile p = y :: r := by
  induction xs with
  | nil => simp [List.takeWhile, List.dropWhile, hy]
  | cons a t ih =>
    have ha : p a = true := hall a (List.mem_cons_self _ _)
    have ih2 := ih (fun x hx => hall x (List.mem_cons_of_mem _ hx))
    simp only [List.cons_append, List.takeWhile_cons, List.dropWhile_cons, ha, if_true,
      ih2.1, ih2.2]
    exact ⟨by trivial, by trivial⟩

theorem digit_bne (c a : Char) (hd : isDigitC c = true) (ha : isDigitC a = false) :
    (a == c) = false := by
  apply beq_eq_false_iff_ne.mpr
  intro h
  rw [h] at ha
  rw [hd] at ha
  cases ha

theorem scanJNum_digits_comma (c : Char) (cs r : List Char)
    (hd : isDigitC c = true) (hall : ∀ x ∈ cs, isDigitC x = true)
    (hz : c = '0' → cs = []) :
    scanJNum (c :: (cs ++ ',' :: r)) = some (c :: cs, ',' :: r) := by
  have htw := takeWhile_all_append isDigitC cs ',' r hall (by decide)
  have hcm : ¬ c = '-' := by intro h; rw [h] at hd; cases hd
  unfold scanJNum
  simp only []
  split
  · rename_i heq
    split at heq
    · rename_i t ht
      rw [List.cons_eq_cons] at ht
      exact absurd ht.1 hcm
    · by_cases hc0 : c = '0'
      · rw [if_pos hc0] at heq; cases heq
      · rw [if_neg hc0, if_pos hd] at heq; cases heq
  · rename_i intPart r1 heq
    split at heq
    · rename_i t ht
      rw [List.cons_eq_cons] at ht
      exact absurd ht.1 hcm
    · by_cases hc0 : c = '0'
      · have hcs := hz hc0
        subst hcs
        rw [if_pos hc0] at heq
        simp only [List.nil_append, Option.some.injEq, Prod.mk.injEq] at heq
        obtain ⟨h1, h2⟩ := heq
        subst h1
        subst h2
        simp +decide
      · rw [if_neg hc0, if_pos hd, htw.1, htw.2] at heq
        simp only [Option.some.injEq, Prod.mk.injEq] at heq
        obtain ⟨h1, h2⟩ := heq
        subst h1
        subst h2
        simp +decide

theorem scanJNum_digits_rbrace (c : Char) (cs r : List Char)
    (hd : isDigitC c = true) (hall : ∀ x ∈ cs, isDigitC x = true)
    (hz : c = '0' → cs = []) :
    scanJNum (c :: (cs ++ rbrace :: r)) = some (c :: cs, rbrace :: r) := by
  have htw := takeWhile_all_append isDigitC cs rbrace r hall (by decide)
  have hcm : ¬ c = '-' := by intro h; rw [h] at hd; cases hd
  unfold scanJNum
  simp only []
  split
  · rename_i heq
    split at heq
    · rename_i t ht
      rw [List.cons_eq_cons] at ht
      exact absurd ht.1 hcm
    · by_cases hc0 : c = '0'
      · rw [if_pos hc0] at heq; cases heq
      · rw [if_neg hc0, if_pos hd] at heq; cases heq
  · rename_i intPart r1 heq
    split at heq
    · rename_i t ht
      rw [List.cons_eq_cons] at ht
      exact absurd ht.1 hcm
    · by_cases hc0 : c = '0'
      · have hcs := hz hc0
        subst hcs
        rw [if_pos hc0] at heq
        simp only [List.nil_append, Option.some.injEq, Prod.mk.injEq] at heq
        obtain ⟨h1, h2⟩ := heq
        subst h1
        subst h2
        simp +decide [rbrace]
      · rw [if_neg hc0, if_pos hd, htw.1, htw.2] at heq
        simp only [Option.some.injEq, Prod.mk.injEq] at heq
        obtain ⟨h1, h2⟩ := heq
        subst h1
        subst h2
        simp +decide [rbrace]

theorem strMk_toList (s : String) : String.mk s.toList = s := rfl

theorem toList_mk (L : List Char) : (String.mk L).toList = L := rfl

theorem digit_not_ws (c : Char) (hd : isDigitC c = true) : jWs c = false := by
  by_contra h
  rw [Bool.not_eq_false] at h
  simp only [jWs, Bool.or_eq_true, beq_iff_eq] at h
  rcases h with (((h | h) | h) | h) <;> (subst h; exact absurd hd (by decide))

theorem digit_ne_lit (c a : Char) (hd : isDigitC c = true) (ha : isDigitC a = false) :
    ¬ c = a := by
  intro h
  rw [h, ha] at hd
  cases hd

theorem parseJVal_strVal (f : Nat) (v : String) (rest : List Char) :
    parseJVal (f + 1) (dumpJStrL v ++ rest) = some (.jstr v, rest) := by
  show parseJVal (f + 1) (('"' :: ((v.toList.map escJChar).flatten ++ ['"'])) ++ rest)
    = some (.jstr v, rest)
  rw [parseJVal.eq_def]
  simp only [List.cons_append, List.append_assoc, List.nil_append,
    List.dropWhile_cons, show jWs '"' = false from rfl, Bool.false_eq_true, if_false,
    if_pos rfl]
  rw [scanJStr_flatten v.toList rest]
  rfl

theorem scanJConst_digits_comma (c : Char) (cs r : List Char)
    (hd : isDigitC c = true) (hall : ∀ x ∈ cs, isDigitC x = true)
    (hz : c = '0' → cs = []) :
    scanJConst (c :: (cs ++ ',' :: r)) = some (.jnum (String.mk (c :: cs)), ',' :: r) := by
  have h1 : (('t' : Char) == c) = false := digit_bne c 't' hd (by decide)
  have h2 : (('f' : Char) == c) = false := digit_bne c 'f' hd (by decide)
  have h3 : (('n' : Char) == c) = false := digit_bne c 'n' hd (by decide)
  have h4 : (('N' : Char) == c) = false := digit_bne c 'N' hd (by decide)
  have h5 : (('I' : Char) == c) = false := digit_bne c 'I' hd (by decide)
  have h6 : (('-' : Char) == c) = false := digit_bne c '-' hd (by decide)
  unfold scanJConst
  rw [show ("true".toList) = ['t', 'r', 'u', 'e'] from rfl,
    show ("false".toList) = ['f', 'a', 'l', 's', 'e'] from rfl,
    show ("null".toList) = ['n', 'u', 'l', 'l'] from rfl,
    show ("NaN".toList) = ['N', 'a', 'N'] from rfl,
    show ("Infinity".toList) = ['I', 'n', 'f', 'i', 'n', 'i', 't', 'y'] from rfl,
    show ("-Infinity".toList) = ['-', 'I', 'n', 'f', 'i', 'n', 'i', 't', 'y'] from rfl]
  simp only [List.isPrefixOf, h1, h2, h3, h4, h5, h6, Bool.false_and,
    Bool.false_eq_true, if_false]
  rw [scanJNum_digits_comma c cs r hd hall hz]
  rfl

theorem parseJVal_digits_comma (f : Nat) (c : Char) (cs r : List Char)
    (hd : isDigitC c = true) (hall : ∀ x ∈ cs, isDigitC x = true)
    (hz : c = '0' → cs = []) :
    parseJVal (f + 1) (c :: (cs ++ ',' :: r))
      = some (.jnum (String.mk (c :: cs)), ',' :: r) := by
  rw [parseJVal.eq_def]
  simp only [List.dropWhile_cons, digit_not_ws c hd, Bool.false_eq_true, if_false,
    if_neg (digit_ne_lit c '"' hd (by decide)),
    if_neg (digit_ne_lit c '{' hd (by decide)),
    if_neg (digit_ne_lit c '[' hd (by decide))]
  exact scanJConst_digits_comma c cs r hd hall hz

theorem scanJConst_digits_rbrace (c : Char) (cs r : List Char)
    (hd : isDigitC c = true) (hall : ∀ x ∈ cs, isDigitC x = true)
    (hz : c = '0' → cs = []) :
    scanJConst (c :: (cs ++ rbrace :: r)) = some (.jnum (String.mk (c :: cs)), rbrace :: r) := by
  have h1 : (('t' : Char) == c) = false := digit_bne c 't' hd (by decide)
  have h2 : (('f' : Char) == c) = false := digit_bne c 'f' hd (by decide)
  have h3 : (('n' : Char) == c) = false := digit_bne c 'n' hd (by decide)
  have h4 : (('N' : Char) == c) = false := digit_bne c 'N' hd (by decide)
  have h5 : (('I' : Char) == c) = false := digit_bne c 'I' hd (by decide)
  have h6 : (('-' : Char) == c) = false := digit_bne c '-' hd (by decide)
  unfold scanJConst
  rw [show ("true".toList) = ['t', 'r', 'u', 'e'] from rfl,
    show ("false".toList) = ['f', 'a', 'l', 's', 'e'] from rfl,
    show ("null".toList) = ['n', 'u', 'l', 'l'] from rfl,
    show ("NaN".toList) = ['N', 'a', 'N'] from rfl,
    show ("Infinity".toList) = ['I', 'n', 'f', 'i', 'n', 'i', 't', 'y'] from rfl,
    show ("-Infinity".toList) = ['-', 'I', 'n', 'f', 'i', 'n', 'i', 't', 'y'] from rfl]
  simp only [List.isPrefixOf, h1, h2, h3, h4, h5, h6, Bool.false_and,
    Bool.false_eq_true, if_false]
  rw [scanJNum_digits_rbrace c cs r hd hall hz]
  rfl

theorem parseJVal_digits_rbrace (f : Nat) (c : Char) (cs r : List Char)
    (hd : isDigitC c = true) (hall : ∀ x ∈ cs, isDigitC x = true)
    (hz : c = '0' → cs = []) :
    parseJVal (f + 1) (c :: (cs ++ rbrace :: r))
      = some (.jnum (String.mk (c :: cs)), rbrace :: r) := by
  rw [parseJVal.eq_def]
  simp only [List.dropWhile_cons, digit_not_ws c hd, Bool.false_eq_true, if_false,
    if_neg (digit_ne_lit c '"' hd (by decide)),
    if_neg (digit_ne_lit c '{' hd (by decide)),
    if_neg (digit_ne_lit c '[' hd (by decide))]
  exact scanJConst_digits_rbrace c cs r hd hall hz

theorem memb_step_str (f : Nat) (key v : String) (u : List Char) (acc : List (String × Jv)) :
    parseJMembers (f + 2) (dumpJStrL key ++ ':' :: (dumpJStrL v ++ ',' :: u)) acc
      = parseJMembers (f + 1) (u.dropWhile jWs) (acc ++ [(key, .jstr v)]) := by
  show parseJMembers (f + 2)
      (('"' :: ((key.toList.map escJChar).flatten ++ ['"'])) ++
        ':' :: (dumpJStrL v ++ ',' :: u)) acc = _
  rw [parseJMembers.eq_def]
  simp only [List.cons_append, List.append_assoc, List.nil_append]
  rw [scanJStr_flatten key.toList (':' :: (dumpJStrL v ++ ',' :: u))]
  simp only [List.dropWhile_cons, show jWs ':' = false from rfl, Bool.false_eq_true,
    if_false]
  rw [parseJVal_strVal f v (',' :: u)]
  simp only [List.dropWhile_cons, show jWs ',' = false from rfl, Bool.false_eq_true,
    if_false, strMk_toList]

theorem memb_step_num (f : Nat) (key : String) (n : Nat) (u : List Char)
    (acc : List (String × Jv)) :
    parseJMembers (f + 2) (dumpJStrL key ++ ':' :: (natDec n ++ ',' :: u)) acc
      = parseJMembers (f + 1) (u.dropWhile jWs) (acc ++ [(key, .jnum (natDecS n))]) := by
  obtain ⟨c, cs, heq, hcd, hall, hz⟩ := natDec_spec n
  show parseJMembers (f + 2)
      (('"' :: ((key.toList.map escJChar).flatten ++ ['"'])) ++
        ':' :: (natDec n ++ ',' :: u)) acc = _
  rw [parseJMembers.eq_def]
  simp only [List.cons_append, List.append_assoc, List.nil_append]
  rw [scanJStr_flatten key.toList (':' :: (natDec n ++ ',' :: u))]
  simp only [List.dropWhile_cons, show jWs ':' = false from rfl, Bool.false_eq_true,
    if_false]
  rw [heq, List.cons_append, parseJVal_digits_comma f c cs u hcd hall
    (fun h => hz h |>.1)]
  simp only [List.dropWhile_cons, show jWs ',' = false from rfl, Bool.false_eq_true,
    if_false, strMk_toList]
  rw [show String.mk (c :: cs) = natDecS n by rw [natDecS, heq]]

theorem memb_last_schema (f : Nat) (acc : List (String × Jv)) :
    parseJMembers (f + 2) (dumpJStrL "schema_version" ++ ':' :: (natDec 1 ++ [rbrace])) acc
      = some (.jobj (acc ++ [("schema_version", .jnum "1")]), []) := by
  show parseJMembers (f + 2)
      (('"' :: (("schema_version".toList.map escJChar).flatten ++ ['"'])) ++
        ':' :: (natDec 1 ++ [rbrace])) acc = _
  rw [parseJMembers.eq_def]
  simp only [List.cons_append, List.append_assoc, List.nil_append]
  rw [scanJStr_flatten "schema_version".toList (':' :: (natDec 1 ++ [rbrace]))]
  simp only [List.dropWhile_cons, show jWs ':' = false from rfl, Bool.false_eq_true,
    if_false]
  rw [show natDec 1 = ['1'] from rfl, show (['1'] ++ [rbrace] : List Char)
    = '1' :: ([] ++ rbrace :: []) from rfl,
    parseJVal_digits_rbrace f '1' [] [] (by decide) (by simp) (by intro h; cases h)]
  simp +decide [rbrace, strMk_toList]

theorem dropWhile_jWs_dump (k : String) (X : List Char) :
    List.dropWhile jWs (dumpJStrL k ++ X) = dumpJStrL k ++ X := by
  show List.dropWhile jWs (('"' :: ((k.toList.map escJChar).flatten ++ ['"'])) ++ X) = _
  rw [List.cons_append, List.dropWhile_cons]
  simp only [show jWs '"' = false from rfl, Bool.false_eq_true, if_false]
  rfl

theorem parseJVal_record (e : ConsentEntry) (f : Nat) :
    parseJVal (f + 10) (record_consent_line e).toList
      = some (.jobj (consentFields e), []) := by
  simp only [record_consent_line, toList_mk, List.append_assoc, List.cons_append]
  rw [parseJVal.eq_def]
  simp only [dumpStrField, List.append_assoc, List.cons_append, List.dropWhile_cons,
    show jWs lbrace = false from rfl, Bool.false_eq_true, if_false,
    if_neg (show ¬ lbrace = '"' from by decide), if_pos (show lbrace = '{' from by decide)]
  rw [dropWhile_jWs_dump "id" _, show (f + 9 : Nat) = f + 7 + 2 from by omega]
  split
  · rename_i r hr
    rw [show dumpJStrL "id" = ('"' :: ['i', 'd', '"'] : List Char) from rfl,
      List.cons_append] at hr
    injection hr with h1 _
    exact absurd h1 (by decide)
  rw [memb_step_str (f + 7) "id" e.id, dropWhile_jWs_dump "ts" _,
    show (f + 7 + 1 : Nat) = f + 6 + 2 from by omega,
    memb_step_str (f + 6) "ts" (utc_iso_now e.t), dropWhile_jWs_dump "actor" _,
    show (f + 6 + 1 : Nat) = f + 5 + 2 from by omega,
    memb_step_str (f + 5) "actor" e.actor, dropWhile_jWs_dump "mode" _,
    show (f + 5 + 1 : Nat) = f + 4 + 2 from by omega,
    memb_step_str (f + 4) "mode" e.mode, dropWhile_jWs_dump "rationale" _,
    show (f + 4 + 1 : Nat) = f + 3 + 2 from by omega,
    memb_step_str (f + 3) "rationale" (sanitize e.rationale), dropWhile_jWs_dump "pid" _,
    show (f + 3 + 1 : Nat) = f + 2 + 2 from by omega,
    memb_step_num (f + 2) "pid" e.pid, dropWhile_jWs_dump "thread" _,
    show (f + 2 + 1 : Nat) = f + 1 + 2 from by omega,
    memb_step_str (f + 1) "thread" e.thread, dropWhile_jWs_dump "schema_version" _,
    show (f + 1 + 1 : Nat) = f + 2 from by omega,
    memb_last_schema f]
  simp [consentFields]

theorem record_line_len (e : ConsentEntry) : 8 ≤ (record_consent_line e).toList.length := by
  simp [record_consent_line, toList_mk, dumpStrField, dumpJStrL, List.length_append]
  omega

theorem json_loads_record (e : ConsentEntry) :
    json_loads (record_consent_line e) = some (.jobj (consentFields e)) := by
  unfold json_loads
  rw [show (record_consent_line e).toList.length + 2
      = ((record_consent_line e).toList.length + 2 - 10) + 10 from by
        have := record_line_len e
        omega,
    parseJVal_record]
  simp

theorem digitC_toNat (d : Nat) (h : d < 10) : (digitC d).toNat = 48 + d := by
  interval_cases d <;> decide

theorem pad2_eq (n : Nat) (h : n < 100) : pad2 n = [digitC (n / 10), digitC (n % 10)] := by
  by_cases h10 : n < 10
  · rw [pad2, if_pos h10, natDec_lt10 n h10,
      show n / 10 = 0 from by omega, show n % 10 = n from by omega]
    rfl
  · rw [pad2, if_neg h10, natDec_ge10 n (by omega),
      natDec_lt10 (n / 10) (by omega)]
    rfl

theorem pad2_digits (n : Nat) (h : n < 100) : ∀ c ∈ pad2 n, isDigitC c = true := by
  rw [pad2_eq n h]
  intro c hc
  rcases hc with _ | ⟨_, hc⟩
  · exact digitC_isDigit _ (by omega)
  · rcases hc with _ | ⟨_, hc⟩
    · exact digitC_isDigit _ (by omega)
    · cases hc

theorem pad4_eq (n : Nat) (h : n < 10000) :
    pad4 n = [digitC (n / 1000), digitC (n / 100 % 10), digitC (n / 10 % 10),
      digitC (n % 10)] := by
  by_cases h1 : n < 10
  · rw [pad4, natDec_lt10 n h1,
      show n / 1000 = 0 from by omega, show n / 100 % 10 = 0 from by omega,
      show n / 10 % 10 = 0 from by omega, show n % 10 = n from by omega]
    rfl
  · by_cases h2 : n < 100
    · rw [pad4, natDec_ge10 n (by omega), natDec_lt10 (n / 10) (by omega),
        show n / 1000 = 0 from by omega, show n / 100 % 10 = 0 from by omega,
        show n / 10 % 10 = n / 10 from by omega]
      rfl
    · by_cases h3 : n < 1000
      · rw [pad4, natDec_ge10 n (by omega), natDec_ge10 (n / 10) (by omega),
          natDec_lt10 (n / 10 / 10) (by omega),
          show n / 10 / 10 = n / 100 from by omega,
          show n / 1000 = 0 from by omega,
          show n / 100 % 10 = n / 100 from by omega]
        rfl
      · rw [pad4, natDec_ge10 n (by omega), natDec_ge10 (n / 10) (by omega),
          natDec_ge10 (n / 10 / 10) (by omega),
          natDec_lt10 (n / 10 / 10 / 10) (by omega),
          show n / 10 / 10 / 10 = n / 1000 from by omega,
          show n / 10 / 10 % 10 = n / 100 % 10 from by omega]
        rfl

theorem pad4_digits (n : Nat) (h : n < 10000) : ∀ c ∈ pad4 n, isDigitC c = true := by
  rw [pad4_eq n h]
  intro c hc
  simp only [List.mem_cons, List.not_mem_nil, or_false] at hc
  rcases hc with hc | hc | hc | hc <;>
    (rw [hc]; exact digitC_isDigit _ (by omega))

theorem parse2_pad2 (n : Nat) (h : n < 100) (r : List Char) :
    parse2 (pad2 n ++ r) = some (n, r) := by
  rw [pad2_eq n h]
  show parse2 (digitC (n / 10) :: digitC (n % 10) :: r) = some (n, r)
  rw [parse2]
  rw [if_pos (by rw [digitC_isDigit _ (by omega), digitC_isDigit _ (by omega)]; rfl)]
  rw [digitC_toNat _ (by omega), digitC_toNat _ (by omega)]
  congr 1
  rw [Prod.mk.injEq]
  exact ⟨by omega, rfl⟩

theorem parse2_pad2_nil (n : Nat) (h : n < 100) : parse2 (pad2 n) = some (n, []) := by
  rw [show pad2 n = pad2 n ++ [] from by simp]
  exact parse2_pad2 n h []

theorem parse4_pad4 (n : Nat) (h : n < 10000) (r : List Char) :
    parse4 (pad4 n ++ r) = some (n, r) := by
  rw [pad4_eq n h]
  show parse4 (digitC (n / 1000) :: digitC (n / 100 % 10) :: digitC (n / 10 % 10) ::
    digitC (n % 10) :: r) = some (n, r)
  rw [parse4]
  rw [if_pos (by rw [digitC_isDigit _ (by omega), digitC_isDigit _ (by omega),
    digitC_isDigit _ (by omega), digitC_isDigit _ (by omega)]; rfl)]
  rw [digitC_toNat _ (by omega), digitC_toNat _ (by omega), digitC_toNat _ (by omega),
    digitC_toNat _ (by omega)]
  congr 1
  rw [Prod.mk.injEq]
  exact ⟨by omega, rfl⟩

theorem replaceZL_cons_nz (c : Char) (t : List Char) (hc : ¬ c = 'Z') :
    replaceZL (c :: t) = c :: replaceZL t := by
  rw [replaceZL.eq_def]
  split
  · rename_i heq
    cases heq
  · rename_i heq
    rw [List.cons_eq_cons] at heq
    exact absurd heq.1 hc
  · rename_i heq
    rw [List.cons_eq_cons] at heq
    rw [heq.1, heq.2]

theorem replaceZL_append (a b : List Char) :
    replaceZL (a ++ b) = replaceZL a ++ replaceZL b := by
  induction a with
  | nil => rfl
  | cons c t ih =>
    by_cases hc : c = 'Z'
    · subst hc
      simp only [List.cons_append, replaceZL, List.append_eq, ih]
    · rw [List.cons_append, replaceZL_cons_nz c _ hc, replaceZL_cons_nz c t hc,
        List.cons_append, ih]

theorem replaceZL_noz (xs : List Char) (h : ∀ c ∈ xs, ¬ c = 'Z') : replaceZL xs = xs := by
  induction xs with
  | nil => rfl
  | cons c t ih =>
    rw [replaceZL_cons_nz c t (h c (List.mem_cons_self _ _)),
      ih (fun x hx => h x (List.mem_cons_of_mem _ hx))]

theorem digit_ne_Z (c : Char) (hd : isDigitC c = true) : ¬ c = 'Z' := by
  intro h
  rw [h] at hd
  cases hd

theorem splitTz_no_pm (xs : List Char) (r : List Char)
    (hx : ∀ c ∈ xs, ¬ c = '+' ∧ ¬ c = '-') :
    splitTz (xs ++ '+' :: r) = (xs, some ('+', r)) := by
  induction xs with
  | nil =>
    rw [List.nil_append, splitTz]
    simp
  | cons c t ih =>
    rw [List.cons_append, splitTz]
    have hc := hx c (List.mem_cons_self _ _)
    rw [if_neg (by simp [hc.1, hc.2])]
    rw [ih (fun x hx2 => hx x (List.mem_cons_of_mem _ hx2))]

theorem parseIsoTimeCore_hms (h mi s : Nat) (hh : h ≤ 23) (hmi : mi ≤ 59) (hs : s ≤ 59) :
    parseIsoTimeCore (pad2 h ++ ':' :: (pad2 mi ++ ':' :: pad2 s))
      = some (h, mi, s, 0) := by
  rw [parseIsoTimeCore, parse2_pad2 h (by omega)]
  try simp +decide only []
  rw [if_neg (by omega : ¬ h > 23)]
  try simp +decide only []
  rw [parse2_pad2 mi (by omega)]
  try simp +decide only []
  rw [if_neg (by omega : ¬ mi > 59)]
  try simp +decide only []
  rw [parse2_pad2_nil s (by omega)]
  try simp +decide only []
  rw [if_neg (by omega : ¬ s > 59)]

theorem ts_ok_utc (t : Dt) (hv : dtValid t = true) : ts_ok (utc_iso_now t) = true := by
  simp only [dtValid, Bool.and_eq_true, decide_eq_true_iff] at hv
  obtain ⟨⟨⟨⟨⟨⟨⟨⟨h1, h2⟩, h3⟩, h4⟩, h5⟩, h6⟩, h7⟩, h8⟩, h9⟩ := hv
  have hdays : t.d ≤ 31 := by
    have : daysInMonth t.y t.mo ≤ 31 := by
      unfold daysInMonth
      split <;> first | omega | (split <;> omega)
    omega
  unfold ts_ok replaceZ
  have hfull : replaceZL (utc_iso_now t).toList
      = pad4 t.y ++ '-' :: (pad2 t.mo ++ '-' :: (pad2 t.d ++ 'T' :: (pad2 t.h ++ ':' ::
        (pad2 t.mi ++ ':' :: (pad2 t.s ++ '+' :: '0' :: '0' :: ':' :: '0' :: '0' :: []))))) := by
    rw [show (utc_iso_now t).toList = pad4 t.y ++ '-' :: (pad2 t.mo ++ '-' ::
        (pad2 t.d ++ 'T' :: (pad2 t.h ++ ':' :: (pad2 t.mi ++ ':' :: (pad2 t.s ++ ['Z'])))))
      from by simp [utc_iso_now, toList_mk, List.append_assoc, List.cons_append]]
    rw [replaceZL_append,
      replaceZL_noz (pad4 t.y) (fun c hc => digit_ne_Z c (pad4_digits t.y (by omega) c hc)),
      replaceZL_cons_nz '-' _ (by decide), replaceZL_append,
      replaceZL_noz (pad2 t.mo) (fun c hc => digit_ne_Z c (pad2_digits t.mo (by omega) c hc)),
      replaceZL_cons_nz '-' _ (by decide), replaceZL_append,
      replaceZL_noz (pad2 t.d) (fun c hc => digit_ne_Z c (pad2_digits t.d (by omega) c hc)),
      replaceZL_cons_nz 'T' _ (by decide), replaceZL_append,
      replaceZL_noz (pad2 t.h) (fun c hc => digit_ne_Z c (pad2_digits t.h (by omega) c hc)),
      replaceZL_cons_nz ':' _ (by decide), replaceZL_append,
      replaceZL_noz (pad2 t.mi) (fun c hc => digit_ne_Z c (pad2_digits t.mi (by omega) c hc)),
      replaceZL_cons_nz ':' _ (by decide), replaceZL_append,
      replaceZL_noz (pad2 t.s) (fun c hc => digit_ne_Z c (pad2_digits t.s (by omega) c hc))]
    rfl
  unfold pyFromIso
  rw [toList_mk, hfull]
  rw [show pad4 t.y ++ '-' :: (pad2 t.mo ++ '-' :: (pad2 t.d ++ 'T' :: (pad2 t.h ++ ':' ::
        (pad2 t.mi ++ ':' :: (pad2 t.s ++ '+' :: '0' :: '0' :: ':' :: '0' :: '0' :: [])))))
      = (pad4 t.y ++ '-' :: (pad2 t.mo ++ '-' :: pad2 t.d)) ++ ('T' :: (pad2 t.h ++ ':' ::
        (pad2 t.mi ++ ':' :: (pad2 t.s ++ '+' :: '0' :: '0' :: ':' :: '0' :: '0' :: []))))
      from by simp [List.append_assoc, List.cons_append]]
  have hdl : (pad4 t.y ++ '-' :: (pad2 t.mo ++ '-' :: pad2 t.d)).length = 10 := by
    rw [pad4_eq t.y (by omega), pad2_eq t.mo (by omega), pad2_eq t.d (by omega)]
    rfl
  rw [← hdl]
  simp only [List.take_left, List.drop_left]
  rw [show parseIsoDate (pad4 t.y ++ '-' :: (pad2 t.mo ++ '-' :: pad2 t.d))
      = some (t.y, t.mo, t.d) from by
    unfold parseIsoDate
    rw [parse4_pad4 t.y (by omega)]
    try simp +decide only []
    rw [parse2_pad2 t.mo (by omega)]
    try simp +decide only []
    rw [parse2_pad2_nil t.d (by omega)]
    try simp +decide only []
    rw [if_pos (by
      simp only [Bool.and_eq_true, decide_eq_true_iff]
      exact ⟨⟨⟨⟨h1, h3⟩, h4⟩, h5⟩, h6⟩)]]
  try simp +decide only []
  rw [show pad2 t.h ++ ':' :: (pad2 t.mi ++ ':' :: (pad2 t.s ++ '+' :: '0' :: '0' :: ':'
        :: '0' :: '0' :: []))
      = (pad2 t.h ++ ':' :: (pad2 t.mi ++ ':' :: pad2 t.s)) ++ '+' ::
        ('0' :: '0' :: ':' :: '0' :: '0' :: [])
      from by simp [List.append_assoc, List.cons_append]]
  have hXS : ∀ c ∈ (pad2 t.h ++ ':' :: (pad2 t.mi ++ ':' :: pad2 t.s)),
      ¬ c = '+' ∧ ¬ c = '-' := by
    intro c hc
    simp only [List.mem_append, List.mem_cons] at hc
    rcases hc with hc | hc | hc | hc | hc
    · have hd := pad2_digits t.h (by omega) c hc
      exact ⟨digit_ne_lit c '+' hd (by decide), digit_ne_lit c '-' hd (by decide)⟩
    · rw [hc]; exact ⟨by decide, by decide⟩
    · have hd := pad2_digits t.mi (by omega) c hc
      exact ⟨digit_ne_lit c '+' hd (by decide), digit_ne_lit c '-' hd (by decide)⟩
    · rw [hc]; exact ⟨by decide, by decide⟩
    · have hd := pad2_digits t.s (by omega) c hc
      exact ⟨digit_ne_lit c '+' hd (by decide), digit_ne_lit c '-' hd (by decide)⟩
  rw [splitTz_no_pm _ _ hXS]
  try simp +decide only []
  rw [parseIsoTimeCore_hms t.h t.mi t.s h7 h8 h9]
  try simp +decide only []
  rw [show parseIsoTimeCore ('0' :: '0' :: ':' :: '0' :: '0' :: [])
    = some (0, 0, 0, 0) from by decide]
  try simp +decide only []
  rfl

theorem stripL_all_ws (cs : List Char) (h : stripL cs = []) : ∀ c ∈ cs, reWs c = true := by
  unfold stripL at h
  have h2 : List.dropWhile reWs ((List.dropWhile reWs cs).reverse) = [] := by
    rcases he : List.dropWhile reWs ((List.dropWhile reWs cs).reverse) with _ | ⟨a, t⟩
    · rfl
    · rw [he] at h
      cases h2 : (a :: t).reverse with
      | nil => exact absurd h2 (by simp)
      | cons b u => rw [h2] at h; cases h
  have h3 : ∀ c ∈ (List.dropWhile reWs cs).reverse, reWs c = true :=
    fun c hc => by
      have := List.dropWhile_eq_nil_iff.mp h2
      exact this c hc
  intro c hc
  rw [← List.takeWhile_append_dropWhile (p := reWs) (l := cs)] at hc
  rcases List.mem_append.mp hc with hc1 | hc2
  · exact List.mem_takeWhile_imp hc1
  · exact h3 c (List.mem_reverse.mpr hc2)

theorem record_line_strip (e : ConsentEntry) : ¬ pyStrip (record_consent_line e) = "" := by
  intro h
  have hl : stripL (record_consent_line e).toList = [] := by
    have := congrArg String.toList h
    rw [pyStrip] at this
    exact this
  have hmem : lbrace ∈ (record_consent_line e).toList := by
    rw [show (record_consent_line e).toList = lbrace :: ((record_consent_line e).toList.tail)
      from by simp [record_consent_line, toList_mk]]
    exact List.mem_cons_self _ _
  have := stripL_all_ws _ hl lbrace hmem
  exact absurd this (by decide)

theorem line_errors_record (i : Nat) (e : ConsentEntry) (hv : dtValid e.t = true) :
    line_errors i (record_consent_line e) = [] := by
  unfold line_errors
  rw [if_neg (record_line_strip e), json_loads_record e]
  have hts := ts_ok_utc e.t hv
  simp +decide [consentFields, jGet, req_keys, ts_ok_jv, hts]

theorem verify_ledger_aux_record (entries : List ConsentEntry)
    (hv : ∀ e ∈ entries, dtValid e.t = true) :
    ∀ i, verify_ledger_aux i (entries.map record_consent_line) = [] := by
  induction entries with
  | nil => intro i; rfl
  | cons e t ih =>
    intro i
    rw [List.map_cons, verify_ledger_aux,
      line_errors_record i e (hv e (List.mem_cons_self _ _)),
      ih (fun x hx => hv x (List.mem_cons_of_mem _ hx)) (i + 1)]
    rfl

theorem line_corrupt_errors (i : Nat) (l : String) (hc : line_corrupt l = true) :
    ¬ line_errors i l = [] := by
  intro hnil
  unfold line_corrupt at hc
  unfold line_errors at hnil
  by_cases hb : pyStrip l = ""
  · rw [if_pos hb] at hc; cases hc
  · rw [if_neg hb] at hc hnil
    rcases hj : json_loads l with _ | v
    · rw [hj] at hnil; cases hnil
    · rw [hj] at hc hnil
      cases v with
      | jobj fields =>
        simp only [List.append_eq_nil] at hnil
        rw [Bool.or_eq_true] at hc
        rcases hc with hc | hc
        · rw [List.any_eq_true] at hc
          obtain ⟨k, hk, hmiss⟩ := hc
          have := List.filterMap_eq_nil_iff.mp hnil.1 k hk
          rw [hmiss] at this
          cases this
        · rcases hg : jGet fields "ts" with _ | tsv
          · rw [hg] at hc; cases hc
          · rw [hg] at hc
            simp only [hg] at hnil
            rw [Bool.not_eq_true'] at hc
            have h2 := hnil.2
            rw [hc] at h2
            simp at h2
      | jnull => simp at hnil
      | jbool b => exact absurd hnil (by simp)
      | jnum s => exact absurd hnil (by simp)
      | jstr s => exact absurd hnil (by simp)
      | jarr xs => exact absurd hnil (by simp)

theorem verify_ledger_aux_count (lines : List String) :
    ∀ i, lines.countP line_corrupt ≤ (verify_ledger_aux i lines).length := by
  induction lines with
  | nil => intro i; simp [verify_ledger_aux]
  | cons l t ih =>
    intro i
    rw [verify_ledger_aux, List.length_append, List.countP_cons]
    have hrec := ih (i + 1)
    by_cases hc : line_corrupt l = true
    · have h1 : 1 ≤ (line_errors i l).length := by
        rcases he : line_errors i l with _ | ⟨a, u⟩
        · exact absurd he (line_corrupt_errors i l hc)
        · simp
      rw [if_pos hc]
      omega
    · rw [Bool.not_eq_true] at hc
      rw [if_neg (by simp [hc])]
      omega

/-- Claim C7: a ledger whose lines were all produced by record_consent passes
verify_ledger with (True, []); a ledger holding at least one corrupted line
(invalid JSON, non-object, missing required field, or unparseable timestamp)
yields is_valid = False with a non-empty error list whose length is at least
the number of corrupt lines — defects are collected over all lines, not cut
off at the first. -/
theorem c7_verify_ledger (entries : List ConsentEntry) (lines : List String)
    (hv : ∀ e ∈ entries, dtValid e.t = true)
    (hcor : ∃ l ∈ lines, line_corrupt l = true) :
    verify_ledger (entries.map record_consent_line) = (true, []) ∧
    (verify_ledger lines).1 = false ∧
    ¬ (verify_ledger lines).2 = [] ∧
    lines.countP line_corrupt ≤ (verify_ledger lines).2.length := by
  have hpart1 : verify_ledger (entries.map record_consent_line) = (true, []) := by
    unfold verify_ledger
    rw [verify_ledger_aux_record entries hv 1]
    rfl
  obtain ⟨l, hl, hc⟩ := hcor
  have hcount : 0 < lines.countP line_corrupt := List.countP_pos_iff.mpr ⟨l, hl, hc⟩
  have hlen := verify_ledger_aux_count lines 1
  have hne : ¬ verify_ledger_aux 1 lines = [] := by
    intro h
    rw [h] at hlen
    simp only [List.length_nil] at hlen
    omega
  refine ⟨hpart1, ?_, ?_, ?_⟩
  · show (verify_ledger_aux 1 lines).isEmpty = false
    rcases he : verify_ledger_aux 1 lines with _ | ⟨a, u⟩
    · exact absurd he hne
    · rfl
  · exact hne
  · exact hlen

/-- Witness for c7_verify_ledger at a concrete input. -/
theorem c7_verify_ledger_witness :
    (∀ e ∈ [c7_entry], dtValid e.t = true) ∧ (∃ l ∈ c7_lines, line_corrupt l = true) ∧
    (verify_ledger ([c7_entry].map record_consent_line) = (true, []) ∧
     (verify_ledger c7_lines).1 = false ∧
     ¬ (verify_ledger c7_lines).2 = [] ∧
     c7_lines.countP line_corrupt ≤ (verify_ledger c7_lines).2.length) :=
  ⟨by decide, ⟨"oops", by decide, by decide⟩,
   c7_verify_ledger [c7_entry] c7_lines (by decide) ⟨"oops", by decide, by decide⟩⟩

theorem NS_append (A B : List Char) (hA : NS A) (hB : NS B) : NS (A ++ B) := by
  intro a c b heq hbad
  have h2 := List.append_eq_append_iff.mp heq.symm
  rcases h2 with ⟨w, hw1, hw2⟩ | ⟨w, hw1, hw2⟩
  · cases w with
    | nil =>
      obtain ⟨a1, q, a2, hs, _, _⟩ := hB [] c b (by rw [List.nil_append] at hw2; exact hw2.symm) hbad
      exact absurd hs.symm (by simp)
    | cons x w2 =>
      rw [List.cons_append, List.cons_eq_cons] at hw2
      obtain ⟨hx, _⟩ := hw2
      subst hx
      exact hA a c w2 hw1 hbad
  · obtain ⟨a1, q, a2, hs, hq, hge⟩ := hB w c b hw2 hbad
    exact ⟨A ++ a1, q, a2, by rw [hw1, hs, List.append_assoc], hq, hge⟩

/-- A text without marker-start characters satisfies NS trivially. -/
theorem NS_of_no_bad (u : List Char) (h : ∀ c ∈ u, badMark c = false) : NS u := by
  intro a c b heq hbad
  have hc : c ∈ u := by rw [heq]; exact List.mem_append.mpr (.inr (List.mem_cons_self _ _))
  rw [h c hc] at hbad
  cases hbad

/-- A quote followed by printable characters satisfies NS: the quote is the
non-whitespace witness for every marker character inside. -/
theorem NS_quote (u : List Char) (h : ∀ x ∈ u, 32 ≤ x.toNat) : NS ('"' :: u) := by
  intro a c b heq hbad
  cases a with
  | nil =>
    rw [List.nil_append, List.cons_eq_cons] at heq
    rw [← heq.1] at hbad
    cases hbad
  | cons x a2 =>
    rw [List.cons_append, List.cons_eq_cons] at heq
    refine ⟨[], x, a2, rfl, by rw [← heq.1]; rfl, ?_⟩
    intro y hy
    apply h
    rw [heq.2]
    exact List.mem_append.mpr (.inl hy)

/-- JSON whitespace characters are not marker starts. -/
theorem ws_not_bad (c : Char) (h : jWs c = true) : badMark c = false := by
  simp only [jWs, Bool.or_eq_true, beq_iff_eq] at h
  rcases h with (((h | h) | h) | h) <;> (rw [h]; rfl)

/-- Decimal digits are not marker starts. -/
theorem digit_not_bad (c : Char) (h : isDigitC c = true) : badMark c = false := by
  rw [Bool.eq_false_iff]
  intro hb
  simp only [badMark, Bool.or_eq_true, beq_iff_eq] at hb
  rcases hb with (((hb | hb) | hb) | hb) <;> (rw [hb] at h; cases h)

/-- Characters accepted by hexVal are printable. -/
theorem hex_ge32 (c : Char) (a : Nat) (h : hexVal c = some a) : 32 ≤ c.toNat := by
  unfold hexVal at h
  split at h
  · rename_i hc
    rw [Bool.and_eq_true, decide_eq_true_iff, decide_eq_true_iff] at hc
    have h2 : (48 : Nat) ≤ c.toNat := Char.le_def.mp hc.1
    omega
  · split at h
    · rename_i hc
      rw [Bool.and_eq_true, decide_eq_true_iff, decide_eq_true_iff] at hc
      have h2 : (97 : Nat) ≤ c.toNat := Char.le_def.mp hc.1
      omega
    · split at h
      · rename_i hc
        rw [Bool.and_eq_true, decide_eq_true_iff, decide_eq_true_iff] at hc
        have h2 : (65 : Nat) ≤ c.toNat := Char.le_def.mp hc.1
        omega
      · cases h

/-- Printability is closed under concatenation. -/
theorem ge32_append (pfx u : List Char) (hp : ∀ x ∈ pfx, 32 ≤ x.toNat)
    (hu : ∀ x ∈ u, 32 ≤ x.toNat) : ∀ x ∈ pfx ++ u, 32 ≤ x.toNat :=
  fun x hx => (List.mem_append.mp hx).elim (hp x) (hu x)

theorem esc_step_span (m : Nat)
    (ih : ∀ (cs s rest : List Char), cs.length ≤ m → scanJStr cs = some (s, rest) →
      ∃ u, cs = u ++ rest ∧ ∀ x ∈ u, 32 ≤ x.toNat)
    (e d : Char) (t2 s rest : List Char) (hlen2 : t2.length ≤ m)
    (hge : 32 ≤ e.toNat)
    (h : (scanJStr t2).map (fun p => (d :: p.1, p.2)) = some (s, rest)) :
    ∃ u, '\\' :: e :: t2 = u ++ rest ∧ ∀ x ∈ u, 32 ≤ x.toNat := by
  obtain ⟨⟨s2, r2⟩, hsc, hmap⟩ := Option.map_eq_some'.mp h
  obtain ⟨u2, hu2, hg2⟩ := ih t2 s2 r2 hlen2 hsc
  rw [Prod.mk.injEq] at hmap
  refine ⟨'\\' :: e :: u2, ?_, ?_⟩
  · rw [← hmap.2, hu2]
    rfl
  · intro x hx
    rcases List.mem_cons.mp hx with hx | hx
    · rw [hx]; decide
    · rcases List.mem_cons.mp hx with hx | hx
      · rw [hx]; exact hge
      · exact hg2 x hx

/-- The characters consumed by the JSON string scanner are all printable
(raw control characters are rejected, escape sequences are printable). -/
theorem scanJStr_span : ∀ (n : Nat) (cs : List Char) (s rest : List Char),
    cs.length ≤ n → scanJStr cs = some (s, rest) →
    ∃ u, cs = u ++ rest ∧ ∀ x ∈ u, 32 ≤ x.toNat := by
  intro n
  induction n with
  | zero =>
    intro cs s rest hlen h
    have hnil : cs = [] := List.length_eq_zero.mp (by omega)
    rw [hnil] at h
    cases h
  | succ m ih =>
    intro cs s rest hlen h
    cases cs with
    | nil => cases h
    | cons c t =>
      have hlen1 : t.length ≤ m := by
        simp only [List.length_cons] at hlen
        omega
      rw [scanJStr.eq_def] at h
      split at h
      · cases h
      rename_i c2 t2x heq2
      injection heq2 with he1 he2
      subst he1
      subst he2
      by_cases hc1 : c = '"'
      · rw [if_pos hc1] at h
        injection h with h2
        rw [Prod.mk.injEq] at h2
        refine ⟨['"'], ?_, by decide⟩
        rw [hc1, ← h2.2]
        rfl
      · rw [if_neg hc1] at h
        by_cases hc2 : c = '\\'
        · rw [if_pos hc2] at h
          cases t with
          | nil => simp at h
          | cons e t2 =>
            have hlen2 : t2.length ≤ m := by
              simp only [List.length_cons] at hlen
              omega
            simp only [] at h
            subst hc2
            by_cases he1 : e = '"'
            · rw [if_pos he1] at h
              subst he1
              exact esc_step_span m ih '"' '"' t2 s rest hlen2 (by decide) h
            · rw [if_neg he1] at h
              by_cases he2 : e = '\\'
              · rw [if_pos he2] at h
                subst he2
                exact esc_step_span m ih '\\' '\\' t2 s rest hlen2 (by decide) h
              · rw [if_neg he2] at h
                by_cases he3 : e = '/'
                · rw [if_pos he3] at h
                  subst he3
                  exact esc_step_span m ih '/' '/' t2 s rest hlen2 (by decide) h
                · rw [if_neg he3] at h
                  by_cases he4 : e = 'b'
                  · rw [if_pos he4] at h
                    subst he4
                    exact esc_step_span m ih 'b' '\x08' t2 s rest hlen2 (by decide) h
                  · rw [if_neg he4] at h
                    by_cases he5 : e = 'f'
                    · rw [if_pos he5] at h
                      subst he5
                      exact esc_step_span m ih 'f' '\x0c' t2 s rest hlen2 (by decide) h
                    · rw [if_neg he5] at h
                      by_cases he6 : e = 'n'
                      · rw [if_pos he6] at h
                        subst he6
                        exact esc_step_span m ih 'n' '\n' t2 s rest hlen2 (by decide) h
                      · rw [if_neg he6] at h
                        by_cases he7 : e = 'r'
                        · rw [if_pos he7] at h
                          subst he7
                          exact esc_step_span m ih 'r' '\r' t2 s rest hlen2 (by decide) h
                        · rw [if_neg he7] at h
                          by_cases he8 : e = 't'
                          · rw [if_pos he8] at h
                            subst he8
                            exact esc_step_span m ih 't' '\t' t2 s rest hlen2 (by decide) h
                          · rw [if_neg he8] at h
                            by_cases he9 : e = 'u'
                            · rw [if_pos he9] at h
                              subst he9
                              cases t2 with
                              | nil => simp at h
                              | cons h1 t3 =>
                                cases t3 with
                                | nil => simp at h
                                | cons h2c t4 =>
                                  cases t4 with
                                  | nil => simp at h
                                  | cons h3 t5 =>
                                    cases t5 with
                                    | nil => simp at h
                                    | cons h4 t6 =>
                                      simp only [] at h
                                      rcases hh1 : hexVal h1 with _ | a1 <;> rw [hh1] at h
                                      · cases h
                                      rcases hh2 : hexVal h2c with _ | a2 <;> rw [hh2] at h
                                      · cases h
                                      rcases hh3 : hexVal h3 with _ | a3 <;> rw [hh3] at h
                                      · cases h
                                      rcases hh4 : hexVal h4 with _ | a4 <;> rw [hh4] at h
                                      · cases h
                                      simp only [] at h
                                      obtain ⟨⟨s2, r2⟩, hsc, hmap⟩ :=
                                        Option.map_eq_some'.mp h
                                      have hlen3 : t6.length ≤ m := by
                                        simp only [List.length_cons] at hlen
                                        omega
                                      obtain ⟨u2, hu2, hg2⟩ := ih t6 s2 r2 hlen3 hsc
                                      rw [Prod.mk.injEq] at hmap
                                      refine ⟨'\\' :: 'u' :: h1 :: h2c :: h3 :: h4 :: u2,
                                        ?_, ?_⟩
                                      · rw [← hmap.2, hu2]
                                        rfl
                                      · intro x hx
                                        rcases List.mem_cons.mp hx with hx | hx
                                        · rw [hx]; decide
                                        · rcases List.mem_cons.mp hx with hx | hx
                                          · rw [hx]; decide
                                          · rcases List.mem_cons.mp hx with hx | hx
                                            · rw [hx]; exact hex_ge32 h1 a1 hh1
                                            · rcases List.mem_cons.mp hx with hx | hx
                                              · rw [hx]; exact hex_ge32 h2c a2 hh2
                                              · rcases List.mem_cons.mp hx with hx | hx
                                                · rw [hx]; exact hex_ge32 h3 a3 hh3
                                                · rcases List.mem_cons.mp hx with hx | hx
                                                  · rw [hx]; exact hex_ge32 h4 a4 hh4
                                                  · exact hg2 x hx
                            · rw [if_neg he9] at h
                              cases h
        · rw [if_neg hc2] at h
          by_cases hc3 : c.toNat < 0x20
          · rw [if_pos hc3] at h
            cases h
          · rw [if_neg hc3] at h
            obtain ⟨⟨s2, r2⟩, hsc, hmap⟩ := Option.map_eq_some'.mp h
            obtain ⟨u2, hu2, hg2⟩ := ih t s2 r2 hlen1 hsc
            rw [Prod.mk.injEq] at hmap
            refine ⟨c :: u2, ?_, ?_⟩
            · rw [← hmap.2, hu2]
              rfl
            · intro x hx
              rcases List.mem_cons.mp hx with hx | hx
              · rw [hx]; omega
              · exact hg2 x hx

/-- The integer-part scanner consumes only digits. -/
theorem num_core_span (body ip r : List Char)
    (h : (match body with
      | [] => none
      | c :: t =>
        if c = '0' then some ([c], t)
        else if isDigitC c then some (c :: t.takeWhile isDigitC, t.dropWhile isDigitC)
        else none) = some (ip, r)) :
    body = ip ++ r ∧ ∀ x ∈ ip, badMark x = false := by
  split at h
  · cases h
  rename_i c t
  by_cases hc0 : c = '0'
  · rw [if_pos hc0] at h
    injection h with h2
    rw [Prod.mk.injEq] at h2
    refine ⟨by rw [← h2.1, ← h2.2]; rfl, ?_⟩
    intro x hx
    rw [← h2.1] at hx
    rw [List.mem_singleton.mp hx, hc0]
    rfl
  · rw [if_neg hc0] at h
    split at h
    · rename_i hd
      injection h with h2
      rw [Prod.mk.injEq] at h2
      refine ⟨?_, ?_⟩
      · rw [← h2.1, ← h2.2, List.cons_append, List.takeWhile_append_dropWhile]
      · intro x hx
        rw [← h2.1] at hx
        rcases List.mem_cons.mp hx with hx | hx
        · rw [hx]; exact digit_not_bad c hd
        · exact digit_not_bad x (List.mem_takeWhile_imp hx)
    · cases h

/-- The exponent extension consumes only e/E, sign and digits. -/
theorem num_tail_span (lex1 r2 lex rest : List Char)
    (h : (match r2 with
      | e :: rest2 =>
        if (decide (e = 'e') || decide (e = 'E')) = true then
          match rest2 with
          | s :: d :: t =>
            if ((decide (s = '+') || decide (s = '-')) && isDigitC d) = true then
              some (lex1 ++ e :: s :: d :: List.takeWhile isDigitC t,
                List.dropWhile isDigitC t)
            else
              if (isDigitC s && isDigitC d) = true then
                some (lex1 ++ e :: s :: d :: List.takeWhile isDigitC t,
                  List.dropWhile isDigitC t)
              else
                if isDigitC s = true then some (lex1 ++ [e, s], d :: t)
                else some (lex1, r2)
          | [s] =>
            if isDigitC s = true then some (lex1 ++ [e, s], []) else some (lex1, r2)
          | [] => some (lex1, r2)
        else some (lex1, r2)
      | [] => some (lex1, [])) = some (lex, rest)) :
    ∃ q2, r2 = q2 ++ rest ∧ ∀ x ∈ q2, badMark x = false := by
  have hmark : ∀ (e s d : Char) (t : List Char),
      (decide (e = 'e') || decide (e = 'E')) = true →
      ((decide (s = '+') || decide (s = '-')) = true ∨ isDigitC s = true) →
      isDigitC d = true →
      ∀ x ∈ e :: s :: d :: List.takeWhile isDigitC t, badMark x = false := by
    intro e s d t hee hss hdd x hx
    rcases List.mem_cons.mp hx with hx | hx
    · rw [Bool.or_eq_true, decide_eq_true_iff, decide_eq_true_iff] at hee
      rcases hee with hee | hee <;> (rw [hx, hee]; rfl)
    · rcases List.mem_cons.mp hx with hx | hx
      · rcases hss with hss | hss
        · rw [Bool.or_eq_true, decide_eq_true_iff, decide_eq_true_iff] at hss
          rcases hss with hss | hss <;> (rw [hx, hss]; rfl)
        · rw [hx]; exact digit_not_bad s hss
      · rcases List.mem_cons.mp hx with hx | hx
        · rw [hx]; exact digit_not_bad d hdd
        · exact digit_not_bad x (List.mem_takeWhile_imp hx)
  have hes : ∀ (e s : Char), (decide (e = 'e') || decide (e = 'E')) = true →
      isDigitC s = true → ∀ x ∈ [e, s], badMark x = false := by
    intro e s hee hs x hx
    rcases List.mem_cons.mp hx with hx | hx
    · rw [Bool.or_eq_true, decide_eq_true_iff, decide_eq_true_iff] at hee
      rcases hee with hee | hee <;> (rw [hx, hee]; rfl)
    · rw [List.mem_singleton.mp hx]
      exact digit_not_bad s hs
  split at h
  · rename_i e rest2
    by_cases hee : (decide (e = 'e') || decide (e = 'E')) = true
    · rw [if_pos hee] at h
      split at h
      · rename_i s d t
        by_cases hsd : ((decide (s = '+') || decide (s = '-')) && isDigitC d) = true
        · rw [if_pos hsd] at h
          injection h with h2
          rw [Prod.mk.injEq] at h2
          rw [Bool.and_eq_true] at hsd
          refine ⟨e :: s :: d :: List.takeWhile isDigitC t, ?_, ?_⟩
          · rw [← h2.2]
            simp [List.takeWhile_append_dropWhile]
          · exact hmark e s d t hee (Or.inl hsd.1) hsd.2
        · rw [if_neg hsd] at h
          by_cases hs2 : (isDigitC s && isDigitC d) = true
          · rw [if_pos hs2] at h
            injection h with h2
            rw [Prod.mk.injEq] at h2
            rw [Bool.and_eq_true] at hs2
            refine ⟨e :: s :: d :: List.takeWhile isDigitC t, ?_, ?_⟩
            · rw [← h2.2]
              simp [List.takeWhile_append_dropWhile]
            · exact hmark e s d t hee (Or.inr hs2.1) hs2.2
          · rw [if_neg hs2] at h
            by_cases hs3 : isDigitC s = true
            · rw [if_pos hs3] at h
              injection h with h2
              rw [Prod.mk.injEq] at h2
              refine ⟨[e, s], ?_, hes e s hee hs3⟩
              rw [← h2.2]
              rfl
            · rw [if_neg hs3] at h
              injection h with h2
              rw [Prod.mk.injEq] at h2
              exact ⟨[], by rw [← h2.2]; rfl, by simp⟩
      · rename_i s
        by_cases hs2 : isDigitC s = true
        · rw [if_pos hs2] at h
          injection h with h2
          rw [Prod.mk.injEq] at h2
          refine ⟨[e, s], ?_, hes e s hee hs2⟩
          rw [← h2.2]
          rfl
        · rw [if_neg hs2] at h
          injection h with h2
          rw [Prod.mk.injEq] at h2
          exact ⟨[], by rw [← h2.2]; rfl, by simp⟩
      · injection h with h2
        rw [Prod.mk.injEq] at h2
        exact ⟨[], by rw [← h2.2]; rfl, by simp⟩
    · rw [if_neg hee] at h
      injection h with h2
      rw [Prod.mk.injEq] at h2
      exact ⟨[], by rw [← h2.2]; rfl, by simp⟩
  · injection h with h2
    rw [Prod.mk.injEq] at h2
    exact ⟨[], by rw [← h2.2]; rfl, by simp⟩

/-- The fraction extension consumes only a dot and digits. -/
theorem num_frac_span (ip r1 lex1 r2 : List Char)
    (h : (match r1 with
      | '.' :: d :: t =>
        if isDigitC d = true then
          (ip ++ '.' :: d :: List.takeWhile isDigitC t, List.dropWhile isDigitC t)
        else (ip, r1)
      | _x => (ip, r1)) = (lex1, r2)) :
    ∃ q, lex1 = ip ++ q ∧ r1 = q ++ r2 ∧ ∀ x ∈ q, badMark x = false := by
  split at h
  · rename_i d t
    by_cases hd : isDigitC d = true
    · rw [if_pos hd] at h
      rw [Prod.mk.injEq] at h
      refine ⟨'.' :: d :: List.takeWhile isDigitC t, h.1.symm, ?_, ?_⟩
      · rw [← h.2, List.cons_append, List.cons_append, List.takeWhile_append_dropWhile]
      · intro x hx
        rcases List.mem_cons.mp hx with hx | hx
        · rw [hx]; rfl
        · rcases List.mem_cons.mp hx with hx | hx
          · rw [hx]; exact digit_not_bad d hd
          · exact digit_not_bad x (List.mem_takeWhile_imp hx)
    · rw [if_neg hd] at h
      rw [Prod.mk.injEq] at h
      exact ⟨[], by rw [← h.1]; simp, by rw [← h.2]; simp, by simp⟩
  · rw [Prod.mk.injEq] at h
    exact ⟨[], by rw [← h.1]; simp, by rw [← h.2]; simp, by simp⟩

/-- The number scanner consumes no marker-start character. -/
theorem scanJNum_span (cs lex rest : List Char) (h : scanJNum cs = some (lex, rest)) :
    ∃ u, cs = u ++ rest ∧ ∀ x ∈ u, badMark x = false := by
  unfold scanJNum at h
  simp only [] at h
  split at h
  · cases h
  rename_i ip r1 hw
  have hcore : cs = ip ++ r1 ∧ ∀ x ∈ ip, badMark x = false := by
    split at hw
    · rename_i t
      obtain ⟨⟨ip0, r0⟩, hc0, hmap⟩ := Option.map_eq_some'.mp hw
      obtain ⟨hb, hsafe⟩ := num_core_span t ip0 r0 hc0
      rw [Prod.mk.injEq] at hmap
      refine ⟨?_, ?_⟩
      · rw [← hmap.1, ← hmap.2, hb]
        rfl
      · intro x hx
        rw [← hmap.1] at hx
        rcases List.mem_cons.mp hx with hx | hx
        · rw [hx]; rfl
        · exact hsafe x hx
    · obtain ⟨hb, hsafe⟩ := num_core_span cs ip r1 hw
      exact ⟨hb, hsafe⟩
  rcases hfr : (match r1 with
      | '.' :: d :: t =>
        if isDigitC d = true then
          (ip ++ '.' :: d :: List.takeWhile isDigitC t, List.dropWhile isDigitC t)
        else (ip, r1)
      | x => (ip, r1)) with ⟨lex1, r2⟩
  rw [hfr] at h
  simp only [] at h
  obtain ⟨q, hq1, hq2, hq3⟩ := num_frac_span ip r1 lex1 r2 hfr
  obtain ⟨q2, hr2, hsq2⟩ := num_tail_span lex1 r2 lex rest h
  refine ⟨ip ++ q ++ q2, ?_, ?_⟩
  · rw [hcore.1, hq2, hr2]
    simp [List.append_assoc]
  · intro x hx
    rcases List.mem_append.mp hx with hx | hx
    · rcases List.mem_append.mp hx with hx | hx
      · exact hcore.2 x hx
      · exact hq3 x hx
    · exact hsq2 x hx

/-- A literal-constant match consumes exactly the literal. -/
theorem const_prefix_span (lit cs rest : List Char) (n : Nat)
    (hpre : lit.isPrefixOf cs = true) (hn : lit.length = n)
    (hrest : cs.drop n = rest) (hsafe : ∀ x ∈ lit, badMark x = false) :
    ∃ u, cs = u ++ rest ∧ ∀ x ∈ u, badMark x = false := by
  obtain ⟨t, ht⟩ := List.isPrefixOf_iff_prefix.mp hpre
  refine ⟨lit, ?_, hsafe⟩
  rw [← hrest, ← ht, ← hn, List.drop_left]

/-- The constant scanner consumes no marker-start character. -/
theorem scanJConst_span (cs : List Char) (v : Jv) (rest : List Char)
    (h : scanJConst cs = some (v, rest)) :
    ∃ u, cs = u ++ rest ∧ ∀ x ∈ u, badMark x = false := by
  unfold scanJConst at h
  by_cases h1 : ("true".toList).isPrefixOf cs = true
  · rw [if_pos h1] at h
    injection h with h2
    rw [Prod.mk.injEq] at h2
    exact const_prefix_span "true".toList cs rest 4 h1 (by decide) h2.2 (by decide)
  · rw [if_neg h1] at h
    by_cases h2p : ("false".toList).isPrefixOf cs = true
    · rw [if_pos h2p] at h
      injection h with h2
      rw [Prod.mk.injEq] at h2
      exact const_prefix_span "false".toList cs rest 5 h2p (by decide) h2.2 (by decide)
    · rw [if_neg h2p] at h
      by_cases h3p : ("null".toList).isPrefixOf cs = true
      · rw [if_pos h3p] at h
        injection h with h2
        rw [Prod.mk.injEq] at h2
        exact const_prefix_span "null".toList cs rest 4 h3p (by decide) h2.2 (by decide)
      · rw [if_neg h3p] at h
        by_cases h4p : ("NaN".toList).isPrefixOf cs = true
        · rw [if_pos h4p] at h
          injection h with h2
          rw [Prod.mk.injEq] at h2
          exact const_prefix_span "NaN".toList cs rest 3 h4p (by decide) h2.2 (by decide)
        · rw [if_neg h4p] at h
          by_cases h5p : ("Infinity".toList).isPrefixOf cs = true
          · rw [if_pos h5p] at h
            injection h with h2
            rw [Prod.mk.injEq] at h2
            exact const_prefix_span "Infinity".toList cs rest 8 h5p (by decide) h2.2 (by decide)
          · rw [if_neg h5p] at h
            by_cases h6p : ("-Infinity".toList).isPrefixOf cs = true
            · rw [if_pos h6p] at h
              injection h with h2
              rw [Prod.mk.injEq] at h2
              exact const_prefix_span "-Infinity".toList cs rest 9 h6p (by decide) h2.2 (by decide)
            · rw [if_neg h6p] at h
              obtain ⟨⟨lexn, restn⟩, hnum, hmap⟩ := Option.map_eq_some'.mp h
              rw [Prod.mk.injEq] at hmap
              obtain ⟨u, hu, hsafe⟩ := scanJNum_span cs lexn restn hnum
              rw [← hmap.2]
              exact ⟨u, hu, hsafe⟩

/-- Leading JSON whitespace contains no marker start. -/
theorem ws_no_bad (l : List Char) : ∀ x ∈ l.takeWhile jWs, badMark x = false :=
  fun x hx => ws_not_bad x (List.mem_takeWhile_imp hx)

/-- Marker-freedom is closed under concatenation. -/
theorem no_bad_append (a b : List Char) (ha : ∀ x ∈ a, badMark x = false)
    (hb : ∀ x ∈ b, badMark x = false) : ∀ x ∈ a ++ b, badMark x = false :=
  fun x hx => (List.mem_append.mp hx).elim (ha x) (hb x)

/-- The central invariant: any span consumed by the JSON parser satisfies NS —
every marker-start character inside it lies within a string literal, preceded
by the opening quote with only printable characters in between. -/
theorem parse_NS : ∀ fuel : Nat,
    (∀ cs v rest, parseJVal fuel cs = some (v, rest) → ∃ u, cs = u ++ rest ∧ NS u) ∧
    (∀ cs acc v rest, parseJMembers fuel cs acc = some (v, rest) →
      ∃ u, cs = u ++ rest ∧ NS u) ∧
    (∀ cs acc v rest, parseJItems fuel cs acc = some (v, rest) →
      ∃ u, cs = u ++ rest ∧ NS u) := by
  intro fuel
  induction fuel with
  | zero =>
    refine ⟨?_, ?_, ?_⟩
    · intro cs v rest h; cases h
    · intro cs acc v rest h; cases h
    · intro cs acc v rest h; cases h
  | succ f ih =>
    obtain ⟨ihV, ihM, ihI⟩ := ih
    have hvalNS : ∀ cs v rest, parseJVal (f + 1) cs = some (v, rest) →
        ∃ u, cs = u ++ rest ∧ NS u := by
      intro cs v rest h
      rw [parseJVal.eq_def] at h
      simp only [] at h
      split at h
      · cases h
      rename_i c t heqd
      set W := cs.takeWhile jWs with hWdef
      have hcs : cs = W ++ c :: t := by
        rw [hWdef, ← heqd, List.takeWhile_append_dropWhile]
      have hWnb : ∀ x ∈ W, badMark x = false := by
        rw [hWdef]
        exact ws_no_bad cs
      by_cases hc1 : c = '"'
      · rw [if_pos hc1] at h
        split at h
        · rename_i s r hsc
          injection h with h2
          rw [Prod.mk.injEq] at h2
          obtain ⟨u1, hu1, hg1⟩ := scanJStr_span t.length t s r le_rfl hsc
          refine ⟨W ++ c :: u1, ?_, ?_⟩
          · rw [hcs, hu1, ← h2.2]
            simp [List.append_assoc]
          · rw [hc1]
            exact NS_append _ _ (NS_of_no_bad _ hWnb) (NS_quote u1 hg1)
        · cases h
      · rw [if_neg hc1] at h
        by_cases hc2 : c = '{'
        · rw [if_pos hc2] at h
          set W2 := t.takeWhile jWs with hW2def
          have hW2nb : ∀ x ∈ W2, badMark x = false := by
            rw [hW2def]
            exact ws_no_bad t
          split at h
          · rename_i r heq2
            injection h with h2
            rw [Prod.mk.injEq] at h2
            have ht : t = W2 ++ '}' :: r := by
              rw [hW2def, ← heq2, List.takeWhile_append_dropWhile]
            refine ⟨W ++ c :: (W2 ++ ['}']), ?_, ?_⟩
            · rw [hcs, ht, ← h2.2]
              simp [List.append_assoc]
            · apply NS_of_no_bad
              apply no_bad_append _ _ hWnb
              intro x hx
              rcases List.mem_cons.mp hx with hx | hx
              · rw [hx, hc2]; rfl
              · rcases List.mem_append.mp hx with hx | hx
                · exact hW2nb x hx
                · rw [List.mem_singleton.mp hx]; rfl
          · rename_i hne
            obtain ⟨u3, hu3, hNS3⟩ := ihM (t.dropWhile jWs) [] v rest h
            have ht : t = W2 ++ t.dropWhile jWs := by
              rw [hW2def, List.takeWhile_append_dropWhile]
            refine ⟨W ++ c :: (W2 ++ u3), ?_, ?_⟩
            · rw [hcs, ht, hu3]
              simp [List.append_assoc]
            · rw [show W ++ c :: (W2 ++ u3) = (W ++ c :: W2) ++ u3 from by
                simp [List.append_assoc]]
              apply NS_append _ _ _ hNS3
              apply NS_of_no_bad
              apply no_bad_append _ _ hWnb
              intro x hx
              rcases List.mem_cons.mp hx with hx | hx
              · rw [hx, hc2]; rfl
              · exact hW2nb x hx
        · rw [if_neg hc2] at h
          by_cases hc3 : c = '['
          · rw [if_pos hc3] at h
            set W2 := t.takeWhile jWs with hW2def
            have hW2nb : ∀ x ∈ W2, badMark x = false := by
              rw [hW2def]
              exact ws_no_bad t
            split at h
            · rename_i r heq2
              injection h with h2
              rw [Prod.mk.injEq] at h2
              have ht : t = W2 ++ ']' :: r := by
                rw [hW2def, ← heq2, List.takeWhile_append_dropWhile]
              refine ⟨W ++ c :: (W2 ++ [']']), ?_, ?_⟩
              · rw [hcs, ht, ← h2.2]
                simp [List.append_assoc]
              · apply NS_of_no_bad
                apply no_bad_append _ _ hWnb
                intro x hx
                rcases List.mem_cons.mp hx with hx | hx
                · rw [hx, hc3]; rfl
                · rcases List.mem_append.mp hx with hx | hx
                  · exact hW2nb x hx
                  · rw [List.mem_singleton.mp hx]; rfl
            · rename_i hne
              obtain ⟨u3, hu3, hNS3⟩ := ihI (t.dropWhile jWs) [] v rest h
              have ht : t = W2 ++ t.dropWhile jWs := by
                rw [hW2def, List.takeWhile_append_dropWhile]
              refine ⟨W ++ c :: (W2 ++ u3), ?_, ?_⟩
              · rw [hcs, ht, hu3]
                simp [List.append_assoc]
              · rw [show W ++ c :: (W2 ++ u3) = (W ++ c :: W2) ++ u3 from by
                  simp [List.append_assoc]]
                apply NS_append _ _ _ hNS3
                apply NS_of_no_bad
                apply no_bad_append _ _ hWnb
                intro x hx
                rcases List.mem_cons.mp hx with hx | hx
                · rw [hx, hc3]; rfl
                · exact hW2nb x hx
          · rw [if_neg hc3] at h
            obtain ⟨u1, hu1, hg1⟩ := scanJConst_span (c :: t) v rest h
            refine ⟨W ++ u1, ?_, ?_⟩
            · rw [hcs]
              rw [show W ++ c :: t = W ++ (c :: t) from rfl, hu1]
              simp [List.append_assoc]
            · exact NS_of_no_bad _ (no_bad_append _ _ hWnb hg1)
    refine ⟨hvalNS, ?_, ?_⟩
    · intro cs acc v rest h
      rw [parseJMembers.eq_def] at h
      simp only [] at h
      split at h
      · rename_i t
        split at h
        · cases h
        rename_i k r1 hsc
        split at h
        · rename_i r2 heq2
          split at h
          · cases h
          rename_i v2 r3 hpv
          obtain ⟨u1, hu1, hg1⟩ := scanJStr_span t.length t k r1 le_rfl hsc
          obtain ⟨u3, hu3, hNS3⟩ := ihV r2 v2 r3 hpv
          set W1 := r1.takeWhile jWs with hW1def
          have hW1nb : ∀ x ∈ W1, badMark x = false := by
            rw [hW1def]
            exact ws_no_bad r1
          have hr1 : r1 = W1 ++ ':' :: r2 := by
            rw [hW1def, ← heq2, List.takeWhile_append_dropWhile]
          split at h
          · rename_i r4 heq4
            obtain ⟨u5, hu5, hNS5⟩ := ihM (r4.dropWhile jWs) _ v rest h
            set W3 := r3.takeWhile jWs with hW3def
            have hW3nb : ∀ x ∈ W3, badMark x = false := by
              rw [hW3def]
              exact ws_no_bad r3
            have hr3 : r3 = W3 ++ ',' :: r4 := by
              rw [hW3def, ← heq4, List.takeWhile_append_dropWhile]
            set W4 := r4.takeWhile jWs with hW4def
            have hW4nb : ∀ x ∈ W4, badMark x = false := by
              rw [hW4def]
              exact ws_no_bad r4
            have hr4 : r4 = W4 ++ r4.dropWhile jWs := by
              rw [hW4def, List.takeWhile_append_dropWhile]
            refine ⟨'"' :: (u1 ++ (W1 ++ (':' :: (u3 ++ (W3 ++ (',' ::
              (W4 ++ u5))))))), ?_, ?_⟩
            · rw [hu1, hr1, hu3, hr3, hr4, hu5]
              simp [List.append_assoc]
            · rw [show '"' :: (u1 ++ (W1 ++ (':' :: (u3 ++ (W3 ++ (',' ::
                  (W4 ++ u5)))))))
                  = ('"' :: u1) ++ ((W1 ++ [':']) ++ (u3 ++
                    ((W3 ++ ',' :: W4) ++ u5))) from by simp [List.append_assoc]]
              apply NS_append _ _ (NS_quote u1 hg1)
              apply NS_append
              · apply NS_of_no_bad
                apply no_bad_append _ _ hW1nb
                intro x hx
                rw [List.mem_singleton.mp hx]; rfl
              apply NS_append _ _ hNS3
              apply NS_append _ _ _ hNS5
              apply NS_of_no_bad
              apply no_bad_append _ _ hW3nb
              intro x hx
              rcases List.mem_cons.mp hx with hx | hx
              · rw [hx]; rfl
              · exact hW4nb x hx
          · rename_i r4 heq4
            injection h with h2
            rw [Prod.mk.injEq] at h2
            set W3 := r3.takeWhile jWs with hW3def
            have hW3nb : ∀ x ∈ W3, badMark x = false := by
              rw [hW3def]
              exact ws_no_bad r3
            have hr3 : r3 = W3 ++ '}' :: r4 := by
              rw [hW3def, ← heq4, List.takeWhile_append_dropWhile]
            refine ⟨'"' :: (u1 ++ (W1 ++ (':' :: (u3 ++ (W3 ++ ['}']))))), ?_, ?_⟩
            · rw [hu1, hr1, hu3, hr3, ← h2.2]
              simp [List.append_assoc]
            · rw [show '"' :: (u1 ++ (W1 ++ (':' :: (u3 ++ (W3 ++ ['}'])))))
                  = ('"' :: u1) ++ ((W1 ++ [':']) ++ (u3 ++
                    (W3 ++ ['}']))) from by simp [List.append_assoc]]
              apply NS_append _ _ (NS_quote u1 hg1)
              apply NS_append
              · apply NS_of_no_bad
                apply no_bad_append _ _ hW1nb
                intro x hx
                rw [List.mem_singleton.mp hx]; rfl
              apply NS_append _ _ hNS3
              apply NS_of_no_bad
              apply no_bad_append _ _ hW3nb
              intro x hx
              rw [List.mem_singleton.mp hx]; rfl
          · cases h
        · cases h
      · cases h
    · intro cs acc v rest h
      rw [parseJItems.eq_def] at h
      simp only [] at h
      split at h
      · cases h
      rename_i v2 r1 hpv
      obtain ⟨u1, hu1, hNS1⟩ := ihV cs v2 r1 hpv
      set W1 := r1.takeWhile jWs with hW1def
      have hW1nb : ∀ x ∈ W1, badMark x = false := by
        rw [hW1def]
        exact ws_no_bad r1
      split at h
      · rename_i r2 heq2
        obtain ⟨u3, hu3, hNS3⟩ := ihI r2 _ v rest h
        have hr1 : r1 = W1 ++ ',' :: r2 := by
          rw [hW1def, ← heq2, List.takeWhile_append_dropWhile]
        refine ⟨u1 ++ (W1 ++ (',' :: u3)), ?_, ?_⟩
        · rw [hu1, hr1, hu3]
          simp [List.append_assoc]
        · apply NS_append _ _ hNS1
          rw [show W1 ++ (',' :: u3) = (W1 ++ [',']) ++ u3 from by
            simp [List.append_assoc]]
          apply NS_append _ _ _ hNS3
          apply NS_of_no_bad
          apply no_bad_append _ _ hW1nb
          intro x hx
          rw [List.mem_singleton.mp hx]; rfl
      · rename_i r2 heq2
        injection h with h2
        rw [Prod.mk.injEq] at h2
        have hr1 : r1 = W1 ++ ']' :: r2 := by
          rw [hW1def, ← heq2, List.takeWhile_append_dropWhile]
        refine ⟨u1 ++ (W1 ++ [']']), ?_, ?_⟩
        · rw [hu1, hr1, ← h2.2]
          simp [List.append_assoc]
        · apply NS_append _ _ hNS1
          apply NS_of_no_bad
          apply no_bad_append _ _ hW1nb
          intro x hx
          rw [List.mem_singleton.mp hx]; rfl
      · cases h

/-- A json.loads-accepted text satisfies NS. -/
theorem NS_of_json_loads (s : String) (v : Jv) (h : json_loads s = some v) :
    NS s.toList := by
  unfold json_loads at h
  split at h
  · rename_i v0 rest heq
    by_cases hr : rest.dropWhile jWs = []
    · obtain ⟨u, hu, hNS⟩ := (parse_NS (s.toList.length + 2)).1 s.toList v0 rest heq
      rw [hu]
      apply NS_append _ _ hNS
      apply NS_of_no_bad
      intro x hx
      exact ws_not_bad x (List.dropWhile_eq_nil_iff.mp hr x hx)
    · rw [if_neg hr] at h
      cases h
  · cases h

/-- No comment marker starts at a character that is not a marker start. -/
theorem matchMarker_none (c : Char) (b : List Char) (h : badMark c = false) :
    matchMarker (c :: b) = none := by
  rw [matchMarker.eq_def]
  split
  · rename_i heq
    rw [List.cons_eq_cons] at heq
    rw [heq.1] at h
    cases h
  · rename_i heq
    rw [List.cons_eq_cons] at heq
    rw [heq.1] at h
    cases h
  · rename_i heq
    rw [List.cons_eq_cons] at heq
    rw [heq.1] at h
    cases h
  · rename_i heq
    rw [List.cons_eq_cons] at heq
    rw [heq.1] at h
    cases h
  · rename_i heq
    rw [List.cons_eq_cons] at heq
    rw [heq.1] at h
    cases h
  · rfl

/-- Position trichotomy for an element against a two-part split. -/
theorem split_three {α : Type} (a1 a2 pp w : List α) (q nl : α)
    (h : a1 ++ q :: a2 = pp ++ nl :: w) : nl ∈ a2 ∨ q = nl ∨ q ∈ w := by
  induction a1 generalizing pp with
  | nil =>
    cases pp with
    | nil =>
      rw [List.nil_append, List.nil_append, List.cons_eq_cons] at h
      exact Or.inr (Or.inl h.1)
    | cons x pt =>
      rw [List.nil_append, List.cons_append, List.cons_eq_cons] at h
      left
      rw [h.2]
      exact List.mem_append.mpr (.inr (List.mem_cons_self _ _))
  | cons a a1t ih =>
    cases pp with
    | nil =>
      rw [List.cons_append, List.nil_append, List.cons_eq_cons] at h
      right; right
      rw [← h.2]
      exact List.mem_append.mpr (.inr (List.mem_cons_self _ _))
    | cons x pt =>
      rw [List.cons_append, List.cons_append, List.cons_eq_cons] at h
      exact ih pt h.2

/-- Under NS, the header pattern fails at every line-start position: the
first non-whitespace character after the position cannot be a marker start,
because its NS witness would have to sit inside the whitespace run or before
the line break. -/
theorem tryHeaderAt_none_of_NS (kws : List (List Char)) (tw : Bool) (body : List Char)
    (hNS : NS body) (pre cs : List Char) (hsplit : body = pre ++ cs)
    (hls : pre = [] ∨ ∃ pp, pre = pp ++ ['\n']) :
    tryHeaderAt kws tw cs = none := by
  unfold tryHeaderAt
  rcases hd : cs.dropWhile reWs with _ | ⟨c2, b⟩
  · rfl
  · by_cases hb : badMark c2 = true
    · exfalso
      have hcs2 : cs = cs.takeWhile reWs ++ c2 :: b := by
        rw [← hd, List.takeWhile_append_dropWhile]
      have hbody : body = (pre ++ cs.takeWhile reWs) ++ c2 :: b := by
        rw [hsplit, List.append_assoc]
        rw [← hcs2]
      obtain ⟨a1, q, a2, hsp, hq, hge⟩ := hNS _ c2 b hbody hb
      rcases hls with hpre | ⟨pp, hpre⟩
      · rw [hpre, List.nil_append] at hsp
        have hqmem : q ∈ cs.takeWhile reWs := by
          rw [hsp]
          exact List.mem_append.mpr (.inr (List.mem_cons_self _ _))
        have := List.mem_takeWhile_imp hqmem
        rw [hq] at this
        cases this
      · rw [hpre, List.append_assoc, List.singleton_append] at hsp
        rcases split_three a1 a2 pp (cs.takeWhile reWs) q '\n' hsp.symm with hnl | hqnl | hqw
        · have := hge '\n' hnl
          exact absurd this (by decide)
        · rw [hqnl] at hq
          exact absurd hq (by decide)
        · have := List.mem_takeWhile_imp hqw
          rw [hq] at this
          cases this
    · rw [Bool.not_eq_true] at hb
      rw [matchMarker_none c2 b hb]

/-- Under NS, the multiline header scan finds no match. -/
theorem headerScan_none_of_NS (kws : List (List Char)) (tw : Bool) (body : List Char)
    (hNS : NS body) :
    ∀ (cs pre : List Char) (atLS : Bool), body = pre ++ cs →
      (atLS = true → pre = [] ∨ ∃ pp, pre = pp ++ ['\n']) →
      headerScan kws tw pre cs atLS = none := by
  intro cs
  induction cs with
  | nil =>
    intro pre atLS _ _
    rfl
  | cons c t ih =>
    intro pre atLS hsplit hls
    have hnext : body = (pre ++ [c]) ++ t := by
      rw [hsplit]
      simp [List.append_assoc]
    have hlsnext : (c == '\n') = true → pre ++ [c] = [] ∨
        ∃ pp, pre ++ [c] = pp ++ ['\n'] := by
      intro hcn
      right
      exact ⟨pre, by rw [beq_iff_eq.mp hcn]⟩
    rw [headerScan.eq_def]
    simp only []
    by_cases hat : atLS = true
    · rw [if_pos hat]
      rw [tryHeaderAt_none_of_NS kws tw body hNS pre (c :: t) hsplit (hls hat)]
      exact ih (pre ++ [c]) (c == '\n') hnext hlsnext
    · rw [if_neg hat]
      exact ih (pre ++ [c]) (c == '\n') hnext hlsnext

/-- A JSON-parseable fence body has no crew-style file header. -/
theorem crew_header_search_none_of_NS (body : List Char) (hNS : NS body) :
    crew_header_search body = none := by
  unfold crew_header_search
  exact headerScan_none_of_NS _ _ body hNS body [] true rfl (fun _ => Or.inl rfl)

/-- A fence delimiter never starts at a whitespace character. -/
theorem ws_no_fence_start (c : Char) (t : List Char) (h : reWs c = true) :
    fenceOpen.isPrefixOf (c :: t) = false := by
  simp only [reWs, Bool.or_eq_true, beq_iff_eq] at h
  rcases h with ((((h | h) | h) | h) | h) | h <;>
    (subst h; rfl)

/-- If the single fence body json-parses, the text cannot look multi-file:
the json block itself lacks the required header. -/
theorem manifest_parse_implies_multi_false (raw : String) (f : List Char × List Char)
    (hsf : scanFences raw.toList = [f]) (data : Jv)
    (hjl : json_loads (String.mk f.2) = some data) :
    looks_like_multi_file raw = false := by
  have hNS : NS f.2 := by
    have h0 := NS_of_json_loads (String.mk f.2) data hjl
    rw [toList_mk] at h0
    exact h0
  exact looks_like_multi_false_of_headerless raw f
    (by rw [hsf]; exact List.mem_singleton.mpr rfl)
    (crew_header_search_none_of_NS f.2 hNS)

/-- When the text looks multi-file, the manifest check returns False without
reaching json decoding of a parseable body — the two shapes are disjoint. -/
theorem jm_ok_false_of_multi (raw : String) (hm : looks_like_multi_file raw = true) :
    looks_like_json_manifest raw = .ok false := by
  unfold looks_like_json_manifest
  split
  · rename_i f hsf
    split
    · rfl
    · rename_i fields hjson
      exfalso
      rw [manifest_parse_implies_multi_false raw f hsf _ hjson] at hm
      cases hm
    · rfl
  · rfl

/-- _detect_creator_format (multi first in the source) is extensionally equal
to the spec order (manifest first): the two orders can only differ when both
shapes match, which the disjointness lemma rules out. -/
theorem detect_eq_spec (raw : String) :
    detect_creator_format raw = detect_creator_format_spec raw := by
  unfold detect_creator_format detect_creator_format_spec
  by_cases hm : looks_like_multi_file raw = true
  · rw [if_pos hm, jm_ok_false_of_multi raw hm]
    simp only []
    rw [if_pos hm]
  · rw [if_neg hm]
    cases hjm : looks_like_json_manifest raw with
    | error e => rfl
    | ok b =>
      cases b with
      | true => rfl
      | false =>
        simp only []
        rw [if_neg hm]

/-- The JSON-fence search fails on all-whitespace text. -/
theorem searchJsonFence_ws : ∀ cs : List Char, (∀ c ∈ cs, reWs c = true) →
    searchJsonFence cs = none := by
  intro cs
  induction cs with
  | nil => intro _; rfl
  | cons c t ih =>
    intro h
    rw [searchJsonFence.eq_def]
    simp only []
    rw [ws_no_fence_start c t (h c (List.mem_cons_self _ _)), Bool.false_and]
    simp only [Bool.false_eq_true, if_false]
    exact ih (fun x hx => h x (List.mem_cons_of_mem _ hx))

/-- The python-fence search fails on all-whitespace text. -/
theorem pySearchPyFence_ws : ∀ cs : List Char, (∀ c ∈ cs, reWs c = true) →
    pySearchPyFence cs = none := by
  intro cs
  induction cs with
  | nil => intro _; rfl
  | cons c t ih =>
    intro h
    rw [pySearchPyFence.eq_def]
    simp only []
    rw [ws_no_fence_start c t (h c (List.mem_cons_self _ _)), Bool.false_and]
    simp only [Bool.false_eq_true, if_false]
    exact ih (fun x hx => h x (List.mem_cons_of_mem _ hx))

/-- The generic-fence search fails on all-whitespace text. -/
theorem pySearchGenFence_ws : ∀ cs : List Char, (∀ c ∈ cs, reWs c = true) →
    pySearchGenFence cs = none := by
  intro cs
  induction cs with
  | nil => intro _; rfl
  | cons c t ih =>
    intro h
    rw [pySearchGenFence.eq_def]
    simp only []
    rw [ws_no_fence_start c t (h c (List.mem_cons_self _ _))]
    simp only [Bool.false_eq_true, if_false]
    exact ih (fun x hx => h x (List.mem_cons_of_mem _ hx))

/-- The fence block scan finds nothing in all-whitespace text. -/
theorem scanFencesAux_ws : ∀ (fuel : Nat) (cs : List Char),
    (∀ c ∈ cs, reWs c = true) → scanFencesAux fuel cs = [] := by
  intro fuel
  induction fuel with
  | zero => intro cs _; cases cs <;> rfl
  | succ fl ih =>
    intro cs h
    cases cs with
    | nil => rfl
    | cons c t =>
      rw [scanFencesAux.eq_def]
      simp only []
      rw [ws_no_fence_start c t (h c (List.mem_cons_self _ _))]
      simp only [Bool.false_eq_true, if_false]
      exact ih t (fun x hx => h x (List.mem_cons_of_mem _ hx))

/-- parse_creator_outputs equals the spec chain: its blank-text early return
coincides with what the manifest / multi / single chain produces on blank
text. -/
theorem parse_eq_spec (raw dt : String) :
    parse_creator_outputs raw dt = parse_creator_outputs_spec raw dt := by
  unfold parse_creator_outputs parse_creator_outputs_spec
  by_cases h1 : raw = ""
  · subst h1
    rfl
  · by_cases h2 : pyStrip raw = ""
    · have hws : ∀ c ∈ raw.toList, reWs c = true := by
        apply stripL_all_ws
        have h3 := congrArg String.toList h2
        rw [pyStrip, toList_mk] at h3
        exact h3
      rw [if_pos (by simp [h1, h2])]
      have hjm : parse_json_manifest raw = .ok [] := by
        unfold parse_json_manifest
        rw [if_neg h1, searchJsonFence_ws raw.toList hws]
      have hpf : parse_per_file_fences raw = [] := by
        unfold parse_per_file_fences scanFences
        rw [scanFencesAux_ws _ raw.toList hws]
        rfl
      have hsf : extract_single_fence raw = none := by
        unfold extract_single_fence
        rw [if_neg h1, pySearchPyFence_ws raw.toList hws,
          pySearchGenFence_ws raw.toList hws]
        rfl
      rw [hjm, hpf, hsf]
    · rw [if_neg (by simp [h1, h2])]

/-- Claim C5: format detection and parsing both evaluate the three shapes in
the fixed priority manifest, multi-file, single-legacy and return the first
that applies.  parse_creator_outputs implements that order directly;
_detect_creator_format tests multi-file first in the source, but is
extensionally equal to the spec order because a JSON-parseable fence body can
never carry the file header the multi-file shape demands. -/
theorem c5_priority_order (raw dt : String) :
    detect_creator_format raw = detect_creator_format_spec raw ∧
    parse_creator_outputs raw dt = parse_creator_outputs_spec raw dt :=
  ⟨detect_eq_spec raw, parse_eq_spec raw dt⟩
